import Mathlib

/-!
# Trace engine of the routing-algorithm visualiser

A shallow embedding of `src/js/algorithms.js` (the generators `dijkstra`,
`bellmanFord`, `linkState`, `distanceVector`) and of the part of
`src/js/graph-manager.js` they read (`getAdjacencyList`, the node ids and the
edge list), followed by theorems about the step sequences they produce.

A generator is embedded as the list of the steps it yields, in order.  Numbers
are the integer values of JavaScript doubles, or `Infinity`: node ids and edge
weights are integers (`parseInt` made them), and a sum of two of them is the
double nearest to the exact sum (`roundDouble`), which differs from it only
beyond 2^53.  Two things a double does are left out: its exponent range (a sum
of magnitude 2^1024 or more is `Infinity` or `-Infinity` in the source and
stays finite here) and the exponent notation `String` gives a number from
10^21 on (the texts of such numbers in messages, keys and labels).
-/

namespace Algorithms

/-! ## JavaScript values used by the engine -/

/-- Node identifier as the engine sees it: a JavaScript number or a string.
The graph editor creates nodes and edge endpoints with number ids
(`addNode(newId, ..)`, `addEdge(parseInt ..)`), while `main.js` passes the
start node as the text of an input field, a string. -/
inductive NodeId where
  | num (n : Int)
  | str (s : String)
  deriving DecidableEq, Repr

/-- Distance value stored by the engine: `Infinity` or a finite integer. -/
inductive Dist where
  | infinity
  | fin (n : Int)
  deriving DecidableEq, Repr

/-- Spacing of the doubles at magnitude `n`: 1 below 2^53, and twice as much
with every further binary digit of `n`; `fuel` bounds the digits read. -/
def ulpOf : Nat → Nat → Nat
  | 0, _ => 1
  | fuel + 1, n => if n < 9007199254740992 then 1 else 2 * ulpOf fuel (n / 2)

/-- The double nearest to the integer `z`, a tie going to the even
significand (IEEE 754 round-to-nearest-even, the rounding of every JavaScript
arithmetic operation).  Integers up to 2^53 = 9007199254740992 in magnitude
are doubles themselves; beyond, the magnitude is cut to 53 significant binary
digits. -/
def roundDouble (z : Int) : Int :=
  let n := z.natAbs
  if n ≤ 9007199254740992 then z
  else
    let ulp := ulpOf n n
    let q := n / ulp
    let r := n % ulp
    let m :=
      if 2 * r < ulp then q
      else if ulp < 2 * r then q + 1
      else if q % 2 = 0 then q
      else q + 1
    Int.sign z * ((m * ulp : Nat) : Int)

/-- Value of a decimal digit character. -/
def decDigit (c : Char) : Option Nat :=
  if 48 ≤ c.toNat ∧ c.toNat ≤ 57 then some (c.toNat - 48) else none

/-- Value of a digit character in the given radix (10 or 16), as `parseInt`
reads it. -/
def digitOf (radix : Nat) (c : Char) : Option Nat :=
  match decDigit c with
  | some d => some d
  | none =>
    if radix = 16 ∧ 97 ≤ c.toNat ∧ c.toNat ≤ 102 then some (c.toNat - 87)
    else if radix = 16 ∧ 65 ≤ c.toNat ∧ c.toNat ≤ 70 then some (c.toNat - 55)
    else none

/-- Characters `parseInt` skips at the start of its argument (ECMAScript
WhiteSpace and LineTerminator). -/
def isStrWhiteSpace (c : Char) : Bool :=
  let n := c.toNat
  n = 9 || n = 10 || n = 11 || n = 12 || n = 13 || n = 32 || n = 160 ||
  n = 5760 || (8192 ≤ n && n ≤ 8202) || n = 8232 || n = 8233 || n = 8239 ||
  n = 8287 || n = 12288 || n = 65279

/-- Longest prefix of digits of the given radix, read as a number; the
accumulator is `none` until a first digit has been read. -/
def takeDigits (radix : Nat) : List Char → Option Nat → Option Nat
  | [], acc => acc
  | c :: cs, acc =>
    match digitOf radix c with
    | some d => takeDigits radix cs (some (acc.getD 0 * radix + d))
    | none => acc

/-- Sign prefix as `parseInt` reads it: whether the number is negated, and the
rest of the text. -/
def stripSign : List Char → Bool × List Char
  | c :: cs => if c = '-' then (true, cs) else if c = '+' then (false, cs) else (false, c :: cs)
  | [] => (false, [])

/-- Radix prefix as `parseInt` without a radix argument reads it: `0x` or `0X`
selects base 16. -/
def stripRadix : List Char → Nat × List Char
  | c :: d :: cs =>
    if c = '0' ∧ (d = 'x' ∨ d = 'X') then (16, cs) else (10, c :: d :: cs)
  | cs => (10, cs)

/-- JavaScript `parseInt(s)` on a string, `none` standing for `NaN`: the
number is the double nearest to the integer the digits denote. -/
def parseIntString (s : String) : Option Int :=
  let (neg, t) := stripSign (s.data.dropWhile isStrWhiteSpace)
  let (radix, u) := stripRadix t
  match takeDigits radix u none with
  | some v => some (roundDouble (if neg then -(v : Int) else (v : Int)))
  | none => none

/-- JavaScript `parseInt(x)` on a node identifier: a string is parsed, and an
integer number is returned as it is (`parseInt` reads it back from its text,
which is its decimal text below 10^21). -/
def parseInt : NodeId → Option Int
  | .num n => some n
  | .str s => parseIntString s

/-- Value of a text made of decimal digits only. -/
def allDigits : List Char → Nat → Option Nat
  | [], acc => some acc
  | c :: cs, acc =>
    match decDigit c with
    | some d => allDigits cs (acc * 10 + d)
    | none => none

/-- The integer a text of decimal digits without leading zero denotes, with a
minus sign for a negative one. -/
def decimalInt : List Char → Option Int
  | [] => none
  | c :: cs =>
    if c = '-' then
      match cs with
      | [] => none
      | d :: ds => if d = '0' then none else (allDigits (d :: ds) 0).map (fun (v : Nat) => -(v : Int))
    else if c = '0' then (if cs = [] then some 0 else none)
    else (allDigits (c :: cs) 0).map (fun (v : Nat) => (v : Int))

/-- The integer whose JavaScript `String(n)` is the given text, if there is
one: the text is the decimal text of a double below 10^21 in magnitude (from
there on `String` gives the exponent notation). -/
def canonicalInt (cs : List Char) : Option Int :=
  match decimalInt cs with
  | some n =>
    if roundDouble n = n ∧ n.natAbs < 1000000000000000000000 then some n else none
  | none => none

/-- Property key under which an object stores a value for an identifier.
JavaScript converts the identifier to a string; two identifiers share a key
exactly when their strings agree, so the key is kept here in normal form: the
number `n` for the number `n` and for the string `String(n)`, the string
itself for any other string. -/
def NodeId.key : NodeId → NodeId
  | .num n => .num n
  | .str s =>
    match canonicalInt s.data with
    | some n => .num n
    | none => .str s

/-- Text of an identifier in a template literal. -/
def NodeId.toStr : NodeId → String
  | .num n => toString n
  | .str s => s

/-- Text of a distance in a template literal. -/
def Dist.toStr : Dist → String
  | .infinity => "Infinity"
  | .fin n => toString n

/-- JavaScript object used as a map: its properties, each under a normalised
key, listed in the order of their first assignment (the engine only reads and
writes single properties, so the order JavaScript enumerates them in plays no
part). -/
abbrev Obj (α : Type) := List (NodeId × α)

/-- Property lookup by normalised key; `none` is `undefined`. -/
def Obj.getKey {α : Type} : Obj α → NodeId → Option α
  | [], _ => none
  | (k, v) :: rest, key => if k = key then some v else Obj.getKey rest key

/-- Property assignment by normalised key: an existing property is
overwritten in place, a new one is added at the end. -/
def Obj.setKey {α : Type} : Obj α → NodeId → α → Obj α
  | [], key, v => [(key, v)]
  | (k, w) :: rest, key, v =>
    if k = key then (k, v) :: rest else (k, w) :: Obj.setKey rest key v

/-- Read `obj[id]`. -/
def Obj.get {α : Type} (o : Obj α) (id : NodeId) : Option α := Obj.getKey o id.key

/-- Write `obj[id] = v`. -/
def Obj.set {α : Type} (o : Obj α) (id : NodeId) (v : α) : Obj α :=
  Obj.setKey o id.key v

/-- JavaScript `x + w` for a stored distance `x` (`undefined` when `none`) and
an integer `w`; the result `none` is `NaN`.  The sum of two finite numbers is
the double nearest to their exact sum. -/
def jsAdd : Option Dist → Int → Option Dist
  | some (.fin a), w => some (.fin (roundDouble (a + w)))
  | some .infinity, _ => some .infinity
  | none, _ => none

/-- JavaScript `x < y` on distances; `none` is `undefined` or `NaN`, for which
every comparison is false. -/
def jsLt : Option Dist → Option Dist → Bool
  | some (.fin a), some (.fin b) => decide (a < b)
  | some (.fin _), some .infinity => true
  | _, _ => false

/-! ## Graph view -/

/-- Edge of the vis.js edge data set as `GraphManager.addEdge` stores it:
`weight` is the integer cost `parseInt(weight)`, and `label` is its text
`String(weight)`, the decimal text of a cost below 10^21 in magnitude, so that
both `edge.weight` and `parseInt(edge.label || edge.weight)` evaluate to
`weight`. -/
structure Edge where
  id : String
  from_ : Int
  to_ : Int
  weight : Int
  deriving DecidableEq, Repr

/-- What the engine reads of a `GraphManager`: `nodes.getIds()` and
`edges.get()`, both in insertion order. -/
structure Graph where
  nodes : List Int
  edges : List Edge
  deriving DecidableEq, Repr

/-- Entry of an adjacency list: `{ to, weight }`. -/
structure Adj where
  to_ : Int
  weight : Int
  deriving DecidableEq, Repr

/-- `GraphManager.getAdjacencyList`: an empty list for every node, then every
edge whose source has a list is appended to it. -/
def getAdjacencyList (g : Graph) : Obj (List Adj) :=
  let adj := g.nodes.foldl (fun adj n => Obj.set adj (.num n) []) []
  g.edges.foldl
    (fun adj e =>
      match Obj.get adj (.num e.from_) with
      | some l => Obj.set adj (.num e.from_) (l ++ [Adj.mk e.to_ e.weight])
      | none => adj)
    adj

/-! ## Steps -/

/-- The `type` of a step. -/
inductive Kind where
  | init | visit | check | update | iteration | info | error | finished
  deriving DecidableEq, Repr

/-- The `data` object of a step with the contents its fields have when the
step is yielded; an absent field is `none`. -/
structure StepData where
  distances : Option (Obj Dist)
  previous : Option (Obj (Option NodeId))
  deriving DecidableEq, Repr

/-- Step object built by `createStep`; `data = none` is `null`. -/
structure Step where
  type : Kind
  data : Option StepData
  message : String
  highlightNodes : List NodeId
  highlightEdges : List String
  deriving DecidableEq, Repr

/-- `Algorithms.createStep`. -/
def createStep (type : Kind) (data : Option StepData) (message : String)
    (highlightNodes : List NodeId) (highlightEdges : List String) : Step :=
  Step.mk type data message highlightNodes highlightEdges

/-- The object literal `{ distances }`. -/
def dataD (distances : Obj Dist) : Option StepData :=
  some (StepData.mk (some distances) none)

/-- The object literal `{ distances, previous }`. -/
def dataDP (distances : Obj Dist) (previous : Obj (Option NodeId)) : Option StepData :=
  some (StepData.mk (some distances) (some previous))

/-- The start-node test shared by the algorithms:
`nodes.includes(parseInt(startNodeId)) || nodes.includes(startNodeId)`.  The
node ids are numbers, so a string is never included itself. -/
def startFound (g : Graph) (startNodeId : NodeId) : Bool :=
  (match parseInt startNodeId with
    | some n => decide (n ∈ g.nodes)
    | none => false) ||
  (match startNodeId with
    | .num n => decide (n ∈ g.nodes)
    | .str _ => false)

/-- The step yielded for an unknown start node. -/
def notFoundStep (startNodeId : NodeId) : Step :=
  createStep .error none ("Start node " ++ startNodeId.toStr ++ " not found.") [] []

/-- The loop `nodes.forEach(node => { distances[node] = Infinity; })` followed
by `distances[startNodeId] = 0`. -/
def initDistances (g : Graph) (startNodeId : NodeId) : Obj Dist :=
  Obj.set (g.nodes.foldl (fun d n => Obj.set d (.num n) Dist.infinity) []) startNodeId (.fin 0)

/-- The loop `nodes.forEach(node => { previous[node] = null; })`. -/
def initPrevious (g : Graph) : Obj (Option NodeId) :=
  g.nodes.foldl (fun p n => Obj.set p (.num n) none) []

/-! ## Dijkstra -/

/-- Entry `{ id, dist }` of the priority queue.  An entry is pushed with
distance 0 or with a sum that passed the `<` test, hence an integer. -/
structure QItem where
  id : NodeId
  dist : Int
  deriving DecidableEq, Repr

/-- Local variables of a `dijkstra` run. -/
structure DState where
  distances : Obj Dist
  previous : Obj (Option NodeId)
  pq : List QItem
  visited : List NodeId
  deriving DecidableEq, Repr

/-- Body of `for (let edge of neighbors)` for one edge: the `check` step, then
the relaxation with its `update` step when `distances[u] + weight <
distances[v]`. -/
def relaxEdge (u : NodeId) (st : DState) (edge : Adj) : List Step × DState :=
  let v := NodeId.num edge.to_
  let weight := edge.weight
  let checkStep := createStep .check (dataD st.distances)
    ("Checking edge " ++ u.toStr ++ " -> " ++ v.toStr ++ " (weight: " ++ toString weight ++ ")")
    [u, v] [u.toStr ++ "-" ++ v.toStr]
  match jsAdd (Obj.get st.distances u) weight with
  | some (.fin x) =>
    if jsLt (some (.fin x)) (Obj.get st.distances v) then
      let distances := Obj.set st.distances v (.fin x)
      let st1 : DState :=
        DState.mk distances (Obj.set st.previous v (some u)) (st.pq ++ [QItem.mk v x]) st.visited
      let updateStep := createStep .update (dataD distances)
        ("Updated distance for Node " ++ v.toStr ++ " to " ++ toString x)
        [v] [u.toStr ++ "-" ++ v.toStr]
      ([checkStep, updateStep], st1)
    else ([checkStep], st)
  -- a sum that is `Infinity` or `NaN` is below nothing
  | _ => ([checkStep], st)

/-- The loop `for (let edge of neighbors)`. -/
def relaxEdges (u : NodeId) : List Adj → DState → List Step × DState
  | [], st => ([], st)
  | edge :: rest, st =>
    let r := relaxEdge u st edge
    let r2 := relaxEdges u rest r.2
    (r.1 ++ r2.1, r2.2)

/-- The loop `while (pq.length > 0)`, run for at most `fuel` iterations;
`none` when the fuel does not reach the end of the loop.  `pq.sort` with the
comparator `a.dist - b.dist` is a stable sort by distance, here insertion
sort, and `pq.shift()` takes its head. -/
def dijkstraLoop (adj : Obj (List Adj)) : Nat → DState → Option (List Step × DState)
  | 0, _ => none
  | fuel + 1, st =>
    match List.insertionSort (fun a b => a.dist ≤ b.dist) st.pq with
    | [] => some ([], st)
    | item :: rest =>
      let u := item.id
      let d := item.dist
      let st1 : DState := DState.mk st.distances st.previous rest st.visited
      if jsLt (Obj.get st1.distances u) (some (.fin d)) then dijkstraLoop adj fuel st1
      else if u ∈ st1.visited then dijkstraLoop adj fuel st1
      else
        let st2 : DState := DState.mk st1.distances st1.previous st1.pq (st1.visited ++ [u])
        let visitStep := createStep .visit (dataD st2.distances)
          ("Visiting Node " ++ u.toStr ++ " (Current Dist: " ++ toString d ++ ")") [u] []
        let neighbors := (Obj.get adj u).getD []
        let r := relaxEdges u neighbors st2
        match dijkstraLoop adj fuel r.2 with
        | some (more, st3) => some (visitStep :: (r.1 ++ more), st3)
        | none => none

/-- `Algorithms.dijkstra` with the `while` loop bounded by `fuel`. -/
def dijkstra (fuel : Nat) (g : Graph) (startNodeId : NodeId) : Option (List Step) :=
  let adj := getAdjacencyList g
  if !startFound g startNodeId then some [notFoundStep startNodeId]
  else
    let distances := initDistances g startNodeId
    let previous := initPrevious g
    let st : DState := DState.mk distances previous [QItem.mk startNodeId 0] []
    let initStep := createStep .init (dataD distances)
      ("Initialized distances. Start node: " ++ startNodeId.toStr) [startNodeId] []
    match dijkstraLoop adj fuel st with
    | some (steps, st1) =>
      some (initStep :: (steps ++
        [createStep .finished (dataDP st1.distances st1.previous) "Dijkstra completed." [] []]))
    | none => none

/-! ## Bellman-Ford -/

/-- Local variables of a `bellmanFord` or `distanceVector` run; `changed` is
the flag of the current round. -/
structure RState where
  distances : Obj Dist
  previous : Obj (Option NodeId)
  changed : Bool
  deriving DecidableEq, Repr

/-- The relaxation test
`distances[u] !== Infinity && distances[u] + w < distances[v]` for an edge. -/
def canRelax (distances : Obj Dist) (edge : Edge) : Bool :=
  decide (Obj.get distances (.num edge.from_) ≠ some Dist.infinity) &&
    jsLt (jsAdd (Obj.get distances (.num edge.from_)) edge.weight)
      (Obj.get distances (.num edge.to_))

/-- Body of the edge loop of `bellmanFord` for one edge. -/
def bfRelaxEdge (st : RState) (edge : Edge) : List Step × RState :=
  let u := NodeId.num edge.from_
  let v := NodeId.num edge.to_
  let w := edge.weight
  if canRelax st.distances edge then
    match jsAdd (Obj.get st.distances u) w with
    | some nd =>
      let distances := Obj.set st.distances v nd
      ([createStep .update (dataD distances)
          ("Relaxed " ++ u.toStr ++ "->" ++ v.toStr ++ ": New dist " ++ nd.toStr) [v] [edge.id]],
        RState.mk distances (Obj.set st.previous v (some u)) true)
    -- not reached: a `NaN` sum fails the test
    | none => ([], st)
  else ([], st)

/-- The edge loop `for (let edge of edges)` of one `bellmanFord` round. -/
def bfRelaxAll : List Edge → RState → List Step × RState
  | [], st => ([], st)
  | edge :: rest, st =>
    let r := bfRelaxEdge st edge
    let r2 := bfRelaxAll rest r.2
    (r.1 ++ r2.1, r2.2)

/-- The loop `for (let i = 0; i < nodes.length - 1; i++)` of `bellmanFord`
from round index `i` on, with `k` rounds left. -/
def bfRounds (g : Graph) : Nat → Nat → RState → List Step × RState
  | 0, _, st => ([], st)
  | k + 1, i, st =>
    let iterStep := createStep .iteration (dataD st.distances)
      ("Iteration " ++ toString (i + 1) ++ "/" ++ toString (g.nodes.length - 1)) [] []
    let r := bfRelaxAll g.edges (RState.mk st.distances st.previous false)
    if !r.2.changed then
      (iterStep :: (r.1 ++ [createStep .info (dataD r.2.distances)
        "No changes in this iteration, stopping early." [] []]), r.2)
    else
      let r2 := bfRounds g k (i + 1) r.2
      (iterStep :: (r.1 ++ r2.1), r2.2)

/-- The closing part of `bellmanFord`: the negative-cycle pass over the edges
and the `finished` step. -/
def bfCheck (g : Graph) (st : RState) : List Step :=
  match g.edges.find? (canRelax st.distances) with
  | some edge =>
    [createStep .error (dataD st.distances) "Negative weight cycle detected!"
      [.num edge.from_, .num edge.to_] [edge.id]]
  | none =>
    [createStep .finished (dataDP st.distances st.previous) "Bellman-Ford completed." [] []]

/-- `Algorithms.bellmanFord`. -/
def bellmanFord (g : Graph) (startNodeId : NodeId) : List Step :=
  if !startFound g startNodeId then [notFoundStep startNodeId]
  else
    let distances := initDistances g startNodeId
    let previous := initPrevious g
    let initStep := createStep .init (dataD distances)
      "Initialized Bellman-Ford. Relaxing edges V-1 times." [startNodeId] []
    let r := bfRounds g (g.nodes.length - 1) 0 (RState.mk distances previous false)
    initStep :: (r.1 ++ bfCheck g r.2)

/-! ## Link state -/

/-- The step `linkState` yields first; its data is the empty object. -/
def linkStateInfoStep : Step :=
  createStep .info (some (StepData.mk none none))
    "Link State: 1. Nodes Flood LSPs. 2. Build Graph. 3. Run Dijkstra." [] []

/-- `Algorithms.linkState`: one `info` step, then everything `dijkstra`
yields (`yield*`). -/
def linkState (fuel : Nat) (g : Graph) (startNodeId : NodeId) : Option (List Step) :=
  match dijkstra fuel g startNodeId with
  | some steps => some (linkStateInfoStep :: steps)
  | none => none

/-! ## Distance vector -/

/-- Body of the edge loop of `distanceVector` for one edge. -/
def dvRelaxEdge (st : RState) (edge : Edge) : List Step × RState :=
  let u := NodeId.num edge.from_
  let v := NodeId.num edge.to_
  let w := edge.weight
  if canRelax st.distances edge then
    match jsAdd (Obj.get st.distances u) w with
    | some nd =>
      let distances := Obj.set st.distances v nd
      ([createStep .update (dataD distances)
          ("Node " ++ u.toStr ++ " updates Node " ++ v.toStr ++ ": New Path Cost " ++ nd.toStr)
          [v] [edge.id]],
        RState.mk distances (Obj.set st.previous v (some u)) true)
    -- not reached: a `NaN` sum fails the test
    | none => ([], st)
  else ([], st)

/-- The edge loop of one `distanceVector` round. -/
def dvRelaxAll : List Edge → RState → List Step × RState
  | [], st => ([], st)
  | edge :: rest, st =>
    let r := dvRelaxEdge st edge
    let r2 := dvRelaxAll rest r.2
    (r.1 ++ r2.1, r2.2)

/-- The round loop of `distanceVector` from round index `i` on, with `k`
rounds left. -/
def dvRounds (g : Graph) : Nat → Nat → RState → List Step × RState
  | 0, _, st => ([], st)
  | k + 1, i, st =>
    let iterStep := createStep .iteration (dataD st.distances)
      ("Round " ++ toString (i + 1) ++ ": Exchanging Vectors...") [] []
    let r := dvRelaxAll g.edges (RState.mk st.distances st.previous false)
    if !r.2.changed then
      (iterStep :: (r.1 ++ [createStep .info (dataD r.2.distances)
        "Convergence reached. No more updates." [] []]), r.2)
    else
      let r2 := dvRounds g k (i + 1) r.2
      (iterStep :: (r.1 ++ r2.1), r2.2)

/-- `Algorithms.distanceVector`. -/
def distanceVector (g : Graph) (startNodeId : NodeId) : List Step :=
  if !startFound g startNodeId then [notFoundStep startNodeId]
  else
    let distances := initDistances g startNodeId
    let previous := initPrevious g
    let initStep := createStep .init (dataD distances)
      "Initialized Distance Vector. Nodes will exchange vectors." [startNodeId] []
    let r := dvRounds g (g.nodes.length - 1) 0 (RState.mk distances previous false)
    initStep :: (r.1 ++
      [createStep .finished (dataDP r.2.distances r.2.previous)
        "Distance Vector Protocol Converged (Simulated)." [] []])

/-! ## Example graphs -/

/-- The graph `GraphManager.initNetwork` builds: nodes 1 to 5 and seven edges,
each with the id `addEdge` gives it. -/
def sampleGraph : Graph :=
  Graph.mk [1, 2, 3, 4, 5]
    [Edge.mk "1-2" 1 2 4, Edge.mk "1-3" 1 3 2, Edge.mk "2-3" 2 3 1, Edge.mk "2-4" 2 4 5,
     Edge.mk "3-4" 3 4 8, Edge.mk "3-5" 3 5 10, Edge.mk "4-5" 4 5 2]

/-- A graph whose negative cycle 2 -> 3 -> 2 cannot be reached from node 1. -/
def unreachableCycleGraph : Graph :=
  Graph.mk [1, 2, 3] [Edge.mk "2-3" 2 3 (-1), Edge.mk "3-2" 3 2 (-1)]

/-- A graph with the negative cycle 1 -> 2 -> 1. -/
def negativeCycleGraph : Graph :=
  Graph.mk [1, 2] [Edge.mk "1-2" 1 2 1, Edge.mk "2-1" 2 1 (-5)]

/-- The path 1 -> 2 -> 3 with the weights 2^53 and 1, as the edge list
`1 2 9007199254740992`, `2 3 1` of the input dialog gives it. -/
def largeSumGraph : Graph :=
  Graph.mk [1, 2, 3] [Edge.mk "1-2" 1 2 9007199254740992, Edge.mk "2-3" 2 3 1]

/-- The cycle 1 -> 2 -> 1 with the weights -2^53 and 2^53 - 1, of total
weight -1. -/
def roundedCycleGraph : Graph :=
  Graph.mk [1, 2]
    [Edge.mk "1-2" 1 2 (-9007199254740992), Edge.mk "2-1" 2 1 9007199254740991]

/-- The path 1 -> 2 -> 3 with the weights -2^52 and -(2^52 - 1), followed by
the cycle 3 -> 4 -> 3 with the weights 0 and -1: the absolute values of the
weights add up to 2^53. -/
def deepCycleGraph : Graph :=
  Graph.mk [1, 2, 3, 4]
    [Edge.mk "1-2" 1 2 (-4503599627370496), Edge.mk "2-3" 2 3 (-4503599627370495),
     Edge.mk "3-4" 3 4 0, Edge.mk "4-3" 4 3 (-1)]

/-! ## Paths and shortest-path costs -/

/-- Every edge joins two nodes of the graph (the invariant of the graph data
model). -/
def WellFormed (g : Graph) : Prop :=
  ∀ e ∈ g.edges, e.from_ ∈ g.nodes ∧ e.to_ ∈ g.nodes

/-- `Walk g a b c`: the edges of `g` contain a directed walk from `a` to `b`
of total weight `c`. -/
inductive Walk (g : Graph) : Int → Int → Int → Prop where
  | nil (a : Int) : Walk g a a 0
  | snoc {a b c : Int} (e : Edge) :
      Walk g a b c → e ∈ g.edges → e.from_ = b → Walk g a e.to_ (c + e.weight)

/-- Node `v` is reachable from `s` along directed edges. -/
def Reachable (g : Graph) (s v : Int) : Prop := ∃ c, Walk g s v c

/-- `ShortestCost g s v d`: `d` is the true shortest-path cost from `s` to
`v`: the least total weight of a walk, or `Infinity` when there is no walk. -/
def ShortestCost (g : Graph) (s v : Int) : Dist → Prop
  | .infinity => ¬ Reachable g s v
  | .fin d => Walk g s v d ∧ ∀ c, Walk g s v c → d ≤ c

/-- Sum of the absolute values of the weights of a list of edges. -/
def absWeight (es : List Edge) : Nat :=
  (es.map (fun e => e.weight.natAbs)).sum

/-- Sum of the absolute values of all edge weights of the graph. -/
def totalWeight (g : Graph) : Nat := absWeight g.edges

/-! ## Reading step sequences -/

/-- Distances a step carries for node `v`: `step.data.distances[v]`. -/
def stepDist (step : Step) (v : Int) : Option Dist :=
  match step.data with
  | some data =>
    match data.distances with
    | some distances => Obj.get distances (.num v)
    | none => none
  | none => none

/-- Order of two distance readings, both defined: a finite distance is at
most `Infinity`, and finite distances compare as integers. -/
def DistLe : Option Dist → Option Dist → Prop
  | some (.fin a), some (.fin b) => a ≤ b
  | some _, some .infinity => True
  | _, _ => False

/-- Number of steps of a kind in a sequence. -/
def countKind (k : Kind) (steps : List Step) : Nat :=
  (steps.filter (fun s => decide (s.type = k))).length

/-- Number of `visit` steps highlighting exactly the identifier `u`. -/
def visitsOf (u : NodeId) (steps : List Step) : Nat :=
  (steps.filter (fun a => decide (a.type = Kind.visit ∧ a.highlightNodes = [u]))).length

/-- Number of `visit` steps for node `n`, under any identifier with its
key. -/
def visitsOfNode (n : Int) (steps : List Step) : Nat :=
  (steps.filter (fun a =>
    decide (a.type = Kind.visit ∧ a.highlightNodes.map NodeId.key = [NodeId.num n]))).length

/-- A step with its message text blanked, to compare steps up to wording. -/
def eraseMessage (a : Step) : Step :=
  Step.mk a.type a.data "" a.highlightNodes a.highlightEdges

/-! ## Auxiliary notions for the proofs about `dijkstra` -/

/-- Whether an identifier is a number. -/
def NodeId.isNum : NodeId → Bool
  | .num _ => true
  | .str _ => false

/-- Edges still to be scanned by `dijkstra`: the edges whose source has not
been visited as a number and, for a start identifier that is a string, its
out-edges while it has not been visited. -/
def budget (g : Graph) (start : NodeId) (visited : List NodeId) : Nat :=
  (g.edges.filter (fun e => decide (NodeId.num e.from_ ∉ visited))).length +
    (if start ∈ visited ∨ start.isNum = true then 0
      else (g.edges.filter (fun e => decide (NodeId.num e.from_ = start.key))).length)

/-- The identifiers in the queue are the start identifier or numbers. -/
def PQOk (start : NodeId) (st : DState) : Prop :=
  ∀ item ∈ st.pq, item.id = start ∨ ∃ a, item.id = NodeId.num a

/-- Big-step description of the `while` loop of `dijkstra`: from state `st`
the loop yields `steps` and ends in state `st2`. -/
inductive LoopRun (adj : Obj (List Adj)) : DState → List Step → DState → Prop where
  | done (st : DState) :
      List.insertionSort (fun a b => a.dist ≤ b.dist) st.pq = [] → LoopRun adj st [] st
  | stale (st : DState) (item : QItem) (rest : List QItem) (steps : List Step) (st2 : DState) :
      List.insertionSort (fun a b => a.dist ≤ b.dist) st.pq = item :: rest →
      jsLt (Obj.get st.distances item.id) (some (.fin item.dist)) = true →
      LoopRun adj (DState.mk st.distances st.previous rest st.visited) steps st2 →
      LoopRun adj st steps st2
  | seen (st : DState) (item : QItem) (rest : List QItem) (steps : List Step) (st2 : DState) :
      List.insertionSort (fun a b => a.dist ≤ b.dist) st.pq = item :: rest →
      jsLt (Obj.get st.distances item.id) (some (.fin item.dist)) = false →
      item.id ∈ st.visited →
      LoopRun adj (DState.mk st.distances st.previous rest st.visited) steps st2 →
      LoopRun adj st steps st2
  | visit (st : DState) (item : QItem) (rest : List QItem) (more : List Step) (st2 : DState) :
      List.insertionSort (fun a b => a.dist ≤ b.dist) st.pq = item :: rest →
      jsLt (Obj.get st.distances item.id) (some (.fin item.dist)) = false →
      item.id ∉ st.visited →
      LoopRun adj
        (relaxEdges item.id ((Obj.get adj item.id).getD [])
          (DState.mk st.distances st.previous rest (st.visited ++ [item.id]))).2 more st2 →
      LoopRun adj st
        (createStep .visit (dataD st.distances)
            ("Visiting Node " ++ item.id.toStr ++ " (Current Dist: " ++ toString item.dist ++ ")")
            [item.id] [] ::
          ((relaxEdges item.id ((Obj.get adj item.id).getD [])
            (DState.mk st.distances st.previous rest (st.visited ++ [item.id]))).1 ++ more))
        st2

/-! ## Invariant of the distance and predecessor maps -/

/-- What holds of `distances` and `previous` throughout a run started at node
`s`: every node has a distance, a node with a finite distance is reachable
from `s`, a node at `Infinity` has predecessor `null`, and the start is at
most 0. -/
structure MapsOk (g : Graph) (s : Int) (distances : Obj Dist)
    (previous : Obj (Option NodeId)) : Prop where
  defined : ∀ v ∈ g.nodes, ∃ d, Obj.get distances (.num v) = some d
  reach : ∀ v x, Obj.get distances (.num v) = some (.fin x) → Reachable g s v
  prevInf : ∀ v, Obj.get distances (.num v) = some .infinity →
    Obj.get previous (.num v) = some none
  start : ∃ x, Obj.get distances (.num s) = some (.fin x) ∧ x ≤ 0

/-- Every finite distance is the exact weight of a walk from `s`: no sum that
led to it was rounded. -/
def Exact (g : Graph) (s : Int) (distances : Obj Dist) : Prop :=
  ∀ v x, Obj.get distances (.num v) = some (.fin x) → Walk g s v x

/-- Every finite distance is at most `m` in magnitude. -/
def AbsLe (m : Nat) (distances : Obj Dist) : Prop :=
  ∀ v x, Obj.get distances (.num v) = some (.fin x) → x.natAbs ≤ m

/-! ## Monotone traces -/

/-- Distances `d2` are, node by node, at most the distances `d1`. -/
def MapLe (g : Graph) (d2 d1 : Obj Dist) : Prop :=
  ∀ v ∈ g.nodes, DistLe (Obj.get d2 (.num v)) (Obj.get d1 (.num v))

/-- Step `b` shows, node by node, at most the distances step `a` shows. -/
def StepLe (g : Graph) (b a : Step) : Prop :=
  ∀ v ∈ g.nodes, DistLe (stepDist b v) (stepDist a v)

/-- Step `a` carries the distances `d` in its data. -/
def Carries (a : Step) (d : Obj Dist) : Prop :=
  ∃ data, a.data = some data ∧ data.distances = some d

/-- The steps yielded between distances `d0` and `d1` carry distances that
never increase along the sequence and stay between `d1` and `d0`. -/
def TraceMono (g : Graph) (d0 : Obj Dist) (steps : List Step) (d1 : Obj Dist) : Prop :=
  MapLe g d1 d0 ∧
  (∀ a ∈ steps, ∃ d, Carries a d ∧ MapLe g d d0 ∧ MapLe g d1 d) ∧
  steps.Pairwise (fun a b => StepLe g b a)

/-! ## Invariant of `dijkstra` under non-negative weights -/

/-- The distance of node `n` is finite and no walk from `s` to `n` is
cheaper. -/
def Optimal (g : Graph) (s : Int) (distances : Obj Dist) (n : Int) : Prop :=
  ∃ x, Obj.get distances (.num n) = some (.fin x) ∧ ∀ c, Walk g s n c → x ≤ c

/-- Node `n` has been visited, under some identifier with its key. -/
def VisitedKey (st : DState) (n : Int) : Prop :=
  ∃ u ∈ st.visited, u.key = NodeId.num n

/-- The distances of the two ends of an edge are finite and the edge cannot
improve its target. -/
def EdgeOk (distances : Obj Dist) (e : Edge) : Prop :=
  ∃ x y, Obj.get distances (.num e.from_) = some (.fin x) ∧
    Obj.get distances (.num e.to_) = some (.fin y) ∧ y ≤ x + e.weight

/-- Invariant of the `dijkstra` state for non-negative weights whose sums are
exact, with `C` the edges already scanned from a visited node: every finite
distance is the weight of a walk, visited nodes have their final distance,
scanned edges cannot improve their target, every unvisited node with a finite
distance has a queue entry with that distance, and no queue entry is below the
distance of its node. -/
structure NNCore (g : Graph) (s : Int) (st : DState) (C : Edge → Prop) : Prop where
  maps : MapsOk g s st.distances st.previous
  exact : Exact g s st.distances
  optimal : ∀ n, VisitedKey st n → Optimal g s st.distances n
  scanned : ∀ e ∈ g.edges, C e → VisitedKey st e.from_ ∧ EdgeOk st.distances e
  queued : ∀ n x, Obj.get st.distances (.num n) = some (.fin x) → ¬ VisitedKey st n →
    ∃ item ∈ st.pq, item.id.key = NodeId.num n ∧ item.dist = x
  pqle : ∀ item ∈ st.pq, ∃ n x, item.id.key = NodeId.num n ∧
    Obj.get st.distances (.num n) = some (.fin x) ∧ x ≤ item.dist

/-! ## Negative cycles and simple paths -/

/-- The graph has a directed cycle of negative total weight through a node
reachable from `s`. -/
def ReachableNegCycle (g : Graph) (s : Int) : Prop :=
  ∃ v a c, Walk g s v a ∧ Walk g v v c ∧ c < 0

/-- `SPath g s v c vs`: a walk from `s` to `v` of total weight `c` that passes
the nodes `vs` (the last one first) and none of them twice. -/
inductive SPath (g : Graph) (s : Int) : Int → Int → List Int → Prop where
  | nil : SPath g s s 0 [s]
  | snoc {u c : Int} {vs : List Int} (e : Edge) :
      SPath g s u c vs → e ∈ g.edges → e.from_ = u → e.to_ ∉ vs →
      SPath g s e.to_ (c + e.weight) (e.to_ :: vs)

/-- The distances are at most the weight of every simple path from `s` with
at most `k` edges. -/
def Bound (g : Graph) (s : Int) (k : Nat) (distances : Obj Dist) : Prop :=
  ∀ v c vs, SPath g s v c vs → vs.length ≤ k + 1 →
    ∃ y, Obj.get distances (.num v) = some (.fin y) ∧ y ≤ c

/-! ## Following `previous` back to the start -/

/-- `PrevPath g distances previous s v c`: following `previous` from node `v`
leads to `s`; every hop goes from a node to the node its `previous` entry
denotes, along an edge of the graph whose weight is exactly the difference of
the two distances, and the hops weigh `c` in total. -/
inductive PrevPath (g : Graph) (distances : Obj Dist) (previous : Obj (Option NodeId))
    (s : Int) : Int → Int → Prop where
  | start : PrevPath g distances previous s s 0
  | step {a c : Int} (u : NodeId) (e : Edge) :
      Obj.get previous (.num e.to_) = some (some u) → u.key = NodeId.num a →
      e ∈ g.edges → e.from_ = a →
      Obj.get distances (.num a) = some (.fin c) →
      Obj.get distances (.num e.to_) = some (.fin (c + e.weight)) →
      PrevPath g distances previous s a c →
      PrevPath g distances previous s e.to_ (c + e.weight)

/-- The same chain of `previous` entries inside a `dijkstra` state, every node
on it except the last one already visited. -/
inductive Chain (g : Graph) (st : DState) (s : Int) : Int → Int → Prop where
  | start : Chain g st s s 0
  | step {a c : Int} (u : NodeId) (e : Edge) :
      Obj.get st.previous (.num e.to_) = some (some u) → u.key = NodeId.num a →
      VisitedKey st a → e ∈ g.edges → e.from_ = a →
      Obj.get st.distances (.num a) = some (.fin c) →
      Obj.get st.distances (.num e.to_) = some (.fin (c + e.weight)) →
      Chain g st s a c →
      Chain g st s e.to_ (c + e.weight)

/-- Invariant of `previous` in a `dijkstra` state for non-negative weights:
every node with a finite distance has its chain back to the start, and the
start has predecessor `null`. -/
structure PrevInv (g : Graph) (s : Int) (st : DState) : Prop where
  chain : ∀ v x, Obj.get st.distances (.num v) = some (.fin x) → Chain g st s v x
  startNull : Obj.get st.previous (.num s) = some none

/-! ## The engine with its objects by reference

The definitions above give a step the contents its `data` has at the moment
the step is yielded.  In the source the `data` of a step does not hold
contents but objects: `createStep` stores the `data` object it is given, and
the literal `{ distances }` stores the value of the variable `distances`,
which is a reference to the object the run writes to.  The definitions below
follow the same code once more with the objects in a heap, the variables and
the `data` fields holding addresses, and every yielded step paired with the
heap of that moment. -/

/-- Address of an object in the heap. -/
abbrev Addr := Nat

/-- The objects created with `{}` by the runs: how many were bound to a
`distances` variable and how many to a `previous` variable, and the contents
of each by address. -/
structure Heap where
  distCount : Nat
  prevCount : Nat
  dist : Addr → Obj Dist
  prev : Addr → Obj (Option NodeId)

/-- The heap before any object is created. -/
def Heap.empty : Heap := Heap.mk 0 0 (fun _ => []) (fun _ => [])

/-- `let distances = {}`: a new empty object; the variable holds its
address. -/
def Heap.newDist (h : Heap) : Addr × Heap :=
  (h.distCount,
    Heap.mk (h.distCount + 1) h.prevCount (fun a => if a = h.distCount then [] else h.dist a)
      h.prev)

/-- `let previous = {}`: a new empty object; the variable holds its
address. -/
def Heap.newPrev (h : Heap) : Addr × Heap :=
  (h.prevCount,
    Heap.mk h.distCount (h.prevCount + 1) h.dist
      (fun a => if a = h.prevCount then [] else h.prev a))

/-- `distances[id] = x` for a variable holding the address `a`: the object at
`a` is changed in place. -/
def Heap.setDist (h : Heap) (a : Addr) (id : NodeId) (x : Dist) : Heap :=
  Heap.mk h.distCount h.prevCount
    (fun b => if b = a then Obj.set (h.dist a) id x else h.dist b) h.prev

/-- `previous[id] = x` for a variable holding the address `a`. -/
def Heap.setPrev (h : Heap) (a : Addr) (id : NodeId) (x : Option NodeId) : Heap :=
  Heap.mk h.distCount h.prevCount h.dist
    (fun b => if b = a then Obj.set (h.prev a) id x else h.prev b)

/-- The `data` object of a step: its fields hold the addresses of the objects
they were given; an absent field is `none`. -/
structure RefData where
  distances : Option Addr
  previous : Option Addr
  deriving DecidableEq, Repr

/-- Step object built by `createStep`, holding the `data` object it was
given; `data = none` is `null`. -/
structure RefStep where
  type : Kind
  data : Option RefData
  message : String
  highlightNodes : List NodeId
  highlightEdges : List String
  deriving DecidableEq, Repr

/-- `Algorithms.createStep`: the step keeps the `data` it is given. -/
def createStepRef (type : Kind) (data : Option RefData) (message : String)
    (highlightNodes : List NodeId) (highlightEdges : List String) : RefStep :=
  RefStep.mk type data message highlightNodes highlightEdges

/-- The object literal `{ distances }`: the field holds the value of the
variable, the address of the object. -/
def refD (distances : Addr) : Option RefData :=
  some (RefData.mk (some distances) none)

/-- The object literal `{ distances, previous }`. -/
def refDP (distances previous : Addr) : Option RefData :=
  some (RefData.mk (some distances) (some previous))

/-- A step handed to the caller by `yield`, with the heap as it is at that
moment. -/
structure Yield where
  step : RefStep
  heap : Heap

/-- What a step shows when its `data` is read while the heap is `h`: every
field shows the contents the object at its address has in `h`. -/
def RefStep.read (a : RefStep) (h : Heap) : Step :=
  Step.mk a.type
    (a.data.map (fun d => StepData.mk (d.distances.map h.dist) (d.previous.map h.prev)))
    a.message a.highlightNodes a.highlightEdges

/-- What a step shows at the moment it is yielded. -/
def Yield.snapshot (y : Yield) : Step := y.step.read y.heap

/-- What the caller reads as `step.data.distances[v]` from the step with index
`i` of a run at the moment it has pulled the step with index `j`: the object
step `i` holds, with the contents it has in the heap of step `j`. -/
def readAt (run : List Yield) (i j : Nat) (v : Int) : Option Dist :=
  match run[i]?, run[j]? with
  | some a, some b => stepDist (a.step.read b.heap) v
  | _, _ => none

/-- The step yielded for an unknown start node; its `data` is `null`. -/
def notFoundStepRef (startNodeId : NodeId) : RefStep :=
  createStepRef .error none ("Start node " ++ startNodeId.toStr ++ " not found.") [] []

/-- The loop `nodes.forEach(node => { distances[node] = Infinity;
previous[node] = null; })` followed by `distances[startNodeId] = 0`, on the
objects at the addresses the two variables hold. -/
def initHeap (g : Graph) (startNodeId : NodeId) (distances previous : Addr) (h : Heap) : Heap :=
  (g.nodes.foldl
    (fun h n => (h.setDist distances (.num n) Dist.infinity).setPrev previous (.num n) none)
    h).setDist distances startNodeId (.fin 0)

/-- Local variables of a `dijkstra` run, `distances` and `previous` holding
addresses, with the heap. -/
structure DRef where
  heap : Heap
  distances : Addr
  previous : Addr
  pq : List QItem
  visited : List NodeId

/-- Body of `for (let edge of neighbors)` for one edge, by reference. -/
def relaxEdgeRef (u : NodeId) (st : DRef) (edge : Adj) : List Yield × DRef :=
  let v := NodeId.num edge.to_
  let weight := edge.weight
  let checkStep := createStepRef .check (refD st.distances)
    ("Checking edge " ++ u.toStr ++ " -> " ++ v.toStr ++ " (weight: " ++ toString weight ++ ")")
    [u, v] [u.toStr ++ "-" ++ v.toStr]
  match jsAdd (Obj.get (st.heap.dist st.distances) u) weight with
  | some (.fin x) =>
    if jsLt (some (.fin x)) (Obj.get (st.heap.dist st.distances) v) then
      let heap1 := st.heap.setDist st.distances v (.fin x)
      let heap2 := heap1.setPrev st.previous v (some u)
      let st1 : DRef :=
        DRef.mk heap2 st.distances st.previous (st.pq ++ [QItem.mk v x]) st.visited
      let updateStep := createStepRef .update (refD st.distances)
        ("Updated distance for Node " ++ v.toStr ++ " to " ++ toString x)
        [v] [u.toStr ++ "-" ++ v.toStr]
      ([Yield.mk checkStep st.heap, Yield.mk updateStep heap2], st1)
    else ([Yield.mk checkStep st.heap], st)
  | _ => ([Yield.mk checkStep st.heap], st)

/-- The loop `for (let edge of neighbors)`, by reference. -/
def relaxEdgesRef (u : NodeId) : List Adj → DRef → List Yield × DRef
  | [], st => ([], st)
  | edge :: rest, st =>
    let r := relaxEdgeRef u st edge
    let r2 := relaxEdgesRef u rest r.2
    (r.1 ++ r2.1, r2.2)

/-- The loop `while (pq.length > 0)`, by reference, run for at most `fuel`
iterations. -/
def dijkstraLoopRef (adj : Obj (List Adj)) : Nat → DRef → Option (List Yield × DRef)
  | 0, _ => none
  | fuel + 1, st =>
    match List.insertionSort (fun a b => a.dist ≤ b.dist) st.pq with
    | [] => some ([], st)
    | item :: rest =>
      let u := item.id
      let d := item.dist
      let st1 : DRef := DRef.mk st.heap st.distances st.previous rest st.visited
      if jsLt (Obj.get (st1.heap.dist st1.distances) u) (some (.fin d)) then
        dijkstraLoopRef adj fuel st1
      else if u ∈ st1.visited then dijkstraLoopRef adj fuel st1
      else
        let st2 : DRef :=
          DRef.mk st1.heap st1.distances st1.previous st1.pq (st1.visited ++ [u])
        let visitStep := createStepRef .visit (refD st2.distances)
          ("Visiting Node " ++ u.toStr ++ " (Current Dist: " ++ toString d ++ ")") [u] []
        let neighbors := (Obj.get adj u).getD []
        let r := relaxEdgesRef u neighbors st2
        match dijkstraLoopRef adj fuel r.2 with
        | some (more, st3) => some (Yield.mk visitStep st2.heap :: (r.1 ++ more), st3)
        | none => none

/-- `Algorithms.dijkstra` by reference: `distances` and `previous` are bound
once, each to a new object, and every step is given `{ distances }` or
`{ distances, previous }`. -/
def dijkstraRef (fuel : Nat) (g : Graph) (startNodeId : NodeId) : Option (List Yield) :=
  let adj := getAdjacencyList g
  if !startFound g startNodeId then some [Yield.mk (notFoundStepRef startNodeId) Heap.empty]
  else
    let d := Heap.empty.newDist
    let p := d.2.newPrev
    let heap := initHeap g startNodeId d.1 p.1 p.2
    let st : DRef := DRef.mk heap d.1 p.1 [QItem.mk startNodeId 0] []
    let initStep := createStepRef .init (refD d.1)
      ("Initialized distances. Start node: " ++ startNodeId.toStr) [startNodeId] []
    match dijkstraLoopRef adj fuel st with
    | some (steps, st1) =>
      some (Yield.mk initStep heap :: (steps ++
        [Yield.mk (createStepRef .finished (refDP st1.distances st1.previous)
          "Dijkstra completed." [] []) st1.heap]))
    | none => none

/-- Local variables of a `bellmanFord` or `distanceVector` run, `distances`
and `previous` holding addresses, with the heap. -/
structure RRef where
  heap : Heap
  distances : Addr
  previous : Addr
  changed : Bool

/-- Body of the edge loop of `bellmanFord` for one edge, by reference. -/
def bfRelaxEdgeRef (st : RRef) (edge : Edge) : List Yield × RRef :=
  let u := NodeId.num edge.from_
  let v := NodeId.num edge.to_
  let w := edge.weight
  if canRelax (st.heap.dist st.distances) edge then
    match jsAdd (Obj.get (st.heap.dist st.distances) u) w with
    | some nd =>
      let heap1 := st.heap.setDist st.distances v nd
      let heap2 := heap1.setPrev st.previous v (some u)
      ([Yield.mk (createStepRef .update (refD st.distances)
          ("Relaxed " ++ u.toStr ++ "->" ++ v.toStr ++ ": New dist " ++ nd.toStr) [v] [edge.id])
          heap2],
        RRef.mk heap2 st.distances st.previous true)
    | none => ([], st)
  else ([], st)

/-- The edge loop of one `bellmanFord` round, by reference. -/
def bfRelaxAllRef : List Edge → RRef → List Yield × RRef
  | [], st => ([], st)
  | edge :: rest, st =>
    let r := bfRelaxEdgeRef st edge
    let r2 := bfRelaxAllRef rest r.2
    (r.1 ++ r2.1, r2.2)

/-- The round loop of `bellmanFord`, by reference, from round index `i` on
with `k` rounds left. -/
def bfRoundsRef (g : Graph) : Nat → Nat → RRef → List Yield × RRef
  | 0, _, st => ([], st)
  | k + 1, i, st =>
    let iterStep := createStepRef .iteration (refD st.distances)
      ("Iteration " ++ toString (i + 1) ++ "/" ++ toString (g.nodes.length - 1)) [] []
    let r := bfRelaxAllRef g.edges (RRef.mk st.heap st.distances st.previous false)
    if !r.2.changed then
      (Yield.mk iterStep st.heap :: (r.1 ++ [Yield.mk (createStepRef .info (refD r.2.distances)
        "No changes in this iteration, stopping early." [] []) r.2.heap]), r.2)
    else
      let r2 := bfRoundsRef g k (i + 1) r.2
      (Yield.mk iterStep st.heap :: (r.1 ++ r2.1), r2.2)

/-- The closing part of `bellmanFord`, by reference. -/
def bfCheckRef (g : Graph) (st : RRef) : List Yield :=
  match g.edges.find? (canRelax (st.heap.dist st.distances)) with
  | some edge =>
    [Yield.mk (createStepRef .error (refD st.distances) "Negative weight cycle detected!"
      [.num edge.from_, .num edge.to_] [edge.id]) st.heap]
  | none =>
    [Yield.mk (createStepRef .finished (refDP st.distances st.previous)
      "Bellman-Ford completed." [] []) st.heap]

/-- `Algorithms.bellmanFord` by reference. -/
def bellmanFordRef (g : Graph) (startNodeId : NodeId) : List Yield :=
  if !startFound g startNodeId then [Yield.mk (notFoundStepRef startNodeId) Heap.empty]
  else
    let d := Heap.empty.newDist
    let p := d.2.newPrev
    let heap := initHeap g startNodeId d.1 p.1 p.2
    let initStep := createStepRef .init (refD d.1)
      "Initialized Bellman-Ford. Relaxing edges V-1 times." [startNodeId] []
    let r := bfRoundsRef g (g.nodes.length - 1) 0 (RRef.mk heap d.1 p.1 false)
    Yield.mk initStep heap :: (r.1 ++ bfCheckRef g r.2)

/-- The step `linkState` yields first, by reference; its data is the empty
object. -/
def linkStateInfoStepRef : RefStep :=
  createStepRef .info (some (RefData.mk none none))
    "Link State: 1. Nodes Flood LSPs. 2. Build Graph. 3. Run Dijkstra." [] []

/-- `Algorithms.linkState` by reference: the `info` step is yielded before
`dijkstra` creates its objects. -/
def linkStateRef (fuel : Nat) (g : Graph) (startNodeId : NodeId) : Option (List Yield) :=
  match dijkstraRef fuel g startNodeId with
  | some steps => some (Yield.mk linkStateInfoStepRef Heap.empty :: steps)
  | none => none

/-- Body of the edge loop of `distanceVector` for one edge, by reference. -/
def dvRelaxEdgeRef (st : RRef) (edge : Edge) : List Yield × RRef :=
  let u := NodeId.num edge.from_
  let v := NodeId.num edge.to_
  let w := edge.weight
  if canRelax (st.heap.dist st.distances) edge then
    match jsAdd (Obj.get (st.heap.dist st.distances) u) w with
    | some nd =>
      let heap1 := st.heap.setDist st.distances v nd
      let heap2 := heap1.setPrev st.previous v (some u)
      ([Yield.mk (createStepRef .update (refD st.distances)
          ("Node " ++ u.toStr ++ " updates Node " ++ v.toStr ++ ": New Path Cost " ++ nd.toStr)
          [v] [edge.id]) heap2],
        RRef.mk heap2 st.distances st.previous true)
    | none => ([], st)
  else ([], st)

/-- The edge loop of one `distanceVector` round, by reference. -/
def dvRelaxAllRef : List Edge → RRef → List Yield × RRef
  | [], st => ([], st)
  | edge :: rest, st =>
    let r := dvRelaxEdgeRef st edge
    let r2 := dvRelaxAllRef rest r.2
    (r.1 ++ r2.1, r2.2)

/-- The round loop of `distanceVector`, by reference. -/
def dvRoundsRef (g : Graph) : Nat → Nat → RRef → List Yield × RRef
  | 0, _, st => ([], st)
  | k + 1, i, st =>
    let iterStep := createStepRef .iteration (refD st.distances)
      ("Round " ++ toString (i + 1) ++ ": Exchanging Vectors...") [] []
    let r := dvRelaxAllRef g.edges (RRef.mk st.heap st.distances st.previous false)
    if !r.2.changed then
      (Yield.mk iterStep st.heap :: (r.1 ++ [Yield.mk (createStepRef .info (refD r.2.distances)
        "Convergence reached. No more updates." [] []) r.2.heap]), r.2)
    else
      let r2 := dvRoundsRef g k (i + 1) r.2
      (Yield.mk iterStep st.heap :: (r.1 ++ r2.1), r2.2)

/-- `Algorithms.distanceVector` by reference. -/
def distanceVectorRef (g : Graph) (startNodeId : NodeId) : List Yield :=
  if !startFound g startNodeId then [Yield.mk (notFoundStepRef startNodeId) Heap.empty]
  else
    let d := Heap.empty.newDist
    let p := d.2.newPrev
    let heap := initHeap g startNodeId d.1 p.1 p.2
    let initStep := createStepRef .init (refD d.1)
      "Initialized Distance Vector. Nodes will exchange vectors." [startNodeId] []
    let r := dvRoundsRef g (g.nodes.length - 1) 0 (RRef.mk heap d.1 p.1 false)
    Yield.mk initStep heap :: (r.1 ++
      [Yield.mk (createStepRef .finished (refDP r.2.distances r.2.previous)
        "Distance Vector Protocol Converged (Simulated)." [] []) r.2.heap])

/-! ## Auxiliary notions for the proofs about references -/

/-- The state of a `dijkstra` run with the contents of its two objects. -/
def DRef.view (st : DRef) : DState :=
  DState.mk (st.heap.dist st.distances) (st.heap.prev st.previous) st.pq st.visited

/-- The state of a `bellmanFord` run with the contents of its two objects. -/
def RRef.view (st : RRef) : RState :=
  RState.mk (st.heap.dist st.distances) (st.heap.prev st.previous) st.changed

/-- The `data` of the step holds, as `distances`, the object at address
`a`. -/
def HoldsDist (a : Addr) (y : Yield) : Prop :=
  ∃ d, y.step.data = some d ∧ d.distances = some a

/-- The distances read from any step of the run, at any later moment, are
those the step pulled last shows, and they are at most the distances the step
showed when it was yielded. -/
def LiveRun (g : Graph) (run : List Yield) : Prop :=
  ∀ i j a b, i ≤ j → run[i]? = some a → run[j]? = some b →
    (∀ v, readAt run i j v = stepDist b.snapshot v) ∧
    (∀ v ∈ g.nodes, DistLe (readAt run i j v) (stepDist a.snapshot v))

/-! ## Objects -/

theorem Obj.getKey_setKey {α : Type} (o : Obj α) (k k2 : NodeId) (v : α) :
    Obj.getKey (Obj.setKey o k v) k2 = if k2 = k then some v else Obj.getKey o k2 := by
  induction o with
  | nil =>
    by_cases h : k2 = k
    · simp [Obj.setKey, Obj.getKey, h]
    · have h2 : ¬ k = k2 := fun e => h e.symm
      simp [Obj.setKey, Obj.getKey, h, h2]
  | cons p rest ih =>
    obtain ⟨k1, w⟩ := p
    by_cases h1 : k1 = k
    · subst h1
      by_cases h : k2 = k1
      · subst h
        simp [Obj.setKey, Obj.getKey]
      · have h2 : ¬ k1 = k2 := fun e => h e.symm
        simp [Obj.setKey, Obj.getKey, h, h2]
    · by_cases h : k2 = k
      · subst h
        simp [Obj.setKey, Obj.getKey, h1, ih]
      · by_cases h3 : k1 = k2
        · simp [Obj.setKey, Obj.getKey, h1, h, h3]
        · simp [Obj.setKey, Obj.getKey, h1, h, h3, ih]

theorem NodeId.key_num (n : Int) : (NodeId.num n).key = NodeId.num n := rfl

theorem Obj.get_set {α : Type} (o : Obj α) (a b : NodeId) (v : α) :
    Obj.get (Obj.set o a v) b = if b.key = a.key then some v else Obj.get o b := by
  simp [Obj.get, Obj.set, Obj.getKey_setKey]

theorem Obj.get_set_num {α : Type} (o : Obj α) (a b : Int) (v : α) :
    Obj.get (Obj.set o (.num a) v) (.num b) = if b = a then some v else Obj.get o (.num b) := by
  rw [Obj.get_set]
  by_cases h : b = a
  · simp [h]
  · have : ¬ (NodeId.num b).key = (NodeId.num a).key := by
      simp [NodeId.key, h]
    simp [h, this]

/-! ## Sums of doubles -/

/-- An integer up to 2^53 in magnitude is a double. -/
theorem roundDouble_eq (z : Int) (h : z.natAbs ≤ 2 ^ 53) : roundDouble z = z := by
  unfold roundDouble
  have h2 : z.natAbs ≤ 9007199254740992 := by omega
  simp [h2]

theorem jsAdd_fin (x w : Int) :
    jsAdd (some (.fin x)) w = some (.fin (roundDouble (x + w))) := rfl

/-- A sum up to 2^53 in magnitude is not rounded. -/
theorem jsAdd_exact (x w : Int) (h : x.natAbs + w.natAbs ≤ 2 ^ 53) :
    roundDouble (x + w) = x + w :=
  roundDouble_eq _ (by omega)

theorem absWeight_cons (e : Edge) (es : List Edge) :
    absWeight (e :: es) = e.weight.natAbs + absWeight es := by
  simp [absWeight]

theorem absWeight_mem {es : List Edge} {e : Edge} (he : e ∈ es) :
    e.weight.natAbs ≤ absWeight es := by
  induction es with
  | nil => simp at he
  | cons e1 rest ih =>
    rw [absWeight_cons]
    rcases List.mem_cons.mp he with h | h
    · subst h; omega
    · have := ih h
      omega

theorem weight_le_total {g : Graph} {e : Edge} (he : e ∈ g.edges) :
    e.weight.natAbs ≤ totalWeight g :=
  absWeight_mem he


theorem Obj.getKey_foldl_set {α : Type} (x : α) (nodes : List Int) (acc : Obj α) (k : NodeId) :
    Obj.getKey (nodes.foldl (fun d n => Obj.set d (.num n) x) acc) k =
      if k ∈ nodes.map NodeId.num then some x else Obj.getKey acc k := by
  induction nodes generalizing acc with
  | nil => simp
  | cons n ns ih =>
    rw [List.foldl_cons, ih]
    by_cases h : k ∈ ns.map NodeId.num
    · simp [h]
    · by_cases h2 : k = NodeId.num n
      · subst h2
        simp [Obj.set, NodeId.key, Obj.getKey_setKey]
      · simp [h, h2, Obj.set, NodeId.key, Obj.getKey_setKey]

theorem Obj.get_foldl_set_num {α : Type} (x : α) (nodes : List Int) (v : Int) :
    Obj.get (nodes.foldl (fun d n => Obj.set d (.num n) x) []) (.num v) =
      if v ∈ nodes then some x else none := by
  unfold Obj.get
  rw [Obj.getKey_foldl_set]
  simp [NodeId.key, Obj.getKey]

theorem initDistances_get (g : Graph) (start : NodeId) (s v : Int)
    (hkey : start.key = .num s) :
    Obj.get (initDistances g start) (.num v) =
      if v = s then some (Dist.fin 0) else if v ∈ g.nodes then some Dist.infinity else none := by
  unfold initDistances
  rw [Obj.get_set, hkey, Obj.get_foldl_set_num]
  simp [NodeId.key]

theorem initPrevious_get (g : Graph) (v : Int) :
    Obj.get (initPrevious g) (.num v) = if v ∈ g.nodes then some none else none := by
  unfold initPrevious
  rw [Obj.get_foldl_set_num]

/-! ## The start-node test -/

theorem decDigit_some_range {c : Char} {d : Nat} (h : decDigit c = some d) :
    48 ≤ c.toNat ∧ c.toNat ≤ 57 := by
  unfold decDigit at h
  by_cases hc : 48 ≤ c.toNat ∧ c.toNat ≤ 57
  · exact hc
  · simp [hc] at h

theorem digitOf_ten_of_decDigit {c : Char} {d : Nat} (h : decDigit c = some d) :
    digitOf 10 c = some d := by
  simp [digitOf, h]

theorem takeDigits_of_allDigits (cs : List Char) (acc v : Nat)
    (h : allDigits cs acc = some v) : takeDigits 10 cs (some acc) = some v := by
  induction cs generalizing acc with
  | nil => simpa [allDigits, takeDigits] using h
  | cons c cs ih =>
    unfold allDigits at h
    cases hd : decDigit c with
    | none => simp [hd] at h
    | some d =>
      simp only [hd] at h
      unfold takeDigits
      simp only [digitOf_ten_of_decDigit hd, Option.getD_some]
      exact ih _ h

theorem takeDigits_of_allDigits_cons (c : Char) (cs : List Char) (v : Nat)
    (h : allDigits (c :: cs) 0 = some v) : takeDigits 10 (c :: cs) none = some v := by
  unfold allDigits at h
  cases hd : decDigit c with
  | none => simp [hd] at h
  | some d =>
    simp only [hd] at h
    unfold takeDigits
    simp only [digitOf_ten_of_decDigit hd, Option.getD_none]
    exact takeDigits_of_allDigits _ _ _ h

theorem digit_not_space {c : Char} (h : 48 ≤ c.toNat ∧ c.toNat ≤ 57) :
    isStrWhiteSpace c = false := by
  unfold isStrWhiteSpace
  simp only [Bool.or_eq_false_iff, Bool.and_eq_false_iff, decide_eq_false_iff_not]
  omega

theorem stripRadix_of_ne_zero (c : Char) (cs : List Char) (h : c ≠ '0') :
    stripRadix (c :: cs) = (10, c :: cs) := by
  cases cs with
  | nil => rfl
  | cons d ds => simp [stripRadix, h]

theorem parseIntChars_of_decimal (cs : List Char) (n : Int)
    (h : decimalInt cs = some n) : parseIntString (String.mk cs) = some (roundDouble n) := by
  cases cs with
  | nil => simp [decimalInt] at h
  | cons c cs =>
    unfold decimalInt at h
    by_cases hm : c = '-'
    · subst hm
      simp only [if_true] at h
      cases cs with
      | nil => simp at h
      | cons d ds =>
        by_cases hz : d = '0'
        · simp [hz] at h
        · simp only [hz, if_false] at h
          cases hv : allDigits (d :: ds) 0 with
          | none => simp [hv] at h
          | some v =>
            simp only [hv, Option.map_some', Option.some.injEq] at h
            have ht := takeDigits_of_allDigits_cons d ds v hv
            have hsp : isStrWhiteSpace '-' = false := by decide
            simp [parseIntString, List.dropWhile, hsp, stripSign, stripRadix_of_ne_zero d ds hz,
              ht, h]
    · simp only [hm, if_false] at h
      by_cases hz : c = '0'
      · subst hz
        simp only [if_true] at h
        by_cases he : cs = []
        · subst he
          simp only [if_true, Option.some.injEq] at h
          subst h
          decide
        · simp [he] at h
      · simp only [hz, if_false] at h
        cases hv : allDigits (c :: cs) 0 with
        | none => simp [hv] at h
        | some v =>
          simp only [hv, Option.map_some', Option.some.injEq] at h
          have ht := takeDigits_of_allDigits_cons c cs v hv
          have hr : 48 ≤ c.toNat ∧ c.toNat ≤ 57 := by
            unfold allDigits at hv
            cases hd : decDigit c with
            | none => simp [hd] at hv
            | some d => exact decDigit_some_range hd
          have hsp := digit_not_space hr
          have hp : c ≠ '+' := by
            intro e
            subst e
            revert hr
            decide
          simp [parseIntString, List.dropWhile, hsp, stripSign, hm, hp,
            stripRadix_of_ne_zero c cs hz, ht, h]

theorem parseIntChars_of_canonical (cs : List Char) (n : Int)
    (h : canonicalInt cs = some n) : parseIntString (String.mk cs) = some n := by
  unfold canonicalInt at h
  cases hd : decimalInt cs with
  | none => simp [hd] at h
  | some m =>
    simp only [hd] at h
    by_cases hm : roundDouble m = m ∧ m.natAbs < 1000000000000000000000
    · simp only [hm, and_self, if_true, Option.some.injEq] at h
      subst h
      rw [parseIntChars_of_decimal cs m hd, hm.1]
    · simp [hm] at h

theorem parseInt_of_key {start : NodeId} {s : Int} (h : start.key = .num s) :
    parseInt start = some s := by
  cases start with
  | num n =>
    simp only [NodeId.key, NodeId.num.injEq] at h
    simp [parseInt, h]
  | str t =>
    unfold NodeId.key at h
    cases hc : canonicalInt t.data with
    | none => simp [hc] at h
    | some n =>
      simp only [hc, NodeId.num.injEq] at h
      subst h
      exact parseIntChars_of_canonical t.data n hc

theorem startFound_of_key {g : Graph} {start : NodeId} {s : Int}
    (hkey : start.key = .num s) (hs : s ∈ g.nodes) : startFound g start = true := by
  unfold startFound
  simp [parseInt_of_key hkey, hs]

/-! ## The adjacency list -/

theorem getKey_foldl_edges (es : List Edge) (adj : Obj (List Adj)) (k : NodeId) :
    Obj.getKey (es.foldl
      (fun adj e =>
        match Obj.get adj (.num e.from_) with
        | some l => Obj.set adj (.num e.from_) (l ++ [Adj.mk e.to_ e.weight])
        | none => adj) adj) k =
      (Obj.getKey adj k).map (fun l =>
        l ++ (es.filter (fun e => decide (NodeId.num e.from_ = k))).map
          (fun e => Adj.mk e.to_ e.weight)) := by
  induction es generalizing adj with
  | nil => cases h : Obj.getKey adj k <;> simp [h]
  | cons e es ih =>
    rw [List.foldl_cons, ih]
    cases hg : Obj.get adj (.num e.from_) with
    | none =>
      simp only
      by_cases hk : NodeId.num e.from_ = k
      · subst hk
        have : Obj.getKey adj (NodeId.num e.from_) = none := hg
        simp [this]
      · simp [List.filter_cons, hk]
    | some l =>
      simp only
      by_cases hk : NodeId.num e.from_ = k
      · subst hk
        have : Obj.getKey adj (NodeId.num e.from_) = some l := hg
        simp [Obj.set, NodeId.key, Obj.getKey_setKey, this, List.filter_cons]
      · have hk2 : ¬ k = NodeId.num e.from_ := fun h => hk h.symm
        simp [Obj.set, NodeId.key, Obj.getKey_setKey, hk, hk2, List.filter_cons]

theorem getAdjacencyList_getKey (g : Graph) (k : NodeId) :
    Obj.getKey (getAdjacencyList g) k =
      if k ∈ g.nodes.map NodeId.num then
        some ((g.edges.filter (fun e => decide (NodeId.num e.from_ = k))).map
          (fun e => Adj.mk e.to_ e.weight))
      else none := by
  unfold getAdjacencyList
  simp only
  rw [getKey_foldl_edges, Obj.getKey_foldl_set]
  by_cases h : k ∈ g.nodes.map NodeId.num
  · simp [h]
  · simp [h, Obj.getKey]

theorem neighbors_length_le (g : Graph) (u : NodeId) :
    ((Obj.get (getAdjacencyList g) u).getD []).length ≤
      (g.edges.filter (fun e => decide (NodeId.num e.from_ = u.key))).length := by
  unfold Obj.get
  rw [getAdjacencyList_getKey]
  by_cases h : u.key ∈ g.nodes.map NodeId.num
  · simp [h]
  · simp [h]

theorem neighbors_of_node (g : Graph) (u : NodeId) (a : Int) (hkey : u.key = .num a)
    (ha : a ∈ g.nodes) :
    (Obj.get (getAdjacencyList g) u).getD [] =
      (g.edges.filter (fun e => decide (e.from_ = a))).map (fun e => Adj.mk e.to_ e.weight) := by
  unfold Obj.get
  rw [getAdjacencyList_getKey, hkey]
  have : NodeId.num a ∈ g.nodes.map NodeId.num := List.mem_map.mpr ⟨a, ha, rfl⟩
  simp [this]

/-! ## The loop of `dijkstra`: big-step form and termination -/

theorem dijkstraLoop_run (adj : Obj (List Adj)) :
    ∀ (fuel : Nat) (st : DState) (steps : List Step) (st2 : DState),
      dijkstraLoop adj fuel st = some (steps, st2) → LoopRun adj st steps st2 := by
  intro fuel
  induction fuel with
  | zero => intro st steps st2 h; simp [dijkstraLoop] at h
  | succ fuel ih =>
    intro st steps st2 h
    unfold dijkstraLoop at h
    cases hs : List.insertionSort (fun a b => a.dist ≤ b.dist) st.pq with
    | nil =>
      simp only [hs, Option.some.injEq, Prod.mk.injEq] at h
      obtain ⟨h1, h2⟩ := h
      subst h1; subst h2
      exact LoopRun.done st hs
    | cons item rest =>
      simp only [hs] at h
      by_cases hst : jsLt (Obj.get st.distances item.id) (some (.fin item.dist)) = true
      · simp only [hst, if_true] at h
        exact LoopRun.stale st item rest steps st2 hs hst (ih _ _ _ h)
      · have hst2 : jsLt (Obj.get st.distances item.id) (some (.fin item.dist)) = false := by
          simpa using hst
        simp only [hst2, Bool.false_eq_true, if_false] at h
        by_cases hv : item.id ∈ st.visited
        · simp only [hv, if_true] at h
          exact LoopRun.seen st item rest steps st2 hs hst2 hv (ih _ _ _ h)
        · simp only [hv, if_false] at h
          cases hr : dijkstraLoop adj fuel
              (relaxEdges item.id ((Obj.get adj item.id).getD [])
                (DState.mk st.distances st.previous rest (st.visited ++ [item.id]))).2 with
          | none => simp [hr] at h
          | some r =>
            obtain ⟨more, st3⟩ := r
            simp only [hr, Option.some.injEq, Prod.mk.injEq] at h
            obtain ⟨h1, h2⟩ := h
            subst h1; subst h2
            exact LoopRun.visit st item rest more st3 hs hst2 hv (ih _ _ _ hr)

/-! ## One relaxation of `dijkstra` -/

theorem relaxEdge_cases (u : NodeId) (st : DState) (edge : Adj) :
    ((relaxEdge u st edge).2 = st ∧
      (∀ x, Obj.get st.distances u = some (.fin x) →
        jsLt (some (.fin (roundDouble (x + edge.weight))))
          (Obj.get st.distances (.num edge.to_)) = false) ∧
      ∃ c, (relaxEdge u st edge).1 = [c] ∧ c.type = .check ∧ c.data = dataD st.distances) ∨
    (∃ x, Obj.get st.distances u = some (.fin x) ∧
      jsLt (some (.fin (roundDouble (x + edge.weight))))
        (Obj.get st.distances (.num edge.to_)) = true ∧
      (relaxEdge u st edge).2 =
        DState.mk (Obj.set st.distances (.num edge.to_) (.fin (roundDouble (x + edge.weight))))
          (Obj.set st.previous (.num edge.to_) (some u))
          (st.pq ++ [QItem.mk (.num edge.to_) (roundDouble (x + edge.weight))]) st.visited ∧
      ∃ c up, (relaxEdge u st edge).1 = [c, up] ∧ c.type = .check ∧
        c.data = dataD st.distances ∧ up.type = .update ∧
        up.data =
          dataD (Obj.set st.distances (.num edge.to_)
            (.fin (roundDouble (x + edge.weight))))) := by
  unfold relaxEdge
  cases hu : Obj.get st.distances u with
  | none =>
    left
    simp [jsAdd, createStep]
  | some du =>
    cases du with
    | infinity =>
      left
      simp [jsAdd, createStep]
    | fin a =>
      by_cases hlt : jsLt (some (.fin (roundDouble (a + edge.weight))))
          (Obj.get st.distances (.num edge.to_)) = true
      · right
        refine ⟨a, rfl, hlt, ?_⟩
        simp only [jsAdd, hlt, if_true, createStep, true_and]
        exact ⟨_, _, rfl, rfl, rfl, rfl, rfl⟩
      · left
        have hlt2 : jsLt (some (.fin (roundDouble (a + edge.weight))))
            (Obj.get st.distances (.num edge.to_)) = false := by simpa using hlt
        simp [jsAdd, hlt2, createStep]

theorem relaxEdge_visited (u : NodeId) (st : DState) (edge : Adj) :
    (relaxEdge u st edge).2.visited = st.visited := by
  rcases relaxEdge_cases u st edge with ⟨h, _⟩ | ⟨x, _, _, h, _⟩ <;> rw [h]

theorem relaxEdges_visited (u : NodeId) (adjs : List Adj) (st : DState) :
    (relaxEdges u adjs st).2.visited = st.visited := by
  induction adjs generalizing st with
  | nil => rfl
  | cons e rest ih =>
    simp only [relaxEdges]
    rw [ih, relaxEdge_visited]

theorem relaxEdge_pq (u : NodeId) (st : DState) (edge : Adj) :
    (relaxEdge u st edge).2.pq = st.pq ∨
      ∃ x, (relaxEdge u st edge).2.pq = st.pq ++ [QItem.mk (.num edge.to_) x] := by
  rcases relaxEdge_cases u st edge with ⟨h, _⟩ | ⟨x, _, _, h, _⟩
  · left; rw [h]
  · right; exact ⟨_, by rw [h]⟩

theorem relaxEdges_pq_length (u : NodeId) (adjs : List Adj) (st : DState) :
    (relaxEdges u adjs st).2.pq.length ≤ st.pq.length + adjs.length := by
  induction adjs generalizing st with
  | nil => simp [relaxEdges]
  | cons e rest ih =>
    simp only [relaxEdges, List.length_cons]
    have h1 := ih (relaxEdge u st e).2
    have h2 : (relaxEdge u st e).2.pq.length ≤ st.pq.length + 1 := by
      rcases relaxEdge_pq u st e with h | ⟨x, h⟩ <;> rw [h] <;> simp
    omega

theorem relaxEdges_PQOk (start u : NodeId) (adjs : List Adj) (st : DState)
    (h : PQOk start st) : PQOk start (relaxEdges u adjs st).2 := by
  induction adjs generalizing st with
  | nil => exact h
  | cons e rest ih =>
    simp only [relaxEdges]
    apply ih
    intro item hi
    rcases relaxEdge_pq u st e with h2 | ⟨x, h2⟩
    · rw [h2] at hi; exact h item hi
    · rw [h2] at hi
      rcases List.mem_append.mp hi with hi | hi
      · exact h item hi
      · simp only [List.mem_singleton] at hi
        subst hi
        exact Or.inr ⟨_, rfl⟩

/-! ## Termination of the loop -/

theorem sort_perm (pq : List QItem) :
    List.Perm (List.insertionSort (fun a b => a.dist ≤ b.dist) pq) pq :=
  List.perm_insertionSort _ pq

theorem sort_cons_length {pq : List QItem} {item : QItem} {rest : List QItem}
    (h : List.insertionSort (fun a b => a.dist ≤ b.dist) pq = item :: rest) :
    pq.length = rest.length + 1 := by
  have := (sort_perm pq).length_eq
  rw [h] at this
  simpa using this.symm

theorem sort_cons_mem {pq : List QItem} {item : QItem} {rest : List QItem}
    (h : List.insertionSort (fun a b => a.dist ≤ b.dist) pq = item :: rest) (x : QItem) :
    x ∈ pq ↔ x = item ∨ x ∈ rest := by
  have := (sort_perm pq).mem_iff (a := x)
  rw [h] at this
  simpa using this.symm

theorem filter_length_split (es : List Edge) (p q : Edge → Bool) :
    (es.filter p).length =
      (es.filter (fun e => p e && !q e)).length + (es.filter (fun e => p e && q e)).length := by
  induction es with
  | nil => rfl
  | cons e es ih =>
    cases hp : p e <;> cases hq : q e <;> simp [List.filter_cons, hp, hq, ih] <;> omega

theorem filter_length_mono (es : List Edge) (p q : Edge → Bool)
    (h : ∀ e, p e = true → q e = true) : (es.filter p).length ≤ (es.filter q).length := by
  induction es with
  | nil => simp
  | cons e es ih =>
    cases hp : p e
    · cases hq : q e <;> simp [List.filter_cons, hp, hq] <;> omega
    · simp [List.filter_cons, hp, h e hp, ih]

theorem budget_visit (g : Graph) (start u : NodeId) (visited : List NodeId)
    (hu : u ∉ visited) (hk : u = start ∨ ∃ a, u = NodeId.num a) :
    budget g start (visited ++ [u]) +
        (g.edges.filter (fun e => decide (NodeId.num e.from_ = u.key))).length ≤
      budget g start visited := by
  unfold budget
  have hfirst : (g.edges.filter (fun e => decide (NodeId.num e.from_ ∉ visited ++ [u]))).length ≤
      (g.edges.filter (fun e => decide (NodeId.num e.from_ ∉ visited))).length := by
    apply filter_length_mono
    intro e he
    simp only [List.mem_append, List.mem_singleton, not_or, decide_eq_true_eq] at he ⊢
    exact he.1
  by_cases hnum : ∃ a, u = NodeId.num a
  · obtain ⟨a, rfl⟩ := hnum
    have hsplit := filter_length_split g.edges
      (fun e => decide (NodeId.num e.from_ ∉ visited))
      (fun e => decide (NodeId.num e.from_ = NodeId.num a))
    have h1 : (g.edges.filter (fun e => decide (NodeId.num e.from_ ∉ visited) &&
        !decide (NodeId.num e.from_ = NodeId.num a))).length =
        (g.edges.filter (fun e => decide (NodeId.num e.from_ ∉ visited ++ [NodeId.num a]))).length := by
      congr 1
      apply List.filter_congr
      intro e _
      simp [not_or]
    have h2 : (g.edges.filter (fun e => decide (NodeId.num e.from_ ∉ visited) &&
        decide (NodeId.num e.from_ = NodeId.num a))).length =
        (g.edges.filter (fun e => decide (NodeId.num e.from_ = (NodeId.num a).key))).length := by
      congr 1
      apply List.filter_congr
      intro e _
      by_cases he : NodeId.num e.from_ = NodeId.num a
      · have hnv : NodeId.num e.from_ ∉ visited := by rw [he]; exact hu
        simp [NodeId.key, he, hu]
      · simp [NodeId.key, he]
    have hsecond : (if start ∈ visited ++ [NodeId.num a] ∨ start.isNum = true then 0
        else (g.edges.filter (fun e => decide (NodeId.num e.from_ = start.key))).length) ≤
        (if start ∈ visited ∨ start.isNum = true then 0
        else (g.edges.filter (fun e => decide (NodeId.num e.from_ = start.key))).length) := by
      by_cases hs : start ∈ visited ∨ start.isNum = true
      · have hs2 : start ∈ visited ++ [NodeId.num a] ∨ start.isNum = true := by
          rcases hs with hs | hs
          · exact Or.inl (List.mem_append_left _ hs)
          · exact Or.inr hs
        rw [if_pos hs, if_pos hs2]
      · by_cases hs2 : start ∈ visited ++ [NodeId.num a] ∨ start.isNum = true
        · rw [if_pos hs2]
          exact Nat.zero_le _
        · rw [if_neg hs, if_neg hs2]
    omega
  · have hus : u = start := by
      rcases hk with h | h
      · exact h
      · exact absurd h hnum
    subst hus
    have hnn : u.isNum = false := by
      cases u with
      | num a => exact absurd ⟨a, rfl⟩ hnum
      | str t => rfl
    have h3 : (if u ∈ visited ++ [u] ∨ u.isNum = true then 0
        else (g.edges.filter (fun e => decide (NodeId.num e.from_ = u.key))).length) = 0 :=
      if_pos (Or.inl (List.mem_append_right _ (List.mem_singleton.mpr rfl)))
    have h4 : (if u ∈ visited ∨ u.isNum = true then 0
        else (g.edges.filter (fun e => decide (NodeId.num e.from_ = u.key))).length) =
        (g.edges.filter (fun e => decide (NodeId.num e.from_ = u.key))).length := by
      apply if_neg
      rintro (h | h)
      · exact hu h
      · rw [hnn] at h
        exact Bool.false_ne_true h
    omega

theorem dijkstraLoop_terminates (g : Graph) (start : NodeId) :
    ∀ (fuel : Nat) (st : DState), PQOk start st →
      st.pq.length + budget g start st.visited < fuel →
      ∃ r, dijkstraLoop (getAdjacencyList g) fuel st = some r := by
  intro fuel
  induction fuel with
  | zero => intro st _ h; omega
  | succ fuel ih =>
    intro st hok hlt
    unfold dijkstraLoop
    cases hs : List.insertionSort (fun a b => a.dist ≤ b.dist) st.pq with
    | nil => exact ⟨_, rfl⟩
    | cons item rest =>
      have hlen := sort_cons_length hs
      have hmem := sort_cons_mem hs
      have hok1 : PQOk start (DState.mk st.distances st.previous rest st.visited) := by
        intro x hx
        exact hok x ((hmem x).mpr (Or.inr hx))
      have hlt1 : (DState.mk st.distances st.previous rest st.visited).pq.length +
          budget g start (DState.mk st.distances st.previous rest st.visited).visited < fuel := by
        simp only
        omega
      simp only
      by_cases hst : jsLt (Obj.get st.distances item.id) (some (.fin item.dist)) = true
      · simp only [hst, if_true]
        exact ih _ hok1 hlt1
      · simp only [hst, if_false]
        by_cases hv : item.id ∈ st.visited
        · simp only [hv, if_true]
          exact ih _ hok1 hlt1
        · simp only [hv, if_false]
          have hitem := hok item ((hmem item).mpr (Or.inl rfl))
          have hb := budget_visit g start item.id st.visited hv hitem
          have hn := neighbors_length_le g item.id
          have hpq := relaxEdges_pq_length item.id
            ((Obj.get (getAdjacencyList g) item.id).getD [])
            (DState.mk st.distances st.previous rest (st.visited ++ [item.id]))
          have hok2 : PQOk start
              (DState.mk st.distances st.previous rest (st.visited ++ [item.id])) := hok1
          have hok3 := relaxEdges_PQOk start item.id
            ((Obj.get (getAdjacencyList g) item.id).getD []) _ hok2
          have hvis := relaxEdges_visited item.id
            ((Obj.get (getAdjacencyList g) item.id).getD [])
            (DState.mk st.distances st.previous rest (st.visited ++ [item.id]))
          obtain ⟨r, hr⟩ := ih _ hok3 (by
            rw [hvis]
            simp only at hpq ⊢
            omega)
          rw [hr]
          exact ⟨_, rfl⟩

theorem budget_init_le (g : Graph) (start : NodeId) :
    budget g start [] ≤ 2 * g.edges.length := by
  unfold budget
  have h1 := List.length_filter_le (fun e => decide (NodeId.num e.from_ ∉ ([] : List NodeId)))
    g.edges
  have h2 := List.length_filter_le (fun e => decide (NodeId.num e.from_ = start.key)) g.edges
  by_cases hs : start ∈ ([] : List NodeId) ∨ start.isNum = true
  · rw [if_pos hs]
    omega
  · rw [if_neg hs]
    omega

theorem budget_init_num (g : Graph) (s : Int) : budget g (.num s) [] ≤ g.edges.length := by
  unfold budget
  have h1 := List.length_filter_le (fun e => decide (NodeId.num e.from_ ∉ ([] : List NodeId)))
    g.edges
  have hs : NodeId.num s ∈ ([] : List NodeId) ∨ (NodeId.num s).isNum = true := Or.inr rfl
  rw [if_pos hs]
  omega

/-! ## Shape of a `dijkstra` run -/

theorem dijkstra_terminates (g : Graph) (start : NodeId) (fuel : Nat)
    (hf : 2 * g.edges.length + 2 ≤ fuel) :
    ∃ r, dijkstraLoop (getAdjacencyList g) fuel
      (DState.mk (initDistances g start) (initPrevious g) [QItem.mk start 0] []) = some r := by
  apply dijkstraLoop_terminates g start
  · intro item hi
    simp only [List.mem_singleton] at hi
    subst hi
    exact Or.inl rfl
  · have := budget_init_le g start
    simp only [List.length_singleton]
    omega

theorem dijkstra_found (g : Graph) (start : NodeId) (fuel : Nat)
    (hfound : startFound g start = true) (hf : 2 * g.edges.length + 2 ≤ fuel) :
    ∃ steps st,
      LoopRun (getAdjacencyList g)
        (DState.mk (initDistances g start) (initPrevious g) [QItem.mk start 0] []) steps st ∧
      dijkstra fuel g start =
        some (createStep .init (dataD (initDistances g start))
            ("Initialized distances. Start node: " ++ start.toStr) [start] [] ::
          (steps ++ [createStep .finished (dataDP st.distances st.previous)
            "Dijkstra completed." [] []])) := by
  obtain ⟨⟨steps, st⟩, hr⟩ := dijkstra_terminates g start fuel hf
  refine ⟨steps, st, dijkstraLoop_run _ _ _ _ _ hr, ?_⟩
  unfold dijkstra
  simp [hfound, hr]

theorem dijkstra_returns (g : Graph) (start : NodeId) (fuel : Nat)
    (hf : 2 * g.edges.length + 2 ≤ fuel) : ∃ steps, dijkstra fuel g start = some steps := by
  by_cases hfound : startFound g start = true
  · obtain ⟨steps, st, _, h⟩ := dijkstra_found g start fuel hfound hf
    exact ⟨_, h⟩
  · refine ⟨[notFoundStep start], ?_⟩
    unfold dijkstra
    simp [hfound]

/-! ## Comparisons and the map invariant -/

theorem Walk.step {g : Graph} {a b c v c2 : Int} (e : Edge) (hw : Walk g a b c)
    (he : e ∈ g.edges) (hfrom : e.from_ = b) (hto : e.to_ = v) (hc : c + e.weight = c2) :
    Walk g a v c2 := by
  subst hto
  subst hc
  exact Walk.snoc e hw he hfrom

theorem jsLt_fin_true {y : Int} {z : Option Dist}
    (h : jsLt (some (.fin y)) z = true) :
    z = some .infinity ∨ ∃ t, z = some (.fin t) ∧ y < t := by
  cases z with
  | none => simp [jsLt] at h
  | some d =>
    cases d with
    | infinity => exact Or.inl rfl
    | fin t =>
      right
      refine ⟨t, rfl, ?_⟩
      simpa [jsLt] using h

theorem jsLt_fin_false {y : Int} {d : Dist}
    (h : jsLt (some (.fin y)) (some d) = false) : ∃ t, d = .fin t ∧ t ≤ y := by
  cases d with
  | infinity => simp [jsLt] at h
  | fin t =>
    refine ⟨t, rfl, ?_⟩
    have : ¬ y < t := by simpa [jsLt] using h
    omega

theorem canRelax_true {distances : Obj Dist} {e : Edge} (h : canRelax distances e = true) :
    ∃ x, Obj.get distances (.num e.from_) = some (.fin x) ∧
      jsLt (some (.fin (roundDouble (x + e.weight)))) (Obj.get distances (.num e.to_)) =
        true := by
  unfold canRelax at h
  cases hu : Obj.get distances (.num e.from_) with
  | none => simp [hu, jsAdd, jsLt] at h
  | some du =>
    cases du with
    | infinity => simp [hu] at h
    | fin x =>
      refine ⟨x, rfl, ?_⟩
      simpa [hu, jsAdd] using h

theorem canRelax_false {distances : Obj Dist} {e : Edge} {x : Int}
    (h : canRelax distances e = false)
    (hx : Obj.get distances (.num e.from_) = some (.fin x)) :
    jsLt (some (.fin (roundDouble (x + e.weight)))) (Obj.get distances (.num e.to_)) =
      false := by
  unfold canRelax at h
  simpa [hx, jsAdd] using h

theorem MapsOk.init (g : Graph) (start : NodeId) (s : Int) (hkey : start.key = .num s)
    (hs : s ∈ g.nodes) : MapsOk g s (initDistances g start) (initPrevious g) := by
  constructor
  · intro v hv
    rw [initDistances_get g start s v hkey]
    by_cases h : v = s
    · exact ⟨Dist.fin 0, by simp [h]⟩
    · exact ⟨Dist.infinity, by simp [h, hv]⟩
  · intro v x h
    rw [initDistances_get g start s v hkey] at h
    by_cases hvs : v = s
    · subst hvs
      exact ⟨0, Walk.nil v⟩
    · by_cases hv : v ∈ g.nodes <;> simp [hvs, hv] at h
  · intro v h
    rw [initDistances_get g start s v hkey] at h
    rw [initPrevious_get]
    by_cases hvs : v = s
    · simp [hvs] at h
    · by_cases hv : v ∈ g.nodes
      · simp [hv]
      · simp [hvs, hv] at h
  · exact ⟨0, by rw [initDistances_get g start s s hkey]; simp, le_refl 0⟩

/-- Writing a value that passed the `<` test into the target of an edge whose
source has a finite distance keeps the invariant, whatever the value is. -/
theorem MapsOk.relax {g : Graph} {s : Int} {distances : Obj Dist}
    {previous : Obj (Option NodeId)} (h : MapsOk g s distances previous)
    (e : Edge) (he : e ∈ g.edges) (x : Int)
    (hx : Obj.get distances (.num e.from_) = some (.fin x)) (y : Int)
    (hlt : jsLt (some (.fin y)) (Obj.get distances (.num e.to_)) = true)
    (u : NodeId) :
    MapsOk g s (Obj.set distances (.num e.to_) (.fin y))
      (Obj.set previous (.num e.to_) (some u)) := by
  constructor
  · intro v hv
    rw [Obj.get_set_num]
    by_cases hvt : v = e.to_
    · exact ⟨Dist.fin y, by simp [hvt]⟩
    · obtain ⟨d, hd⟩ := h.defined v hv
      exact ⟨d, by simp [hvt, hd]⟩
  · intro v z hz
    rw [Obj.get_set_num] at hz
    by_cases hvt : v = e.to_
    · subst hvt
      obtain ⟨c, hc⟩ := h.reach _ _ hx
      exact ⟨_, Walk.snoc e hc he rfl⟩
    · simp only [hvt, if_false] at hz
      exact h.reach v z hz
  · intro v hv
    rw [Obj.get_set_num] at hv
    rw [Obj.get_set_num]
    by_cases hvt : v = e.to_
    · simp [hvt] at hv
    · simp only [hvt, if_false] at hv ⊢
      exact h.prevInf v hv
  · obtain ⟨x0, hx0, hle⟩ := h.start
    rw [Obj.get_set_num]
    by_cases hst : s = e.to_
    · refine ⟨y, by simp [hst], ?_⟩
      rw [← hst, hx0] at hlt
      rcases jsLt_fin_true hlt with h1 | ⟨t, h1, h2⟩
      · simp at h1
      · simp only [Option.some.injEq, Dist.fin.injEq] at h1
        omega
    · exact ⟨x0, by simp [hst, hx0], hle⟩

/-! ## Exact distances -/

theorem exact_init (g : Graph) (start : NodeId) (s : Int) (hkey : start.key = .num s) :
    Exact g s (initDistances g start) := by
  intro v x h
  rw [initDistances_get g start s v hkey] at h
  by_cases hvs : v = s
  · subst hvs
    simp only [if_true, Option.some.injEq, Dist.fin.injEq] at h
    subst h
    exact Walk.nil v
  · by_cases hv : v ∈ g.nodes <;> simp [hvs, hv] at h

/-- Writing the exact sum of the source distance and the weight into the
target of an edge keeps the distances exact. -/
theorem exact_relax {g : Graph} {s : Int} {distances : Obj Dist} (h : Exact g s distances)
    (e : Edge) (he : e ∈ g.edges) (x : Int)
    (hx : Obj.get distances (.num e.from_) = some (.fin x)) :
    Exact g s (Obj.set distances (.num e.to_) (.fin (x + e.weight))) := by
  intro v y hy
  rw [Obj.get_set_num] at hy
  by_cases hvt : v = e.to_
  · subst hvt
    simp only [if_true, Option.some.injEq, Dist.fin.injEq] at hy
    subst hy
    exact Walk.snoc e (h _ _ hx) he rfl
  · simp only [hvt, if_false] at hy
    exact h v y hy

theorem absLe_mono {m n : Nat} {distances : Obj Dist} (h : AbsLe m distances) (hmn : m ≤ n) :
    AbsLe n distances :=
  fun v x hx => le_trans (h v x hx) hmn

theorem absLe_init (g : Graph) (start : NodeId) (s : Int) (hkey : start.key = .num s) :
    AbsLe 0 (initDistances g start) := by
  intro v x h
  rw [initDistances_get g start s v hkey] at h
  by_cases hvs : v = s
  · subst hvs
    simp only [if_true, Option.some.injEq, Dist.fin.injEq] at h
    subst h
    simp
  · by_cases hv : v ∈ g.nodes <;> simp [hvs, hv] at h

theorem absLe_relax {m : Nat} {distances : Obj Dist} (h : AbsLe m distances) (e : Edge)
    (x : Int) (hx : Obj.get distances (.num e.from_) = some (.fin x)) :
    AbsLe (m + e.weight.natAbs) (Obj.set distances (.num e.to_) (.fin (x + e.weight))) := by
  intro v y hy
  rw [Obj.get_set_num] at hy
  by_cases hvt : v = e.to_
  · subst hvt
    simp only [if_true, Option.some.injEq, Dist.fin.injEq] at hy
    subst hy
    have := h _ _ hx
    omega
  · simp only [hvt, if_false] at hy
    have := h v y hy
    omega

/-- The relaxation test on distances bounded by `m`, for an edge whose weight
keeps the sum within 2^53, compares the exact sum. -/
theorem canRelax_exact {m : Nat} {distances : Obj Dist} (hb : AbsLe m distances) (e : Edge)
    (hm : m + e.weight.natAbs ≤ 2 ^ 53) (x : Int)
    (hx : Obj.get distances (.num e.from_) = some (.fin x)) :
    roundDouble (x + e.weight) = x + e.weight := by
  have := hb _ _ hx
  exact jsAdd_exact _ _ (by omega)

/-! ## Distances no edge can improve -/

/-- On exact maps where no edge passes the relaxation test, distances respect
every walk. -/
theorem fixpoint_walk {g : Graph} {s : Int} {distances : Obj Dist}
    {previous : Obj (Option NodeId)} (hwf : WellFormed g)
    (h : MapsOk g s distances previous) {m : Nat} (hb : AbsLe m distances)
    (hm : m + totalWeight g ≤ 2 ^ 53)
    (hfix : ∀ e ∈ g.edges, canRelax distances e = false)
    {a b c : Int} (hw : Walk g a b c) :
    ∀ x, Obj.get distances (.num a) = some (.fin x) →
      ∃ y, Obj.get distances (.num b) = some (.fin y) ∧ y ≤ x + c := by
  induction hw with
  | nil => intro x hx; exact ⟨x, hx, by omega⟩
  | snoc e _ he hfrom ih =>
    intro x hx
    obtain ⟨y, hy, hle⟩ := ih x hx
    subst hfrom
    have hf := canRelax_false (hfix e he) hy
    have hwe := weight_le_total he
    rw [canRelax_exact hb e (by omega) y hy] at hf
    obtain ⟨d, hd⟩ := h.defined e.to_ (hwf e he).2
    rw [hd] at hf
    obtain ⟨t, ht, hle2⟩ := jsLt_fin_false hf
    subst ht
    exact ⟨t, hd, by omega⟩

theorem fixpoint_shortest {g : Graph} {s : Int} {distances : Obj Dist}
    {previous : Obj (Option NodeId)} (hwf : WellFormed g)
    (h : MapsOk g s distances previous) (hex : Exact g s distances) {m : Nat}
    (hb : AbsLe m distances) (hm : m + totalWeight g ≤ 2 ^ 53)
    (hfix : ∀ e ∈ g.edges, canRelax distances e = false) (v : Int) (hv : v ∈ g.nodes) :
    ∃ d, Obj.get distances (.num v) = some d ∧ ShortestCost g s v d := by
  obtain ⟨d, hd⟩ := h.defined v hv
  obtain ⟨x0, hx0, hle0⟩ := h.start
  refine ⟨d, hd, ?_⟩
  cases d with
  | infinity =>
    intro hr
    obtain ⟨c, hc⟩ := hr
    obtain ⟨y, hy, _⟩ := fixpoint_walk hwf h hb hm hfix hc x0 hx0
    rw [hd] at hy
    simp at hy
  | fin y =>
    refine ⟨hex v y hd, ?_⟩
    intro c hc
    obtain ⟨y2, hy2, hle⟩ := fixpoint_walk hwf h hb hm hfix hc x0 hx0
    rw [hd] at hy2
    simp only [Option.some.injEq, Dist.fin.injEq] at hy2
    omega

theorem fixpoint_no_negative_cycle {g : Graph} {s : Int} {distances : Obj Dist}
    {previous : Obj (Option NodeId)} (hwf : WellFormed g)
    (h : MapsOk g s distances previous) {m : Nat} (hb : AbsLe m distances)
    (hm : m + totalWeight g ≤ 2 ^ 53)
    (hfix : ∀ e ∈ g.edges, canRelax distances e = false)
    {v a c : Int} (hreach : Walk g s v a) (hcycle : Walk g v v c) : 0 ≤ c := by
  obtain ⟨x0, hx0, _⟩ := h.start
  obtain ⟨y, hy, _⟩ := fixpoint_walk hwf h hb hm hfix hreach x0 hx0
  obtain ⟨y2, hy2, hle⟩ := fixpoint_walk hwf h hb hm hfix hcycle y hy
  rw [hy] at hy2
  simp only [Option.some.injEq, Dist.fin.injEq] at hy2
  omega

theorem MapsOk.unreachable {g : Graph} {s : Int} {distances : Obj Dist}
    {previous : Obj (Option NodeId)} (h : MapsOk g s distances previous)
    (v : Int) (hv : v ∈ g.nodes) (hnr : ¬ Reachable g s v) :
    Obj.get distances (.num v) = some .infinity ∧ Obj.get previous (.num v) = some none := by
  obtain ⟨d, hd⟩ := h.defined v hv
  cases d with
  | infinity => exact ⟨hd, h.prevInf v hd⟩
  | fin x => exact absurd (h.reach v x hd) hnr

/-! ## Monotone traces -/

theorem distLe_refl_some (d : Dist) : DistLe (some d) (some d) := by
  cases d <;> simp [DistLe]

theorem distLe_trans {a b c : Option Dist} (h1 : DistLe a b) (h2 : DistLe b c) :
    DistLe a c := by
  cases a with
  | none => simp [DistLe] at h1
  | some a =>
    cases b with
    | none => cases a <;> simp [DistLe] at h1
    | some b =>
      cases c with
      | none => cases b <;> simp [DistLe] at h2
      | some c =>
        cases a <;> cases b <;> cases c <;> simp [DistLe] at h1 h2 ⊢
        omega

theorem mapLe_refl {g : Graph} {d : Obj Dist}
    (hdef : ∀ v ∈ g.nodes, ∃ x, Obj.get d (.num v) = some x) : MapLe g d d := by
  intro v hv
  obtain ⟨x, hx⟩ := hdef v hv
  rw [hx]
  exact distLe_refl_some x

theorem mapLe_trans {g : Graph} {d3 d2 d1 : Obj Dist} (h1 : MapLe g d3 d2)
    (h2 : MapLe g d2 d1) : MapLe g d3 d1 :=
  fun v hv => distLe_trans (h1 v hv) (h2 v hv)

theorem mapLe_relax {g : Graph} {d : Obj Dist}
    (hdef : ∀ v ∈ g.nodes, ∃ x, Obj.get d (.num v) = some x) (b y : Int)
    (hlt : jsLt (some (.fin y)) (Obj.get d (.num b)) = true) :
    MapLe g (Obj.set d (.num b) (.fin y)) d := by
  intro v hv
  rw [Obj.get_set_num]
  by_cases hvb : v = b
  · subst hvb
    simp only [if_true]
    rcases jsLt_fin_true hlt with h | ⟨t, h, hyt⟩
    · rw [h]; simp [DistLe]
    · rw [h]; simp only [DistLe]; omega
  · simp only [hvb, if_false]
    obtain ⟨x, hx⟩ := hdef v hv
    rw [hx]
    exact distLe_refl_some x

theorem StepLe.of_carries {g : Graph} {a b : Step} {da db : Obj Dist}
    (ha : Carries a da) (hb : Carries b db) (h : MapLe g db da) : StepLe g b a := by
  intro v hv
  obtain ⟨x, hx1, hx2⟩ := ha
  obtain ⟨y, hy1, hy2⟩ := hb
  simp only [stepDist, hx1, hx2, hy1, hy2]
  exact h v hv

theorem carries_dataD (type : Kind) (d : Obj Dist) (msg : String) (hn : List NodeId)
    (he : List String) : Carries (createStep type (dataD d) msg hn he) d :=
  ⟨_, rfl, rfl⟩

theorem carries_dataDP (type : Kind) (d : Obj Dist) (p : Obj (Option NodeId)) (msg : String)
    (hn : List NodeId) (he : List String) : Carries (createStep type (dataDP d p) msg hn he) d :=
  ⟨_, rfl, rfl⟩

theorem carries_of_data {a : Step} {d : Obj Dist} (h : a.data = dataD d) : Carries a d :=
  ⟨_, h, rfl⟩

theorem TraceMono.nil {g : Graph} {d : Obj Dist}
    (hdef : ∀ v ∈ g.nodes, ∃ x, Obj.get d (.num v) = some x) : TraceMono g d [] d :=
  ⟨mapLe_refl hdef, by simp, List.Pairwise.nil⟩

theorem TraceMono.single {g : Graph} {d : Obj Dist} {a : Step}
    (hdef : ∀ v ∈ g.nodes, ∃ x, Obj.get d (.num v) = some x) (ha : Carries a d) :
    TraceMono g d [a] d := by
  refine ⟨mapLe_refl hdef, ?_, List.pairwise_singleton _ _⟩
  intro b hb
  simp only [List.mem_singleton] at hb
  subst hb
  exact ⟨d, ha, mapLe_refl hdef, mapLe_refl hdef⟩

theorem TraceMono.append {g : Graph} {d0 d1 d2 : Obj Dist} {l1 l2 : List Step}
    (h1 : TraceMono g d0 l1 d1) (h2 : TraceMono g d1 l2 d2) :
    TraceMono g d0 (l1 ++ l2) d2 := by
  obtain ⟨h10, h1s, h1p⟩ := h1
  obtain ⟨h21, h2s, h2p⟩ := h2
  refine ⟨mapLe_trans h21 h10, ?_, ?_⟩
  · intro a ha
    rcases List.mem_append.mp ha with ha | ha
    · obtain ⟨d, hc, hle1, hle2⟩ := h1s a ha
      exact ⟨d, hc, hle1, mapLe_trans h21 hle2⟩
    · obtain ⟨d, hc, hle1, hle2⟩ := h2s a ha
      exact ⟨d, hc, mapLe_trans hle1 h10, hle2⟩
  · rw [List.pairwise_append]
    refine ⟨h1p, h2p, ?_⟩
    intro a ha b hb
    obtain ⟨da, hca, _, hle2⟩ := h1s a ha
    obtain ⟨db, hcb, hle1, _⟩ := h2s b hb
    exact StepLe.of_carries hca hcb (mapLe_trans hle1 hle2)

theorem TraceMono.cons {g : Graph} {d0 d1 : Obj Dist} {a : Step} {l : List Step}
    (hdef : ∀ v ∈ g.nodes, ∃ x, Obj.get d0 (.num v) = some x) (ha : Carries a d0)
    (h : TraceMono g d0 l d1) : TraceMono g d0 (a :: l) d1 :=
  TraceMono.append (TraceMono.single hdef ha) h

theorem TraceMono.snoc {g : Graph} {d0 d1 : Obj Dist} {a : Step} {l : List Step}
    (hdef : ∀ v ∈ g.nodes, ∃ x, Obj.get d1 (.num v) = some x) (ha : Carries a d1)
    (h : TraceMono g d0 l d1) : TraceMono g d0 (l ++ [a]) d1 :=
  TraceMono.append h (TraceMono.single hdef ha)

theorem TraceMono.update {g : Graph} {d : Obj Dist} {a : Step}
    (hdef : ∀ v ∈ g.nodes, ∃ x, Obj.get d (.num v) = some x) (b y : Int)
    (hlt : jsLt (some (.fin y)) (Obj.get d (.num b)) = true)
    (ha : Carries a (Obj.set d (.num b) (.fin y))) :
    TraceMono g d [a] (Obj.set d (.num b) (.fin y)) := by
  have hle := mapLe_relax hdef b y hlt
  have hdef2 : ∀ v ∈ g.nodes, ∃ x, Obj.get (Obj.set d (.num b) (.fin y)) (.num v) = some x := by
    intro v hv
    rw [Obj.get_set_num]
    by_cases hvb : v = b
    · exact ⟨Dist.fin y, by simp [hvb]⟩
    · obtain ⟨x, hx⟩ := hdef v hv
      exact ⟨x, by simp [hvb, hx]⟩
  refine ⟨hle, ?_, List.pairwise_singleton _ _⟩
  intro c hc
  simp only [List.mem_singleton] at hc
  subst hc
  exact ⟨_, ha, hle, mapLe_refl hdef2⟩

/-! ## Counting steps -/

theorem countKind_nil (k : Kind) : countKind k [] = 0 := rfl

theorem countKind_cons (k : Kind) (a : Step) (l : List Step) :
    countKind k (a :: l) = (if a.type = k then 1 else 0) + countKind k l := by
  unfold countKind
  by_cases h : a.type = k
  · simp [List.filter_cons, h]; omega
  · simp [List.filter_cons, h]

theorem countKind_append (k : Kind) (l1 l2 : List Step) :
    countKind k (l1 ++ l2) = countKind k l1 + countKind k l2 := by
  unfold countKind
  simp [List.filter_append]

theorem countKind_eq_zero (k : Kind) (l : List Step) (h : ∀ a ∈ l, a.type ≠ k) :
    countKind k l = 0 := by
  unfold countKind
  rw [List.length_eq_zero, List.filter_eq_nil_iff]
  intro a ha
  simpa using h a ha

/-! ## Relaxation rounds of `bellmanFord` -/

theorem bfRelaxEdge_cases (st : RState) (e : Edge) :
    (canRelax st.distances e = false ∧ bfRelaxEdge st e = ([], st)) ∨
    (∃ x, Obj.get st.distances (.num e.from_) = some (.fin x) ∧
      jsLt (some (.fin (roundDouble (x + e.weight)))) (Obj.get st.distances (.num e.to_)) =
        true ∧
      ∃ up, bfRelaxEdge st e =
          ([up],
            RState.mk (Obj.set st.distances (.num e.to_) (.fin (roundDouble (x + e.weight))))
              (Obj.set st.previous (.num e.to_) (some (.num e.from_))) true) ∧
        up.type = .update ∧
        up.data =
          dataD (Obj.set st.distances (.num e.to_) (.fin (roundDouble (x + e.weight)))) ∧
        up.highlightNodes = [.num e.to_] ∧ up.highlightEdges = [e.id]) := by
  by_cases hc : canRelax st.distances e = true
  · right
    obtain ⟨x, hx, hlt⟩ := canRelax_true hc
    refine ⟨x, hx, hlt, ?_⟩
    unfold bfRelaxEdge
    simp only [hc, if_true, hx, jsAdd]
    exact ⟨_, rfl, rfl, rfl, rfl, rfl⟩
  · left
    have hc2 : canRelax st.distances e = false := by simpa using hc
    refine ⟨hc2, ?_⟩
    unfold bfRelaxEdge
    simp [hc2]

theorem bfRelaxEdge_spec {g : Graph} {s : Int} (st : RState) (e : Edge) (he : e ∈ g.edges)
    (h : MapsOk g s st.distances st.previous) :
    MapsOk g s (bfRelaxEdge st e).2.distances (bfRelaxEdge st e).2.previous ∧
    TraceMono g st.distances (bfRelaxEdge st e).1 (bfRelaxEdge st e).2.distances ∧
    (∀ a ∈ (bfRelaxEdge st e).1, a.type = .update) := by
  rcases bfRelaxEdge_cases st e with ⟨_, h2⟩ | ⟨x, hx, hlt, up, h2, hty, hdata, _⟩
  · rw [h2]
    exact ⟨h, TraceMono.nil h.defined, by simp⟩
  · rw [h2]
    refine ⟨MapsOk.relax h e he x hx _ hlt _, ?_, ?_⟩
    · exact TraceMono.update h.defined _ _ hlt (carries_of_data hdata)
    · intro a ha
      simp only [List.mem_singleton] at ha
      subst ha
      exact hty

theorem bfRelaxAll_spec {g : Graph} {s : Int} (es : List Edge) (hes : ∀ e ∈ es, e ∈ g.edges)
    (st : RState) (h : MapsOk g s st.distances st.previous) :
    MapsOk g s (bfRelaxAll es st).2.distances (bfRelaxAll es st).2.previous ∧
    TraceMono g st.distances (bfRelaxAll es st).1 (bfRelaxAll es st).2.distances ∧
    (∀ a ∈ (bfRelaxAll es st).1, a.type = .update) := by
  induction es generalizing st with
  | nil => exact ⟨h, TraceMono.nil h.defined, by simp [bfRelaxAll]⟩
  | cons e rest ih =>
    simp only [bfRelaxAll]
    obtain ⟨h1, h2, h3⟩ := bfRelaxEdge_spec st e (hes e (List.mem_cons_self _ _)) h
    obtain ⟨h4, h5, h6⟩ := ih (fun e2 he2 => hes e2 (List.mem_cons_of_mem _ he2)) _ h1
    refine ⟨h4, TraceMono.append h2 h5, ?_⟩
    intro a ha
    rcases List.mem_append.mp ha with ha | ha
    · exact h3 a ha
    · exact h6 a ha

theorem bfRelaxAll_changed_mono (es : List Edge) (st : RState) (h : st.changed = true) :
    (bfRelaxAll es st).2.changed = true := by
  induction es generalizing st with
  | nil => exact h
  | cons e rest ih =>
    simp only [bfRelaxAll]
    apply ih
    rcases bfRelaxEdge_cases st e with ⟨_, h2⟩ | ⟨x, _, _, up, h2, _⟩
    · rw [h2]; exact h
    · rw [h2]

theorem bfRelaxAll_unchanged (es : List Edge) (st : RState)
    (h : (bfRelaxAll es st).2.changed = false) :
    bfRelaxAll es st = ([], st) ∧ ∀ e ∈ es, canRelax st.distances e = false := by
  induction es generalizing st with
  | nil => exact ⟨rfl, by simp⟩
  | cons e rest ih =>
    simp only [bfRelaxAll] at h ⊢
    rcases bfRelaxEdge_cases st e with ⟨hc, h2⟩ | ⟨x, _, _, up, h2, _⟩
    · rw [h2] at h ⊢
      obtain ⟨h3, h4⟩ := ih st h
      rw [h3]
      refine ⟨rfl, ?_⟩
      intro e2 he2
      rcases List.mem_cons.mp he2 with he2 | he2
      · subst he2; exact hc
      · exact h4 e2 he2
    · rw [h2] at h
      have := bfRelaxAll_changed_mono rest
        (RState.mk (Obj.set st.distances (.num e.to_) (.fin (roundDouble (x + e.weight))))
          (Obj.set st.previous (.num e.to_) (some (.num e.from_))) true) rfl
      rw [this] at h
      simp at h

theorem bfRelaxAll_of_fixed (es : List Edge) (st : RState)
    (h : ∀ e ∈ es, canRelax st.distances e = false) : bfRelaxAll es st = ([], st) := by
  induction es with
  | nil => rfl
  | cons e rest ih =>
    simp only [bfRelaxAll]
    rcases bfRelaxEdge_cases st e with ⟨_, h2⟩ | ⟨x, hx, hlt, _⟩
    · rw [h2, ih (fun e2 he2 => h e2 (List.mem_cons_of_mem _ he2))]
      rfl
    · have hc := h e (List.mem_cons_self _ _)
      have := canRelax_false hc hx
      rw [this] at hlt
      simp at hlt

theorem bfRounds_spec {g : Graph} {s : Int} (k i : Nat) (st : RState)
    (h : MapsOk g s st.distances st.previous) :
    MapsOk g s (bfRounds g k i st).2.distances (bfRounds g k i st).2.previous ∧
    TraceMono g st.distances (bfRounds g k i st).1 (bfRounds g k i st).2.distances ∧
    (∀ a ∈ (bfRounds g k i st).1,
      a.type = .iteration ∨ a.type = .update ∨ a.type = .info) ∧
    countKind .iteration (bfRounds g k i st).1 ≤ k := by
  induction k generalizing i st with
  | zero => exact ⟨h, TraceMono.nil h.defined, by simp [bfRounds], by simp [bfRounds, countKind]⟩
  | succ k ih =>
    obtain ⟨h1, h2, h3⟩ := bfRelaxAll_spec (g := g) (s := s) g.edges (fun e he => he)
      (RState.mk st.distances st.previous false) h
    have hcount : countKind .iteration
        (bfRelaxAll g.edges (RState.mk st.distances st.previous false)).1 = 0 :=
      countKind_eq_zero _ _ (fun a ha => by rw [h3 a ha]; decide)
    unfold bfRounds
    by_cases hch : (bfRelaxAll g.edges (RState.mk st.distances st.previous false)).2.changed
        = true
    · simp only [hch, Bool.not_true, Bool.false_eq_true, if_false]
      obtain ⟨h4, h5, h6, h7⟩ := ih (i + 1) _ h1
      refine ⟨h4, ?_, ?_, ?_⟩
      · exact TraceMono.cons h.defined (carries_dataD _ _ _ _ _) (TraceMono.append h2 h5)
      · intro a ha
        rcases List.mem_cons.mp ha with ha | ha
        · subst ha; exact Or.inl rfl
        · rcases List.mem_append.mp ha with ha | ha
          · exact Or.inr (Or.inl (h3 a ha))
          · exact h6 a ha
      · rw [countKind_cons, countKind_append, hcount]
        simp only [createStep, if_true]
        omega
    · have hch2 : (bfRelaxAll g.edges (RState.mk st.distances st.previous false)).2.changed
          = false := by simpa using hch
      simp only [hch2, Bool.not_false, if_true]
      refine ⟨h1, ?_, ?_, ?_⟩
      · exact TraceMono.cons h.defined (carries_dataD _ _ _ _ _)
          (TraceMono.snoc h1.defined (carries_dataD _ _ _ _ _) h2)
      · intro a ha
        rcases List.mem_cons.mp ha with ha | ha
        · subst ha; exact Or.inl rfl
        · rcases List.mem_append.mp ha with ha | ha
          · exact Or.inr (Or.inl (h3 a ha))
          · simp only [List.mem_singleton] at ha
            subst ha
            exact Or.inr (Or.inr rfl)
      · rw [countKind_cons, countKind_append, hcount, countKind_cons, countKind_nil]
        simp only [createStep, if_true]
        have : (if Kind.info = Kind.iteration then 1 else 0) = 0 := by decide
        omega

theorem bfCheck_cases (g : Graph) (st : RState) :
    ((∀ e ∈ g.edges, canRelax st.distances e = false) ∧
      bfCheck g st = [createStep .finished (dataDP st.distances st.previous)
        "Bellman-Ford completed." [] []]) ∨
    (∃ e ∈ g.edges, canRelax st.distances e = true ∧
      bfCheck g st = [createStep .error (dataD st.distances) "Negative weight cycle detected!"
        [.num e.from_, .num e.to_] [e.id]]) := by
  unfold bfCheck
  cases hf : g.edges.find? (canRelax st.distances) with
  | none =>
    left
    rw [List.find?_eq_none] at hf
    exact ⟨fun e he => by simpa using hf e he, rfl⟩
  | some e =>
    right
    exact ⟨e, List.mem_of_find?_eq_some hf, List.find?_some hf, rfl⟩

theorem bellmanFord_found (g : Graph) (start : NodeId) (hfound : startFound g start = true) :
    bellmanFord g start =
      createStep .init (dataD (initDistances g start))
          "Initialized Bellman-Ford. Relaxing edges V-1 times." [start] [] ::
        ((bfRounds g (g.nodes.length - 1) 0
            (RState.mk (initDistances g start) (initPrevious g) false)).1 ++
          bfCheck g (bfRounds g (g.nodes.length - 1) 0
            (RState.mk (initDistances g start) (initPrevious g) false)).2) := by
  unfold bellmanFord
  simp [hfound]

/-! ## `distanceVector` follows the relaxation of `bellmanFord` -/

theorem dvRelaxEdge_eq (st : RState) (e : Edge) :
    (dvRelaxEdge st e).2 = (bfRelaxEdge st e).2 ∧
    (dvRelaxEdge st e).1.map eraseMessage = (bfRelaxEdge st e).1.map eraseMessage := by
  unfold dvRelaxEdge bfRelaxEdge
  by_cases hc : canRelax st.distances e = true
  · simp only [hc, if_true]
    cases hj : jsAdd (Obj.get st.distances (.num e.from_)) e.weight with
    | none => exact ⟨rfl, rfl⟩
    | some nd => exact ⟨rfl, rfl⟩
  · simp [hc]

theorem dvRelaxAll_eq (es : List Edge) (st : RState) :
    (dvRelaxAll es st).2 = (bfRelaxAll es st).2 ∧
    (dvRelaxAll es st).1.map eraseMessage = (bfRelaxAll es st).1.map eraseMessage := by
  induction es generalizing st with
  | nil => exact ⟨rfl, rfl⟩
  | cons e rest ih =>
    simp only [dvRelaxAll, bfRelaxAll, List.map_append]
    obtain ⟨h1, h2⟩ := dvRelaxEdge_eq st e
    rw [h1, h2]
    obtain ⟨h3, h4⟩ := ih (bfRelaxEdge st e).2
    rw [h3, h4]
    exact ⟨rfl, rfl⟩

theorem dvRounds_eq (g : Graph) (k i : Nat) (st : RState) :
    (dvRounds g k i st).2 = (bfRounds g k i st).2 ∧
    (dvRounds g k i st).1.map eraseMessage = (bfRounds g k i st).1.map eraseMessage := by
  induction k generalizing i st with
  | zero => exact ⟨rfl, rfl⟩
  | succ k ih =>
    unfold dvRounds bfRounds
    obtain ⟨h1, h2⟩ := dvRelaxAll_eq g.edges (RState.mk st.distances st.previous false)
    simp only [h1]
    by_cases hch : (bfRelaxAll g.edges (RState.mk st.distances st.previous false)).2.changed
        = true
    · simp only [hch, Bool.not_true, Bool.false_eq_true, if_false, List.map_cons,
        List.map_append, h2]
      obtain ⟨h3, h4⟩ := ih (i + 1) (bfRelaxAll g.edges
        (RState.mk st.distances st.previous false)).2
      rw [h3, h4]
      exact ⟨rfl, rfl⟩
    · have hch2 : (bfRelaxAll g.edges (RState.mk st.distances st.previous false)).2.changed
          = false := by simpa using hch
      simp only [hch2, Bool.not_false, if_true, List.map_cons, List.map_append, h2]
      exact ⟨trivial, rfl⟩

theorem map_type_of_erase {l1 l2 : List Step}
    (h : l1.map eraseMessage = l2.map eraseMessage) :
    l1.map (fun a => a.type) = l2.map (fun a => a.type) := by
  have := congrArg (List.map (fun a : Step => a.type)) h
  simpa [List.map_map, Function.comp_def, eraseMessage] using this

theorem distanceVector_found (g : Graph) (start : NodeId)
    (hfound : startFound g start = true) :
    distanceVector g start =
      createStep .init (dataD (initDistances g start))
          "Initialized Distance Vector. Nodes will exchange vectors." [start] [] ::
        ((dvRounds g (g.nodes.length - 1) 0
            (RState.mk (initDistances g start) (initPrevious g) false)).1 ++
          [createStep .finished
            (dataDP
              (bfRounds g (g.nodes.length - 1) 0
                (RState.mk (initDistances g start) (initPrevious g) false)).2.distances
              (bfRounds g (g.nodes.length - 1) 0
                (RState.mk (initDistances g start) (initPrevious g) false)).2.previous)
            "Distance Vector Protocol Converged (Simulated)." [] []]) := by
  unfold distanceVector
  simp [hfound, (dvRounds_eq g (g.nodes.length - 1) 0 _).1]

/-! ## The map invariant along a `dijkstra` run -/

theorem neighbors_mem (g : Graph) (u : NodeId) (adj : Adj)
    (h : adj ∈ (Obj.get (getAdjacencyList g) u).getD []) :
    ∃ e ∈ g.edges, NodeId.num e.from_ = u.key ∧ e.to_ = adj.to_ ∧ e.weight = adj.weight := by
  unfold Obj.get at h
  rw [getAdjacencyList_getKey] at h
  by_cases hk : u.key ∈ g.nodes.map NodeId.num
  · simp only [hk, if_true, Option.getD_some, List.mem_map, List.mem_filter,
      decide_eq_true_eq] at h
    obtain ⟨e, ⟨he, hfrom⟩, hadj⟩ := h
    subst hadj
    exact ⟨e, he, hfrom, rfl, rfl⟩
  · simp [hk] at h

theorem get_of_key_eq {α : Type} (o : Obj α) {u : NodeId} {a : Int}
    (h : NodeId.num a = u.key) : Obj.get o u = Obj.get o (.num a) := by
  unfold Obj.get
  rw [← h]
  rfl

theorem relaxEdge_spec {g : Graph} {s : Int} (u : NodeId) (st : DState) (adj : Adj)
    (hadj : ∃ e ∈ g.edges, NodeId.num e.from_ = u.key ∧ e.to_ = adj.to_ ∧
      e.weight = adj.weight)
    (h : MapsOk g s st.distances st.previous) :
    MapsOk g s (relaxEdge u st adj).2.distances (relaxEdge u st adj).2.previous ∧
    TraceMono g st.distances (relaxEdge u st adj).1 (relaxEdge u st adj).2.distances ∧
    (∀ a ∈ (relaxEdge u st adj).1, a.type = .check ∨ a.type = .update) := by
  obtain ⟨e, he, hfrom, hto, hw⟩ := hadj
  rcases relaxEdge_cases u st adj with
    ⟨h2, _, c, hc, hcty, hcdata⟩ | ⟨x, hx, hlt, h2, c, up, hc, hcty, hcdata, hupty, hupdata⟩
  · rw [h2, hc]
    refine ⟨h, TraceMono.single h.defined (carries_of_data hcdata), ?_⟩
    intro a ha
    simp only [List.mem_singleton] at ha
    subst ha
    exact Or.inl hcty
  · rw [h2, hc]
    rw [get_of_key_eq st.distances hfrom] at hx
    rw [← hto, ← hw] at hlt hupdata ⊢
    refine ⟨MapsOk.relax h e he x hx _ hlt u, ?_, ?_⟩
    · have h3 : TraceMono g st.distances [c] st.distances :=
        TraceMono.single h.defined (carries_of_data hcdata)
      have h4 := TraceMono.update (a := up) h.defined e.to_ (roundDouble (x + e.weight)) hlt
        (carries_of_data hupdata)
      exact TraceMono.append h3 h4
    · intro a ha
      simp only [List.mem_cons, List.mem_singleton, List.not_mem_nil, or_false] at ha
      rcases ha with ha | ha
      · subst ha; exact Or.inl hcty
      · subst ha; exact Or.inr hupty

theorem relaxEdges_spec {g : Graph} {s : Int} (u : NodeId) (adjs : List Adj)
    (hadjs : ∀ adj ∈ adjs, ∃ e ∈ g.edges, NodeId.num e.from_ = u.key ∧ e.to_ = adj.to_ ∧
      e.weight = adj.weight)
    (st : DState) (h : MapsOk g s st.distances st.previous) :
    MapsOk g s (relaxEdges u adjs st).2.distances (relaxEdges u adjs st).2.previous ∧
    TraceMono g st.distances (relaxEdges u adjs st).1 (relaxEdges u adjs st).2.distances ∧
    (∀ a ∈ (relaxEdges u adjs st).1, a.type = .check ∨ a.type = .update) := by
  induction adjs generalizing st with
  | nil => exact ⟨h, TraceMono.nil h.defined, by simp [relaxEdges]⟩
  | cons adj rest ih =>
    simp only [relaxEdges]
    obtain ⟨h1, h2, h3⟩ := relaxEdge_spec u st adj (hadjs adj (List.mem_cons_self _ _)) h
    obtain ⟨h4, h5, h6⟩ := ih (fun a ha => hadjs a (List.mem_cons_of_mem _ ha)) _ h1
    refine ⟨h4, TraceMono.append h2 h5, ?_⟩
    intro a ha
    rcases List.mem_append.mp ha with ha | ha
    · exact h3 a ha
    · exact h6 a ha

theorem loopRun_spec {g : Graph} {s : Int} {st : DState} {steps : List Step} {st2 : DState}
    (hrun : LoopRun (getAdjacencyList g) st steps st2)
    (h : MapsOk g s st.distances st.previous) :
    MapsOk g s st2.distances st2.previous ∧ TraceMono g st.distances steps st2.distances ∧
    (∀ a ∈ steps, a.type = .visit ∨ a.type = .check ∨ a.type = .update) := by
  induction hrun with
  | done st _ => exact ⟨h, TraceMono.nil h.defined, by simp⟩
  | stale st item rest steps st2 _ _ _ ih => exact ih h
  | seen st item rest steps st2 _ _ _ _ ih => exact ih h
  | visit st item rest more st2 _ _ _ _ ih =>
    obtain ⟨h1, h2, h3⟩ := relaxEdges_spec (g := g) (s := s) item.id
      ((Obj.get (getAdjacencyList g) item.id).getD [])
      (fun adj hadj => neighbors_mem g item.id adj hadj)
      (DState.mk st.distances st.previous rest (st.visited ++ [item.id])) h
    obtain ⟨h4, h5, h6⟩ := ih h1
    refine ⟨h4, ?_, ?_⟩
    · exact TraceMono.cons h.defined (carries_dataD _ _ _ _ _) (TraceMono.append h2 h5)
    · intro a ha
      rcases List.mem_cons.mp ha with ha | ha
      · subst ha; exact Or.inl rfl
      · rcases List.mem_append.mp ha with ha | ha
        · exact Or.inr (h3 a ha)
        · exact h6 a ha

theorem dijkstra_valid (g : Graph) (start : NodeId) (s : Int) (hkey : start.key = .num s)
    (hs : s ∈ g.nodes) (fuel : Nat) (hf : 2 * g.edges.length + 2 ≤ fuel) :
    ∃ steps st,
      LoopRun (getAdjacencyList g)
        (DState.mk (initDistances g start) (initPrevious g) [QItem.mk start 0] []) steps st ∧
      dijkstra fuel g start =
        some (createStep .init (dataD (initDistances g start))
            ("Initialized distances. Start node: " ++ start.toStr) [start] [] ::
          (steps ++ [createStep .finished (dataDP st.distances st.previous)
            "Dijkstra completed." [] []])) ∧
      MapsOk g s st.distances st.previous ∧
      TraceMono g (initDistances g start) steps st.distances ∧
      (∀ a ∈ steps, a.type = .visit ∨ a.type = .check ∨ a.type = .update) := by
  obtain ⟨steps, st, hrun, hd⟩ := dijkstra_found g start fuel (startFound_of_key hkey hs) hf
  obtain ⟨h1, h2, h3⟩ := loopRun_spec (s := s) hrun (MapsOk.init g start s hkey hs)
  exact ⟨steps, st, hrun, hd, h1, h2, h3⟩

/-! ## Simple paths -/

theorem sPath_walk {g : Graph} {s v c : Int} {vs : List Int} (h : SPath g s v c vs) :
    Walk g s v c := by
  induction h with
  | nil => exact Walk.nil s
  | snoc e _ he hf _ ih => exact Walk.snoc e ih he hf

theorem sPath_nodes {g : Graph} {s v c : Int} {vs : List Int} (hwf : WellFormed g)
    (hs : s ∈ g.nodes) (h : SPath g s v c vs) :
    vs.Nodup ∧ (∀ x ∈ vs, x ∈ g.nodes) ∧ v ∈ vs := by
  induction h with
  | nil => exact ⟨List.nodup_singleton s, by simpa using hs, List.mem_singleton.mpr rfl⟩
  | snoc e _ he _ hn ih =>
    obtain ⟨h1, h2, _⟩ := ih
    refine ⟨List.nodup_cons.mpr ⟨hn, h1⟩, ?_, List.mem_cons_self _ _⟩
    intro x hx
    rcases List.mem_cons.mp hx with hx | hx
    · rw [hx]; exact (hwf e he).2
    · exact h2 x hx

theorem sPath_length_le {g : Graph} {s v c : Int} {vs : List Int} (hwf : WellFormed g)
    (hs : s ∈ g.nodes) (h : SPath g s v c vs) : vs.length ≤ g.nodes.length := by
  obtain ⟨h1, h2, _⟩ := sPath_nodes hwf hs h
  exact (List.subperm_of_subset h1 h2).length_le

/-- A simple path can be cut at any node on it. -/
theorem sPath_prefix {g : Graph} {s u c : Int} {vs : List Int} (h : SPath g s u c vs)
    (x : Int) (hx : x ∈ vs) :
    ∃ c1 c2 vs1, SPath g s x c1 vs1 ∧ Walk g x u c2 ∧ c = c1 + c2 := by
  induction h with
  | nil =>
    simp only [List.mem_singleton] at hx
    subst hx
    exact ⟨0, 0, _, SPath.nil, Walk.nil _, by omega⟩
  | @snoc u c vs e hp he hf hn ih =>
    rcases List.mem_cons.mp hx with hx | hx
    · subst hx
      exact ⟨_, 0, _, SPath.snoc e hp he hf hn, Walk.nil _, by omega⟩
    · obtain ⟨c1, c2, vs1, h1, h2, h3⟩ := ih hx
      exact ⟨c1, c2 + e.weight, vs1, h1, Walk.snoc e h2 he hf, by omega⟩

/-- Without a reachable negative cycle every walk from the start can be
replaced by a simple path that is not heavier. -/
theorem walk_to_sPath {g : Graph} {s : Int} (hno : ¬ ReachableNegCycle g s) {v c : Int}
    (hw : Walk g s v c) : ∃ c2 vs, SPath g s v c2 vs ∧ c2 ≤ c := by
  induction hw with
  | nil => exact ⟨0, _, SPath.nil, le_refl 0⟩
  | @snoc u c e _ he hf ih =>
    obtain ⟨c0, vs, hp, hle⟩ := ih
    by_cases hmem : e.to_ ∈ vs
    · obtain ⟨c1, c2, vs1, h1, h2, h3⟩ := sPath_prefix hp e.to_ hmem
      have hcyc : Walk g e.to_ e.to_ (c2 + e.weight) := Walk.snoc e h2 he hf
      have hpos : 0 ≤ c2 + e.weight := by
        by_contra hneg
        exact hno ⟨e.to_, c1, c2 + e.weight, sPath_walk h1, hcyc, by omega⟩
      exact ⟨c1, vs1, h1, by omega⟩
    · exact ⟨c0 + e.weight, _, SPath.snoc e hp he hf hmem, by omega⟩

theorem sPath_end_mem {g : Graph} {s v c : Int} {vs : List Int} (h : SPath g s v c vs) :
    v ∈ vs := by
  cases h with
  | nil => exact List.mem_singleton.mpr rfl
  | snoc e _ _ _ _ => exact List.mem_cons_self _ _

/-! ## Weight of a simple path -/

theorem absWeight_filter_le (es : List Edge) (p : Edge → Bool) :
    absWeight (es.filter p) ≤ absWeight es := by
  induction es with
  | nil => simp
  | cons e rest ih =>
    cases hp : p e
    · rw [List.filter_cons_of_neg (by simp [hp]), absWeight_cons]
      omega
    · rw [List.filter_cons_of_pos hp, absWeight_cons, absWeight_cons]
      omega

theorem absWeight_filter_split (es : List Edge) (a : Int) (vs : List Int) (ha : a ∉ vs) :
    absWeight (es.filter (fun e => decide (e.from_ ∈ a :: vs))) =
      absWeight (es.filter (fun e => decide (e.from_ = a))) +
        absWeight (es.filter (fun e => decide (e.from_ ∈ vs))) := by
  induction es with
  | nil => simp [absWeight]
  | cons e rest ih =>
    by_cases h1 : e.from_ = a
    · have h2 : e.from_ ∉ vs := by rw [h1]; exact ha
      rw [List.filter_cons_of_pos (by simp [h1]), List.filter_cons_of_pos (by simp [h1]),
        List.filter_cons_of_neg (by simp [h2]), absWeight_cons, absWeight_cons, ih]
      omega
    · by_cases h2 : e.from_ ∈ vs
      · rw [List.filter_cons_of_pos (by simp [h2]), List.filter_cons_of_neg (by simp [h1]),
          List.filter_cons_of_pos (by simp [h2]), absWeight_cons, absWeight_cons, ih]
        omega
      · rw [List.filter_cons_of_neg (by simp [h1, h2]), List.filter_cons_of_neg (by simp [h1]),
          List.filter_cons_of_neg (by simp [h2]), ih]

/-- The weight of a simple path and the weights of the edges leaving its last
node add up to at most the weights of the edges leaving its nodes: the path
uses one edge out of each node before the last. -/
theorem sPath_weight {g : Graph} {s v c : Int} {vs : List Int} (h : SPath g s v c vs) :
    c.natAbs + absWeight (g.edges.filter (fun e => decide (e.from_ = v))) ≤
      absWeight (g.edges.filter (fun e => decide (e.from_ ∈ vs))) := by
  induction h with
  | nil =>
    have : g.edges.filter (fun e => decide (e.from_ ∈ [s])) =
        g.edges.filter (fun e => decide (e.from_ = s)) := by
      apply List.filter_congr
      intro e _
      simp
    rw [this]
    simp
  | @snoc u c vs e _ he hf hn ih =>
    rw [absWeight_filter_split g.edges e.to_ vs hn]
    have hmem : e ∈ g.edges.filter (fun e2 => decide (e2.from_ = u)) :=
      List.mem_filter.mpr ⟨he, by simp [hf]⟩
    have := absWeight_mem hmem
    omega

/-- A simple path followed by an edge out of its last node weighs at most the
total weight of the graph, in absolute values. -/
theorem sPath_edge_le {g : Graph} {s v c : Int} {vs : List Int} (h : SPath g s v c vs)
    {e : Edge} (he : e ∈ g.edges) (hf : e.from_ = v) :
    c.natAbs + e.weight.natAbs ≤ totalWeight g := by
  have h1 := sPath_weight h
  have hmem : e ∈ g.edges.filter (fun e2 => decide (e2.from_ = v)) :=
    List.mem_filter.mpr ⟨he, by simp [hf]⟩
  have h2 := absWeight_mem hmem
  have h3 := absWeight_filter_le g.edges (fun e => decide (e.from_ ∈ vs))
  unfold totalWeight
  omega

/-! ## Correctness of `dijkstra` for non-negative weights -/

theorem walk_nonneg {g : Graph} (hnn : ∀ e ∈ g.edges, 0 ≤ e.weight) {a b c : Int}
    (hw : Walk g a b c) : 0 ≤ c := by
  induction hw with
  | nil => exact le_refl 0
  | snoc e _ he _ ih =>
    have := hnn e he
    omega

theorem no_negative_cycle_of_nonneg {g : Graph} (hnn : ∀ e ∈ g.edges, 0 ≤ e.weight)
    (s : Int) : ¬ ReachableNegCycle g s := by
  rintro ⟨v, a, c, _, hc, hneg⟩
  have := walk_nonneg hnn hc
  omega

/-- With non-negative weights of total at most 2^53, the sum of a final
distance and the weight of an edge leaving the node is not rounded: the
distance is the weight of a simple path, which the edge prolongs. -/
theorem nn_sum_exact {g : Graph} {s a x : Int} (hnn : ∀ e ∈ g.edges, 0 ≤ e.weight)
    (hsum : totalWeight g ≤ 2 ^ 53) (hw : Walk g s a x) (hopt : ∀ c, Walk g s a c → x ≤ c)
    {e : Edge} (he : e ∈ g.edges) (hf : e.from_ = a) :
    roundDouble (x + e.weight) = x + e.weight := by
  obtain ⟨c2, vs, hp, hle⟩ := walk_to_sPath (no_negative_cycle_of_nonneg hnn s) hw
  have h1 := hopt c2 (sPath_walk hp)
  have h2 : c2 = x := by omega
  subst h2
  have := sPath_edge_le hp he hf
  exact jsAdd_exact _ _ (by omega)

theorem sort_cons_min {pq : List QItem} {item : QItem} {rest : List QItem}
    (h : List.insertionSort (fun a b => a.dist ≤ b.dist) pq = item :: rest) (x : QItem)
    (hx : x ∈ pq) : item.dist ≤ x.dist := by
  haveI : IsTotal QItem (fun a b => a.dist ≤ b.dist) := ⟨fun a b => le_total a.dist b.dist⟩
  haveI : IsTrans QItem (fun a b => a.dist ≤ b.dist) :=
    ⟨fun a b c hab hbc => le_trans hab hbc⟩
  have hs := List.sorted_insertionSort (fun a b : QItem => a.dist ≤ b.dist) pq
  rw [h] at hs
  rcases (sort_cons_mem h x).mp hx with hx | hx
  · rw [hx]
  · exact List.rel_of_sorted_cons hs x hx

theorem NNCore.mono {g : Graph} {s : Int} {st : DState} {C1 C2 : Edge → Prop}
    (h : NNCore g s st C1) (hC : ∀ e ∈ g.edges, C2 e → C1 e) : NNCore g s st C2 :=
  ⟨h.maps, h.exact, h.optimal, fun e he hc => h.scanned e he (hC e he hc), h.queued, h.pqle⟩

theorem nn_init (g : Graph) (start : NodeId) (s : Int) (hkey : start.key = .num s)
    (hs : s ∈ g.nodes) :
    NNCore g s (DState.mk (initDistances g start) (initPrevious g) [QItem.mk start 0] [])
      (fun e => VisitedKey
        (DState.mk (initDistances g start) (initPrevious g) [QItem.mk start 0] []) e.from_) := by
  have hnv : ∀ n, ¬ VisitedKey
      (DState.mk (initDistances g start) (initPrevious g) [QItem.mk start 0] []) n := by
    intro n hv
    obtain ⟨u, hu, _⟩ := hv
    simp at hu
  constructor
  · exact MapsOk.init g start s hkey hs
  · exact exact_init g start s hkey
  · intro n hv
    exact absurd hv (hnv n)
  · intro e _ hv
    exact absurd hv (hnv _)
  · intro n x hx _
    simp only at hx
    rw [initDistances_get g start s n hkey] at hx
    by_cases hns : n = s
    · subst hns
      simp only [if_true, Option.some.injEq, Dist.fin.injEq] at hx
      exact ⟨QItem.mk start 0, by simp, hkey, hx⟩
    · by_cases hn : n ∈ g.nodes <;> simp [hns, hn] at hx
  · intro item hi
    simp only [List.mem_singleton] at hi
    subst hi
    exact ⟨s, 0, hkey, by simp only; rw [initDistances_get g start s s hkey]; simp, le_refl 0⟩

/-- Every walk from the start either ends in a visited node or passes an
unvisited node whose finite distance is at most the weight of the walk. -/
theorem nn_frontier {g : Graph} {s : Int} {st : DState}
    (hnn : ∀ e ∈ g.edges, 0 ≤ e.weight)
    (h : NNCore g s st (fun e => VisitedKey st e.from_)) {v c : Int} (hw : Walk g s v c) :
    VisitedKey st v ∨
      ∃ y x, ¬ VisitedKey st y ∧ Obj.get st.distances (.num y) = some (.fin x) ∧ x ≤ c := by
  induction hw with
  | nil =>
    by_cases hv : VisitedKey st s
    · exact Or.inl hv
    · obtain ⟨x0, hx0, hle⟩ := h.maps.start
      exact Or.inr ⟨s, x0, hv, hx0, hle⟩
  | @snoc b c e hwb he hfrom ih =>
    have hw := hnn e he
    rcases ih with hvb | ⟨y, x, hy, hx, hle⟩
    · subst hfrom
      obtain ⟨_, xb, yv, hxb, hyv, hle⟩ := h.scanned e he hvb
      obtain ⟨xb2, hxb2, hopt⟩ := h.optimal e.from_ hvb
      rw [hxb] at hxb2
      simp only [Option.some.injEq, Dist.fin.injEq] at hxb2
      subst hxb2
      have := hopt c hwb
      by_cases hv : VisitedKey st e.to_
      · exact Or.inl hv
      · exact Or.inr ⟨e.to_, yv, hv, hyv, by omega⟩
    · exact Or.inr ⟨y, x, hy, hx, by omega⟩

theorem nn_relaxEdge {g : Graph} {s : Int} (hwf : WellFormed g)
    (hnn : ∀ e ∈ g.edges, 0 ≤ e.weight) (hsum : totalWeight g ≤ 2 ^ 53) (u : NodeId) (a : Int)
    (st : DState)
    (C : Edge → Prop) (adj : Adj) (h : NNCore g s st C) (hu : u ∈ st.visited)
    (hkey : u.key = .num a)
    (hadj : ∃ e ∈ g.edges, e.from_ = a ∧ e.to_ = adj.to_ ∧ e.weight = adj.weight) :
    NNCore g s (relaxEdge u st adj).2
      (fun e => C e ∨ (e.from_ = a ∧ e.to_ = adj.to_ ∧ e.weight = adj.weight)) := by
  obtain ⟨e, he, hfrom, hto, hw⟩ := hadj
  have hva : VisitedKey st a := ⟨u, hu, hkey⟩
  obtain ⟨xa, hxa, hopta⟩ := h.optimal a hva
  have hgu : Obj.get st.distances u = some (.fin xa) := by
    rw [get_of_key_eq st.distances hkey.symm]; exact hxa
  have hexact : roundDouble (xa + e.weight) = xa + e.weight :=
    nn_sum_exact hnn hsum (h.exact a xa hxa) hopta he hfrom
  rcases relaxEdge_cases u st adj with ⟨h2, hno, _⟩ | ⟨x, hx, hlt, h2, _⟩
  · -- no relaxation
    rw [h2]
    refine ⟨h.maps, h.exact, h.optimal, ?_, h.queued, h.pqle⟩
    intro e2 he2 hc
    rcases hc with hc | ⟨hf2, ht2, hw2⟩
    · exact h.scanned e2 he2 hc
    · refine ⟨by rw [hf2]; exact hva, ?_⟩
      have hlt := hno xa hgu
      rw [← hw, hexact] at hlt
      obtain ⟨d, hd⟩ := h.maps.defined e2.to_ (hwf e2 he2).2
      rw [← ht2, hd] at hlt
      obtain ⟨t, ht, hle⟩ := jsLt_fin_false hlt
      subst ht
      exact ⟨xa, t, by rw [hf2]; exact hxa, hd, by rw [hw2, ← hw]; exact hle⟩
  · -- relaxation of the target
    rw [hgu] at hx
    simp only [Option.some.injEq, Dist.fin.injEq] at hx
    subst hx
    rw [← hto, ← hw, hexact] at hlt h2
    have hwalk : Walk g s e.to_ (xa + e.weight) :=
      Walk.snoc e (h.exact a xa hxa) he hfrom
    have hwpos := hnn e he
    -- a visited node is never the target of a relaxation
    have hF : ∀ n, VisitedKey st n → n ≠ e.to_ := by
      intro n hvn hn
      subst hn
      obtain ⟨xn, hxn, hoptn⟩ := h.optimal _ hvn
      have h1 := hoptn _ hwalk
      rw [hxn] at hlt
      rcases jsLt_fin_true hlt with h3 | ⟨t, h3, h4⟩
      · simp at h3
      · simp only [Option.some.injEq, Dist.fin.injEq] at h3
        omega
    have hget : ∀ n, n ≠ e.to_ →
        Obj.get (Obj.set st.distances (.num e.to_) (.fin (xa + e.weight))) (.num n) =
          Obj.get st.distances (.num n) := by
      intro n hn
      rw [Obj.get_set_num]
      simp [hn]
    have hgetb : Obj.get (Obj.set st.distances (.num e.to_) (.fin (xa + e.weight)))
        (.num e.to_) = some (.fin (xa + e.weight)) := by
      rw [Obj.get_set_num]
      simp
    have hold : ∀ t, Obj.get st.distances (.num e.to_) = some (.fin t) →
        xa + e.weight < t := by
      intro t ht
      rw [ht] at hlt
      rcases jsLt_fin_true hlt with h3 | ⟨t2, h3, h4⟩
      · simp at h3
      · simp only [Option.some.injEq, Dist.fin.injEq] at h3
        omega
    rw [h2]
    constructor
    · exact MapsOk.relax h.maps e he xa (by rw [hfrom]; exact hxa) _ hlt u
    · exact exact_relax h.exact e he xa (by rw [hfrom]; exact hxa)
    · intro n hvn
      have hvn2 : VisitedKey st n := hvn
      obtain ⟨xn, hxn, hoptn⟩ := h.optimal n hvn2
      exact ⟨xn, by simp only; rw [hget n (hF n hvn2)]; exact hxn, hoptn⟩
    · intro e2 he2 hc
      rcases hc with hc | ⟨hf2, ht2, hw2⟩
      · obtain ⟨hv2, x2, y2, hx2, hy2, hle2⟩ := h.scanned e2 he2 hc
        refine ⟨hv2, ?_⟩
        by_cases ht : e2.to_ = e.to_
        · refine ⟨x2, xa + e.weight, ?_, ?_, ?_⟩
          · simp only; rw [hget _ (hF _ hv2)]; exact hx2
          · simp only; rw [ht]; exact hgetb
          · rw [ht] at hy2
            have := hold y2 hy2
            omega
        · refine ⟨x2, y2, ?_, ?_, hle2⟩
          · simp only; rw [hget _ (hF _ hv2)]; exact hx2
          · simp only; rw [hget _ ht]; exact hy2
      · have ht3 : e2.to_ = e.to_ := ht2.trans hto.symm
        refine ⟨by rw [hf2]; exact hva, xa, xa + e.weight, ?_, ?_, ?_⟩
        · simp only; rw [hf2, hget _ (hF _ hva)]; exact hxa
        · simp only; rw [ht3]; exact hgetb
        · rw [hw2, ← hw]
    · intro n xn hxn hnv
      simp only at hxn
      by_cases hn : n = e.to_
      · subst hn
        rw [hgetb] at hxn
        simp only [Option.some.injEq, Dist.fin.injEq] at hxn
        exact ⟨QItem.mk (.num e.to_) (xa + e.weight), by simp, rfl, hxn⟩
      · rw [hget n hn] at hxn
        obtain ⟨item, hi, hk, hd⟩ := h.queued n xn hxn hnv
        exact ⟨item, List.mem_append_left _ hi, hk, hd⟩
    · intro item hi
      simp only at hi
      rcases List.mem_append.mp hi with hi | hi
      · obtain ⟨n, xn, hk, hxn, hle⟩ := h.pqle item hi
        by_cases hn : n = e.to_
        · subst hn
          have := hold xn hxn
          exact ⟨_, xa + e.weight, hk, hgetb, by omega⟩
        · exact ⟨n, xn, hk, by simp only; rw [hget n hn]; exact hxn, hle⟩
      · simp only [List.mem_singleton] at hi
        subst hi
        exact ⟨e.to_, xa + e.weight, rfl, hgetb, le_refl _⟩

theorem nn_relaxEdges {g : Graph} {s : Int} (hwf : WellFormed g)
    (hnn : ∀ e ∈ g.edges, 0 ≤ e.weight) (hsum : totalWeight g ≤ 2 ^ 53) (u : NodeId) (a : Int)
    (adjs : List Adj)
    (hadjs : ∀ adj ∈ adjs, ∃ e ∈ g.edges, e.from_ = a ∧ e.to_ = adj.to_ ∧
      e.weight = adj.weight)
    (hkey : u.key = .num a) (st : DState) (C : Edge → Prop) (h : NNCore g s st C)
    (hu : u ∈ st.visited) :
    NNCore g s (relaxEdges u adjs st).2
      (fun e => C e ∨ (e.from_ = a ∧ ∃ adj ∈ adjs, e.to_ = adj.to_ ∧ e.weight = adj.weight)) := by
  induction adjs generalizing st C with
  | nil =>
    simp only [relaxEdges]
    exact h.mono (fun e _ hc => by
      rcases hc with hc | ⟨_, adj, hadj, _⟩
      · exact hc
      · simp at hadj)
  | cons adj rest ih =>
    simp only [relaxEdges]
    have h1 := nn_relaxEdge hwf hnn hsum u a st C adj h hu hkey
      (hadjs adj (List.mem_cons_self _ _))
    have hu1 : u ∈ (relaxEdge u st adj).2.visited := by
      rw [relaxEdge_visited]; exact hu
    have h2 := ih (fun a2 ha2 => hadjs a2 (List.mem_cons_of_mem _ ha2)) _ _ h1 hu1
    refine h2.mono ?_
    intro e _ hc
    rcases hc with hc | ⟨hf, adj2, hadj2, ht, hw⟩
    · exact Or.inl (Or.inl hc)
    · rcases List.mem_cons.mp hadj2 with hadj2 | hadj2
      · subst hadj2
        exact Or.inl (Or.inr ⟨hf, ht, hw⟩)
      · exact Or.inr ⟨hf, adj2, hadj2, ht, hw⟩

theorem visitedKey_append (st : DState) (u : NodeId) (rest : List QItem) (n : Int) :
    VisitedKey (DState.mk st.distances st.previous rest (st.visited ++ [u])) n ↔
      VisitedKey st n ∨ u.key = NodeId.num n := by
  unfold VisitedKey
  constructor
  · rintro ⟨w, hw, hk⟩
    rcases List.mem_append.mp hw with hw | hw
    · exact Or.inl ⟨w, hw, hk⟩
    · simp only [List.mem_singleton] at hw
      subst hw
      exact Or.inr hk
  · rintro (⟨w, hw, hk⟩ | hk)
    · exact ⟨w, List.mem_append_left _ hw, hk⟩
    · exact ⟨u, List.mem_append_right _ (List.mem_singleton.mpr rfl), hk⟩

theorem nn_skip {g : Graph} {s : Int} {st : DState} {item : QItem} {rest : List QItem}
    (h : NNCore g s st (fun e => VisitedKey st e.from_))
    (hs : List.insertionSort (fun a b => a.dist ≤ b.dist) st.pq = item :: rest)
    (hskip : jsLt (Obj.get st.distances item.id) (some (.fin item.dist)) = true ∨
      item.id ∈ st.visited) :
    NNCore g s (DState.mk st.distances st.previous rest st.visited)
      (fun e => VisitedKey (DState.mk st.distances st.previous rest st.visited) e.from_) := by
  have hmem := sort_cons_mem hs
  refine ⟨h.maps, h.exact, h.optimal, h.scanned, ?_, ?_⟩
  · intro n x hx hnv
    obtain ⟨it, hi, hk, hd⟩ := h.queued n x hx hnv
    rcases (hmem it).mp hi with hi | hi
    · subst hi
      rcases hskip with hst | hseen
      · rw [get_of_key_eq st.distances hk.symm] at hst
        simp only at hx
        rw [hx, hd] at hst
        simp [jsLt] at hst
      · exact absurd ⟨it.id, hseen, hk⟩ hnv
    · exact ⟨it, hi, hk, hd⟩
  · intro it hi
    exact h.pqle it ((hmem it).mpr (Or.inr hi))

theorem nn_visit {g : Graph} {s : Int} (hwf : WellFormed g)
    (hnn : ∀ e ∈ g.edges, 0 ≤ e.weight) (hsum : totalWeight g ≤ 2 ^ 53) {st : DState}
    {item : QItem} {rest : List QItem}
    (h : NNCore g s st (fun e => VisitedKey st e.from_))
    (hs : List.insertionSort (fun a b => a.dist ≤ b.dist) st.pq = item :: rest)
    (hfresh : jsLt (Obj.get st.distances item.id) (some (.fin item.dist)) = false) :
    NNCore g s
      (relaxEdges item.id ((Obj.get (getAdjacencyList g) item.id).getD [])
        (DState.mk st.distances st.previous rest (st.visited ++ [item.id]))).2
      (fun e => VisitedKey
        (relaxEdges item.id ((Obj.get (getAdjacencyList g) item.id).getD [])
          (DState.mk st.distances st.previous rest (st.visited ++ [item.id]))).2 e.from_) := by
  have hmem := sort_cons_mem hs
  have hitem : item ∈ st.pq := (hmem item).mpr (Or.inl rfl)
  obtain ⟨a, x, hkey, hx, hle⟩ := h.pqle item hitem
  -- the popped distance is the distance of the node
  have hxd : item.dist ≤ x := by
    rw [get_of_key_eq st.distances hkey.symm, hx] at hfresh
    have : ¬ x < item.dist := by simpa [jsLt] using hfresh
    omega
  -- the node has its final distance
  have hopt : Optimal g s st.distances a := by
    refine ⟨x, hx, ?_⟩
    intro c hc
    rcases nn_frontier hnn h hc with hv | ⟨y, xy, hy, hxy, hlec⟩
    · obtain ⟨x2, hx2, hopt2⟩ := h.optimal a hv
      rw [hx] at hx2
      simp only [Option.some.injEq, Dist.fin.injEq] at hx2
      subst hx2
      exact hopt2 c hc
    · obtain ⟨it, hi, _, hd⟩ := h.queued y xy hxy hy
      have := sort_cons_min hs it hi
      omega
  -- the state in which the neighbours are scanned
  have h0 : NNCore g s (DState.mk st.distances st.previous rest (st.visited ++ [item.id]))
      (fun e => VisitedKey st e.from_) := by
    refine ⟨h.maps, h.exact, ?_, ?_, ?_, ?_⟩
    · intro n hv
      rcases (visitedKey_append st item.id rest n).mp hv with hv | hv
      · exact h.optimal n hv
      · rw [hkey] at hv
        simp only [NodeId.num.injEq] at hv
        subst hv
        exact hopt
    · intro e he hc
      obtain ⟨hv, hok⟩ := h.scanned e he hc
      exact ⟨(visitedKey_append st item.id rest _).mpr (Or.inl hv), hok⟩
    · intro n xn hxn hnv
      have hnv2 : ¬ VisitedKey st n :=
        fun hv => hnv ((visitedKey_append st item.id rest n).mpr (Or.inl hv))
      obtain ⟨it, hi, hk, hd⟩ := h.queued n xn hxn hnv2
      rcases (hmem it).mp hi with hi | hi
      · subst hi
        exact absurd ((visitedKey_append st it.id rest n).mpr (Or.inr hk)) hnv
      · exact ⟨it, hi, hk, hd⟩
    · intro it hi
      exact h.pqle it ((hmem it).mpr (Or.inr hi))
  have hadjs : ∀ adj ∈ (Obj.get (getAdjacencyList g) item.id).getD [],
      ∃ e ∈ g.edges, e.from_ = a ∧ e.to_ = adj.to_ ∧ e.weight = adj.weight := by
    intro adj hadj
    obtain ⟨e, he, hf, ht, hw⟩ := neighbors_mem g item.id adj hadj
    rw [hkey] at hf
    simp only [NodeId.num.injEq] at hf
    exact ⟨e, he, hf, ht, hw⟩
  have h1 := nn_relaxEdges hwf hnn hsum item.id a _ hadjs hkey _ _ h0
    (List.mem_append_right _ (List.mem_singleton.mpr rfl))
  refine h1.mono ?_
  intro e he hv
  have hv2 : VisitedKey (DState.mk st.distances st.previous rest (st.visited ++ [item.id]))
      e.from_ := by
    obtain ⟨w, hw, hk⟩ := hv
    rw [relaxEdges_visited] at hw
    exact ⟨w, hw, hk⟩
  rcases (visitedKey_append st item.id rest e.from_).mp hv2 with hv3 | hv3
  · exact Or.inl hv3
  · rw [hkey] at hv3
    simp only [NodeId.num.injEq] at hv3
    have ha : a ∈ g.nodes := by rw [hv3]; exact (hwf e he).1
    refine Or.inr ⟨hv3.symm, Adj.mk e.to_ e.weight, ?_, rfl, rfl⟩
    rw [neighbors_of_node g item.id a hkey ha]
    exact List.mem_map.mpr ⟨e, List.mem_filter.mpr ⟨he, by simp [hv3]⟩, rfl⟩

theorem loopRun_nn {g : Graph} {s : Int} (hwf : WellFormed g)
    (hnn : ∀ e ∈ g.edges, 0 ≤ e.weight) (hsum : totalWeight g ≤ 2 ^ 53) {st : DState}
    {steps : List Step} {st2 : DState}
    (hrun : LoopRun (getAdjacencyList g) st steps st2)
    (h : NNCore g s st (fun e => VisitedKey st e.from_)) :
    NNCore g s st2 (fun e => VisitedKey st2 e.from_) ∧ st2.pq = [] := by
  induction hrun with
  | done st hs =>
    refine ⟨h, ?_⟩
    have := (sort_perm st.pq).length_eq
    rw [hs] at this
    exact List.length_eq_zero.mp this.symm
  | stale st item rest steps st2 hs hst _ ih => exact ih (nn_skip h hs (Or.inl hst))
  | seen st item rest steps st2 hs _ hseen _ ih => exact ih (nn_skip h hs (Or.inr hseen))
  | visit st item rest more st2 hs hfresh _ _ ih =>
    exact ih (nn_visit hwf hnn hsum h hs hfresh)

/-- At the end of the loop every node carries its true shortest-path cost. -/
theorem nn_final {g : Graph} {s : Int} (hnn : ∀ e ∈ g.edges, 0 ≤ e.weight) {st : DState}
    (h : NNCore g s st (fun e => VisitedKey st e.from_)) (hpq : st.pq = []) :
    (∀ v ∈ g.nodes, ∃ d, Obj.get st.distances (.num v) = some d ∧ ShortestCost g s v d) ∧
    Obj.get st.distances (.num s) = some (.fin 0) := by
  have hvis : ∀ n x, Obj.get st.distances (.num n) = some (.fin x) → VisitedKey st n := by
    intro n x hx
    by_contra hnv
    obtain ⟨it, hi, _⟩ := h.queued n x hx hnv
    rw [hpq] at hi
    simp at hi
  constructor
  · intro v hv
    obtain ⟨d, hd⟩ := h.maps.defined v hv
    refine ⟨d, hd, ?_⟩
    cases d with
    | infinity =>
      intro hr
      obtain ⟨c, hc⟩ := hr
      rcases nn_frontier hnn h hc with hvv | ⟨y, x, hy, hx, _⟩
      · obtain ⟨x, hx, _⟩ := h.optimal v hvv
        rw [hd] at hx
        simp at hx
      · exact hy (hvis y x hx)
    | fin x =>
      obtain ⟨x2, hx2, hopt⟩ := h.optimal v (hvis v x hd)
      rw [hd] at hx2
      simp only [Option.some.injEq, Dist.fin.injEq] at hx2
      subst hx2
      exact ⟨h.exact v x hd, hopt⟩
  · obtain ⟨x0, hx0, hle⟩ := h.maps.start
    have := walk_nonneg hnn (h.exact s x0 hx0)
    have hx : x0 = 0 := by omega
    rw [hx0, hx]


/-! ## Step counts of `dijkstra` -/

theorem visitsOf_cons (u : NodeId) (a : Step) (l : List Step) :
    visitsOf u (a :: l) =
      (if a.type = Kind.visit ∧ a.highlightNodes = [u] then 1 else 0) + visitsOf u l := by
  unfold visitsOf
  by_cases h : a.type = Kind.visit ∧ a.highlightNodes = [u]
  · rw [List.filter_cons_of_pos (by simpa using h), if_pos h, List.length_cons]
    omega
  · rw [List.filter_cons_of_neg (by simpa using h), if_neg h]
    omega

theorem visitsOf_visit_cons (w u : NodeId) (d : Option StepData) (m : String)
    (l : List Step) :
    visitsOf w (createStep .visit d m [u] [] :: l) = (if u = w then 1 else 0) + visitsOf w l := by
  rw [visitsOf_cons]
  by_cases h : u = w
  · subst h
    rw [if_pos ⟨rfl, rfl⟩, if_pos rfl]
  · rw [if_neg h, if_neg]
    rintro ⟨_, h2⟩
    have h3 : [u] = [w] := h2
    simp only [List.cons.injEq, and_true] at h3
    exact h h3

theorem visitsOf_other_cons (w : NodeId) (t : Kind) (d : Option StepData) (m : String)
    (hn : List NodeId) (he : List String) (l : List Step) (ht : t ≠ Kind.visit) :
    visitsOf w (createStep t d m hn he :: l) = visitsOf w l := by
  rw [visitsOf_cons, if_neg]
  · omega
  · rintro ⟨h, _⟩
    exact ht h

theorem countKind_createStep_cons (k t : Kind) (d : Option StepData) (m : String)
    (hn : List NodeId) (he : List String) (l : List Step) :
    countKind k (createStep t d m hn he :: l) = (if t = k then 1 else 0) + countKind k l :=
  countKind_cons k _ l

theorem visitsOf_append (u : NodeId) (l1 l2 : List Step) :
    visitsOf u (l1 ++ l2) = visitsOf u l1 + visitsOf u l2 := by
  unfold visitsOf
  simp [List.filter_append]

theorem visitsOf_eq_zero (u : NodeId) (l : List Step) (h : ∀ a ∈ l, a.type ≠ Kind.visit) :
    visitsOf u l = 0 := by
  unfold visitsOf
  rw [List.length_eq_zero, List.filter_eq_nil_iff]
  intro a ha
  have := h a ha
  simp [this]

theorem relaxEdges_counts (u : NodeId) (adjs : List Adj) (st : DState) :
    countKind .check (relaxEdges u adjs st).1 = adjs.length ∧
    countKind .update (relaxEdges u adjs st).1 ≤ countKind .check (relaxEdges u adjs st).1 ∧
    (∀ a ∈ (relaxEdges u adjs st).1, a.type = .check ∨ a.type = .update) := by
  induction adjs generalizing st with
  | nil => simp [relaxEdges, countKind]
  | cons adj rest ih =>
    simp only [relaxEdges, countKind_append, List.length_cons]
    obtain ⟨h1, h2, h3⟩ := ih (relaxEdge u st adj).2
    rcases relaxEdge_cases u st adj with
      ⟨_, _, c, hc, hcty, _⟩ | ⟨x, _, _, _, c, up, hc, hcty, _, hupty, _⟩
    · rw [hc]
      have e1 : countKind .check [c] = 1 := by
        rw [countKind_cons, countKind_nil, if_pos hcty]
      have e2 : countKind .update [c] = 0 := by
        rw [countKind_cons, countKind_nil, if_neg (by rw [hcty]; decide)]
      refine ⟨by omega, by omega, ?_⟩
      intro a ha
      rcases List.mem_append.mp ha with ha | ha
      · simp only [List.mem_singleton] at ha
        subst ha
        exact Or.inl hcty
      · exact h3 a ha
    · rw [hc]
      have e1 : countKind .check [c, up] = 1 := by
        rw [countKind_cons, countKind_cons, countKind_nil, if_pos hcty,
          if_neg (by rw [hupty]; decide)]
      have e2 : countKind .update [c, up] = 1 := by
        rw [countKind_cons, countKind_cons, countKind_nil, if_neg (by rw [hcty]; decide),
          if_pos hupty]
      refine ⟨by omega, by omega, ?_⟩
      intro a ha
      rcases List.mem_append.mp ha with ha | ha
      · simp only [List.mem_cons, List.mem_singleton, List.not_mem_nil, or_false] at ha
        rcases ha with ha | ha
        · subst ha; exact Or.inl hcty
        · subst ha; exact Or.inr hupty
      · exact h3 a ha

theorem loopRun_counts (g : Graph) (start : NodeId) {st : DState} {steps : List Step}
    {st2 : DState} (hrun : LoopRun (getAdjacencyList g) st steps st2) (hok : PQOk start st) :
    countKind .check steps ≤ budget g start st.visited ∧
    countKind .update steps ≤ countKind .check steps ∧
    (∀ w, visitsOf w steps ≤ (if w ∈ st.visited then 0 else 1)) ∧
    (∀ a ∈ steps, a.type = .visit →
      ∃ u, a.highlightNodes = [u] ∧ (u = start ∨ ∃ m, u = NodeId.num m)) := by
  induction hrun with
  | done st _ => simp [countKind, visitsOf]
  | stale st item rest steps st2 hs _ _ ih =>
    exact ih (fun x hx => hok x ((sort_cons_mem hs x).mpr (Or.inr hx)))
  | seen st item rest steps st2 hs _ _ _ ih =>
    exact ih (fun x hx => hok x ((sort_cons_mem hs x).mpr (Or.inr hx)))
  | visit st item rest more st2 hs _ hv _ ih =>
    have hitem := hok item ((sort_cons_mem hs item).mpr (Or.inl rfl))
    have hok1 : PQOk start
        (DState.mk st.distances st.previous rest (st.visited ++ [item.id])) :=
      fun x hx => hok x ((sort_cons_mem hs x).mpr (Or.inr hx))
    have hok2 := relaxEdges_PQOk start item.id
      ((Obj.get (getAdjacencyList g) item.id).getD []) _ hok1
    obtain ⟨i1, i2, i3, i4⟩ := ih hok2
    rw [relaxEdges_visited] at i1 i3
    simp only at i1 i3
    obtain ⟨c1, c2, c3⟩ := relaxEdges_counts item.id
      ((Obj.get (getAdjacencyList g) item.id).getD [])
      (DState.mk st.distances st.previous rest (st.visited ++ [item.id]))
    have hb := budget_visit g start item.id st.visited hv hitem
    have hn := neighbors_length_le g item.id
    have hnovisit : ∀ a ∈ (relaxEdges item.id ((Obj.get (getAdjacencyList g) item.id).getD [])
        (DState.mk st.distances st.previous rest (st.visited ++ [item.id]))).1,
        a.type ≠ Kind.visit := by
      intro a ha
      rcases c3 a ha with h | h <;> rw [h] <;> decide
    refine ⟨?_, ?_, ?_, ?_⟩
    · rw [countKind_createStep_cons, countKind_append, c1, if_neg (by decide)]
      omega
    · rw [countKind_createStep_cons, countKind_createStep_cons, countKind_append,
        countKind_append, if_neg (by decide), if_neg (by decide)]
      omega
    · intro w
      rw [visitsOf_visit_cons, visitsOf_append, visitsOf_eq_zero w _ hnovisit]
      have hw := i3 w
      by_cases hwu : item.id = w
      · subst hwu
        rw [if_pos (List.mem_append_right _ (List.mem_singleton.mpr rfl))] at hw
        rw [if_pos rfl, if_neg hv]
        omega
      · rw [if_neg hwu]
        by_cases hwv : w ∈ st.visited
        · rw [if_pos (List.mem_append_left _ hwv)] at hw
          rw [if_pos hwv]
          omega
        · have : w ∉ st.visited ++ [item.id] := by
            simp only [List.mem_append, List.mem_singleton, not_or]
            exact ⟨hwv, fun h => hwu h.symm⟩
          rw [if_neg this] at hw
          rw [if_neg hwv]
          omega
    · intro a ha hty
      rcases List.mem_cons.mp ha with ha | ha
      · subst ha
        exact ⟨item.id, rfl, hitem⟩
      · rcases List.mem_append.mp ha with ha | ha
        · exact absurd hty (hnovisit a ha)
        · exact i4 a ha hty

theorem countKind_map_type (k : Kind) (l : List Step) :
    countKind k l = ((l.map (fun a => a.type)).filter (fun t => decide (t = k))).length := by
  unfold countKind
  rw [List.filter_map, List.length_map]
  rfl

theorem bfRounds_iterations (g : Graph) (k i : Nat) (st : RState) :
    countKind .iteration (bfRounds g k i st).1 ≤ k := by
  induction k generalizing i st with
  | zero => simp [bfRounds, countKind]
  | succ k ih =>
    have hty : ∀ (es : List Edge) (st : RState), ∀ a ∈ (bfRelaxAll es st).1,
        a.type = Kind.update := by
      intro es
      induction es with
      | nil => intro st a ha; simp [bfRelaxAll] at ha
      | cons e rest ihe =>
        intro st a ha
        simp only [bfRelaxAll] at ha
        rcases List.mem_append.mp ha with ha | ha
        · rcases bfRelaxEdge_cases st e with ⟨_, h2⟩ | ⟨x, _, _, up, h2, hup, _⟩
          · rw [h2] at ha; simp at ha
          · rw [h2] at ha
            simp only [List.mem_singleton] at ha
            subst ha
            exact hup
        · exact ihe _ a ha
    have hcount : countKind .iteration
        (bfRelaxAll g.edges (RState.mk st.distances st.previous false)).1 = 0 :=
      countKind_eq_zero _ _ (fun a ha => by rw [hty _ _ a ha]; decide)
    unfold bfRounds
    by_cases hch : (bfRelaxAll g.edges (RState.mk st.distances st.previous false)).2.changed
        = true
    · simp only [hch, Bool.not_true, Bool.false_eq_true, if_false]
      have := ih (i + 1) (bfRelaxAll g.edges (RState.mk st.distances st.previous false)).2
      rw [countKind_createStep_cons, countKind_append, hcount, if_pos rfl]
      omega
    · have hch2 : (bfRelaxAll g.edges (RState.mk st.distances st.previous false)).2.changed
          = false := by simpa using hch
      simp only [hch2, Bool.not_false, if_true]
      rw [countKind_createStep_cons, countKind_append, hcount, countKind_createStep_cons,
        countKind_nil, if_pos rfl, if_neg (by decide)]
      omega

/-- The part of the step bounds that holds for every start id: all four
sequences are finite lists, `dijkstra` yields at most one `visit` step per
identifier, and `bellmanFord` and `distanceVector` yield at most N-1
`iteration` steps; with the start given as a number, `dijkstra` visits every
node at most once and yields at most E `check` and at most E `update`
steps. -/
theorem step_counts_bounded (g : Graph) (start : NodeId) (fuel : Nat)
    (hf : 2 * g.edges.length + 2 ≤ fuel) :
    (∃ steps, dijkstra fuel g start = some steps ∧
      linkState fuel g start = some (linkStateInfoStep :: steps) ∧
      (∀ w, visitsOf w steps ≤ 1) ∧
      countKind .update steps ≤ countKind .check steps ∧
      (start.isNum = true →
        (∀ n, visitsOfNode n steps ≤ 1) ∧ countKind .check steps ≤ g.edges.length ∧
        countKind .update steps ≤ g.edges.length)) ∧
    countKind .iteration (bellmanFord g start) ≤ g.nodes.length - 1 ∧
    countKind .iteration (distanceVector g start) ≤ g.nodes.length - 1 := by
  refine ⟨?_, ?_, ?_⟩
  · by_cases hfound : startFound g start = true
    · obtain ⟨steps, st, hrun, hd⟩ := dijkstra_found g start fuel hfound hf
      have hok : PQOk start
          (DState.mk (initDistances g start) (initPrevious g) [QItem.mk start 0] []) := by
        intro item hi
        simp only [List.mem_singleton] at hi
        subst hi
        exact Or.inl rfl
      obtain ⟨c1, c2, c3, c4⟩ := loopRun_counts g start hrun hok
      have hcheck : ∀ l : List Step, countKind .check
          (createStep .init (dataD (initDistances g start))
            ("Initialized distances. Start node: " ++ start.toStr) [start] [] ::
            (l ++ [createStep .finished (dataDP st.distances st.previous)
              "Dijkstra completed." [] []])) = countKind .check l := by
        intro l
        rw [countKind_createStep_cons, countKind_append, countKind_createStep_cons,
          countKind_nil, if_neg (by decide), if_neg (by decide)]
        omega
      have hupdate : ∀ l : List Step, countKind .update
          (createStep .init (dataD (initDistances g start))
            ("Initialized distances. Start node: " ++ start.toStr) [start] [] ::
            (l ++ [createStep .finished (dataDP st.distances st.previous)
              "Dijkstra completed." [] []])) = countKind .update l := by
        intro l
        rw [countKind_createStep_cons, countKind_append, countKind_createStep_cons,
          countKind_nil, if_neg (by decide), if_neg (by decide)]
        omega
      have hvisit : ∀ w, visitsOf w
          (createStep .init (dataD (initDistances g start))
            ("Initialized distances. Start node: " ++ start.toStr) [start] [] ::
            (steps ++ [createStep .finished (dataDP st.distances st.previous)
              "Dijkstra completed." [] []])) = visitsOf w steps := by
        intro w
        rw [visitsOf_other_cons _ _ _ _ _ _ _ (by decide), visitsOf_append,
          visitsOf_other_cons _ _ _ _ _ _ _ (by decide)]
        simp [visitsOf]
      refine ⟨_, hd, by simp only [linkState, hd], ?_, ?_, ?_⟩
      · intro w
        rw [hvisit]
        have := c3 w
        simp only [List.not_mem_nil, if_false] at this
        exact this
      · rw [hcheck, hupdate]; exact c2
      · intro hnum
        obtain ⟨s, rfl⟩ : ∃ s, start = NodeId.num s := by
          cases start with
          | num s => exact ⟨s, rfl⟩
          | str t => simp [NodeId.isNum] at hnum
        have hb := budget_init_num g s
        simp only at c1
        refine ⟨?_, by rw [hcheck]; omega, by rw [hupdate]; omega⟩
        intro n
        have hvn := c3 (NodeId.num n)
        simp only [List.not_mem_nil, if_false] at hvn
        have heq : visitsOfNode n
            (createStep .init (dataD (initDistances g (.num s)))
              ("Initialized distances. Start node: " ++ (NodeId.num s).toStr) [.num s] [] ::
              (steps ++ [createStep .finished (dataDP st.distances st.previous)
                "Dijkstra completed." [] []])) = visitsOf (.num n) steps := by
          unfold visitsOfNode visitsOf
          rw [List.filter_cons_of_neg (by simp [createStep]), List.filter_append,
            List.length_append]
          rw [List.filter_cons_of_neg (by simp [createStep])]
          simp only [List.filter_nil, List.length_nil, Nat.add_zero]
          congr 1
          apply List.filter_congr
          intro a ha
          by_cases hty : a.type = Kind.visit
          · obtain ⟨u, hu, hk⟩ := c4 a ha hty
            have hum : ∃ m, u = NodeId.num m := by
              rcases hk with hk | hk
              · exact ⟨s, hk⟩
              · exact hk
            obtain ⟨m, rfl⟩ := hum
            simp [hty, hu, NodeId.key]
          · simp [hty]
        rw [heq]
        exact hvn
    · have hd : dijkstra fuel g start = some [notFoundStep start] := by
        unfold dijkstra
        simp [hfound]
      refine ⟨_, hd, by simp only [linkState, hd], ?_, ?_, ?_⟩
      · intro w; simp [visitsOf, notFoundStep, createStep]
      · simp [countKind, notFoundStep, createStep]
      · intro _
        refine ⟨?_, ?_, ?_⟩
        · intro n; simp [visitsOfNode, notFoundStep, createStep]
        · simp [countKind, notFoundStep, createStep]
        · simp [countKind, notFoundStep, createStep]
  · by_cases hfound : startFound g start = true
    · rw [bellmanFord_found g start hfound, countKind_createStep_cons, countKind_append]
      have h1 := bfRounds_iterations g (g.nodes.length - 1) 0
        (RState.mk (initDistances g start) (initPrevious g) false)
      have h2 : countKind .iteration (bfCheck g (bfRounds g (g.nodes.length - 1) 0
          (RState.mk (initDistances g start) (initPrevious g) false)).2) = 0 := by
        rcases bfCheck_cases g (bfRounds g (g.nodes.length - 1) 0
            (RState.mk (initDistances g start) (initPrevious g) false)).2 with
          ⟨_, hc⟩ | ⟨e, _, _, hc⟩ <;> rw [hc] <;> rfl
      rw [if_neg (by decide)]
      omega
    · have : bellmanFord g start = [notFoundStep start] := by
        unfold bellmanFord
        simp [hfound]
      rw [this]
      simp [countKind, notFoundStep, createStep]
  · by_cases hfound : startFound g start = true
    · rw [distanceVector_found g start hfound, countKind_createStep_cons, countKind_append]
      have h1 := bfRounds_iterations g (g.nodes.length - 1) 0
        (RState.mk (initDistances g start) (initPrevious g) false)
      have h2 := map_type_of_erase (dvRounds_eq g (g.nodes.length - 1) 0
        (RState.mk (initDistances g start) (initPrevious g) false)).2
      rw [countKind_map_type _ (dvRounds g (g.nodes.length - 1) 0 _).1, h2,
        ← countKind_map_type]
      rw [if_neg (by decide), countKind_createStep_cons, countKind_nil, if_neg (by decide)]
      omega
    · have : distanceVector g start = [notFoundStep start] := by
        unfold distanceVector
        simp [hfound]
      rw [this]
      simp [countKind, notFoundStep, createStep]

/-! ## Traces up to the message text -/

theorem stepLe_self_of_carries {g : Graph} {a : Step} {d d0 : Obj Dist} (h : Carries a d)
    (hle : MapLe g d d0) : StepLe g a a := by
  intro v hv
  obtain ⟨data, h1, h2⟩ := h
  simp only [stepDist, h1, h2]
  have := hle v hv
  cases hx : Obj.get d (.num v) with
  | none => rw [hx] at this; simp [DistLe] at this
  | some x => exact distLe_refl_some x

theorem traceMono_of_erase {g : Graph} {d0 d1 : Obj Dist} {l1 l2 : List Step}
    (heq : l1.map eraseMessage = l2.map eraseMessage) (h : TraceMono g d0 l2 d1) :
    TraceMono g d0 l1 d1 := by
  obtain ⟨h1, h2, h3⟩ := h
  refine ⟨h1, ?_, ?_⟩
  · intro a ha
    have hmem : eraseMessage a ∈ l2.map eraseMessage := by
      rw [← heq]; exact List.mem_map_of_mem _ ha
    obtain ⟨b, hb, hba⟩ := List.mem_map.mp hmem
    obtain ⟨d, ⟨data, hd1, hd2⟩, hle1, hle2⟩ := h2 b hb
    have hdata : (eraseMessage b).data = (eraseMessage a).data := congrArg Step.data hba
    have hdata : b.data = a.data := hdata
    exact ⟨d, ⟨data, by rw [← hdata]; exact hd1, hd2⟩, hle1, hle2⟩
  · have key : ∀ l : List Step, List.Pairwise (fun a b => StepLe g b a) l ↔
        List.Pairwise (fun a b => StepLe g b a) (l.map eraseMessage) := by
      intro l
      rw [List.pairwise_map]
      rfl
    rw [key, heq, ← key]
    exact h3

/-! ## N-1 rounds of `bellmanFord` suffice -/

theorem distLe_fin {a : Option Dist} {x : Int} (h : DistLe a (some (.fin x))) :
    ∃ y, a = some (.fin y) ∧ y ≤ x := by
  cases a with
  | none => simp [DistLe] at h
  | some d =>
    cases d with
    | infinity => simp [DistLe] at h
    | fin y => exact ⟨y, rfl, by simpa [DistLe] using h⟩

/-! ## Rounds whose sums are exact -/

/-- One relaxation on exact distances bounded by `m`, for an edge whose weight
keeps the sum within 2^53, leaves the distances exact and bounded by `m` plus
the weight. -/
theorem bfRelaxEdge_safe {g : Graph} {s : Int} (st : RState) (e : Edge) (he : e ∈ g.edges)
    (hex : Exact g s st.distances) {m : Nat} (hb : AbsLe m st.distances)
    (hm : m + e.weight.natAbs ≤ 2 ^ 53) :
    Exact g s (bfRelaxEdge st e).2.distances ∧
      AbsLe (m + e.weight.natAbs) (bfRelaxEdge st e).2.distances := by
  rcases bfRelaxEdge_cases st e with ⟨_, h2⟩ | ⟨x, hx, _, up, h2, _⟩
  · rw [h2]
    exact ⟨hex, absLe_mono hb (by omega)⟩
  · rw [h2, canRelax_exact hb e hm x hx]
    exact ⟨exact_relax hex e he x hx, absLe_relax hb e x hx⟩

theorem bfRelaxAll_safe {g : Graph} {s : Int} (es : List Edge) (hes : ∀ e ∈ es, e ∈ g.edges)
    (st : RState) (hex : Exact g s st.distances) {m : Nat} (hb : AbsLe m st.distances)
    (hm : m + absWeight es ≤ 2 ^ 53) :
    Exact g s (bfRelaxAll es st).2.distances ∧
      AbsLe (m + absWeight es) (bfRelaxAll es st).2.distances := by
  induction es generalizing st m with
  | nil => exact ⟨hex, absLe_mono hb (by omega)⟩
  | cons e rest ih =>
    simp only [bfRelaxAll]
    rw [absWeight_cons] at hm ⊢
    obtain ⟨h1, h2⟩ := bfRelaxEdge_safe st e (hes e (List.mem_cons_self _ _)) hex hb
      (by omega)
    obtain ⟨h3, h4⟩ := ih (fun e2 he2 => hes e2 (List.mem_cons_of_mem _ he2)) _ h1 h2
      (by omega)
    exact ⟨h3, absLe_mono h4 (by omega)⟩

theorem bfRounds_safe {g : Graph} {s : Int} (k i : Nat) (st : RState)
    (hex : Exact g s st.distances) {m : Nat} (hb : AbsLe m st.distances)
    (hm : m + k * totalWeight g ≤ 2 ^ 53) :
    Exact g s (bfRounds g k i st).2.distances ∧
      AbsLe (m + k * totalWeight g) (bfRounds g k i st).2.distances := by
  induction k generalizing i st m with
  | zero => exact ⟨hex, absLe_mono hb (by omega)⟩
  | succ k ih =>
    have hk : (k + 1) * totalWeight g = totalWeight g + k * totalWeight g := by
      rw [Nat.succ_mul]; omega
    rw [hk] at hm ⊢
    have h0ex : Exact g s (RState.mk st.distances st.previous false).distances := hex
    have h0b : AbsLe m (RState.mk st.distances st.previous false).distances := hb
    obtain ⟨h1, h2⟩ := bfRelaxAll_safe (g := g) (s := s) g.edges (fun e he => he)
      (RState.mk st.distances st.previous false) h0ex h0b
      (by unfold totalWeight at hm; omega)
    unfold bfRounds
    by_cases hch : (bfRelaxAll g.edges (RState.mk st.distances st.previous false)).2.changed
        = true
    · simp only [hch, Bool.not_true, Bool.false_eq_true, if_false]
      obtain ⟨h3, h4⟩ := ih (i + 1) _ h1 h2 (by unfold totalWeight at hm ⊢; omega)
      exact ⟨h3, absLe_mono h4 (by unfold totalWeight; omega)⟩
    · have hch2 : (bfRelaxAll g.edges (RState.mk st.distances st.previous false)).2.changed
          = false := by simpa using hch
      simp only [hch2, Bool.not_false, if_true]
      exact ⟨h1, absLe_mono h2 (by unfold totalWeight; omega)⟩

/-- The rounds of a run leave exact distances that, with the weight of one
more edge, stay within 2^53 when the number of nodes times the total weight
does. -/
theorem bf_final_safe {g : Graph} {start : NodeId} {s : Int} (hkey : start.key = .num s)
    (hs : s ∈ g.nodes) (hsum : g.nodes.length * totalWeight g ≤ 2 ^ 53) :
    Exact g s (bfRounds g (g.nodes.length - 1) 0
      (RState.mk (initDistances g start) (initPrevious g) false)).2.distances ∧
    AbsLe ((g.nodes.length - 1) * totalWeight g) (bfRounds g (g.nodes.length - 1) 0
      (RState.mk (initDistances g start) (initPrevious g) false)).2.distances ∧
    (g.nodes.length - 1) * totalWeight g + totalWeight g ≤ 2 ^ 53 := by
  have hpos : 0 < g.nodes.length := List.length_pos_of_mem hs
  have hn : (g.nodes.length - 1) * totalWeight g + totalWeight g =
      g.nodes.length * totalWeight g := by
    have h1 : g.nodes.length = (g.nodes.length - 1) + 1 := by omega
    conv => rhs; rw [h1, Nat.succ_mul]
  have hle : (g.nodes.length - 1) * totalWeight g + totalWeight g ≤ 2 ^ 53 := by
    rw [hn]; exact hsum
  obtain ⟨h1, h2⟩ := bfRounds_safe (g := g) (s := s) (g.nodes.length - 1) 0
    (RState.mk (initDistances g start) (initPrevious g) false) (exact_init g start s hkey)
    (absLe_init g start s hkey) (by omega)
  exact ⟨h1, absLe_mono h2 (by omega), hle⟩

/-- After the edge loop of a round, the target of every edge is at most the
distance its source had before the round plus the weight. -/
theorem bfRelaxAll_edge {g : Graph} {s : Int} (hwf : WellFormed g) (es : List Edge)
    (hes : ∀ e ∈ es, e ∈ g.edges) (st : RState) (h : MapsOk g s st.distances st.previous)
    {m : Nat} (hb : AbsLe m st.distances) (hm : m + absWeight es ≤ 2 ^ 53)
    (e : Edge) (he : e ∈ es) (x : Int)
    (hx : Obj.get st.distances (.num e.from_) = some (.fin x)) :
    ∃ y, Obj.get (bfRelaxAll es st).2.distances (.num e.to_) = some (.fin y) ∧
      y ≤ x + e.weight := by
  induction es generalizing st x m with
  | nil => simp at he
  | cons e1 rest ih =>
    simp only [bfRelaxAll]
    rw [absWeight_cons] at hm
    have he1 := hes e1 (List.mem_cons_self _ _)
    have hrest : ∀ e2 ∈ rest, e2 ∈ g.edges := fun e2 h2 => hes e2 (List.mem_cons_of_mem _ h2)
    obtain ⟨hok1, htr1, _⟩ := bfRelaxEdge_spec (g := g) (s := s) st e1 he1 h
    obtain ⟨_, htr2, _⟩ := bfRelaxAll_spec (g := g) (s := s) rest hrest (bfRelaxEdge st e1).2 hok1
    have hb1 : AbsLe (m + e1.weight.natAbs) (bfRelaxEdge st e1).2.distances := by
      rcases bfRelaxEdge_cases st e1 with ⟨_, h2⟩ | ⟨x2, hx2, _, up, h2, _⟩
      · rw [h2]; exact absLe_mono hb (by omega)
      · rw [h2, canRelax_exact hb e1 (by omega) x2 hx2]
        exact absLe_relax hb e1 x2 hx2
    have hge := hes e he
    by_cases hin : e ∈ rest
    · have hle := htr1.1 e.from_ (hwf e hge).1
      rw [hx] at hle
      obtain ⟨x1, hx1, hle1⟩ := distLe_fin hle
      obtain ⟨y, hy, hley⟩ := ih hrest (bfRelaxEdge st e1).2 hok1 hb1 (by omega) hin x1 hx1
      exact ⟨y, hy, by omega⟩
    · have hee : e = e1 := by
        rcases List.mem_cons.mp he with h1 | h1
        · exact h1
        · exact absurd h1 hin
      subst hee
      have hexact := canRelax_exact hb e (by omega) x hx
      have hfin : ∃ y, Obj.get (bfRelaxEdge st e).2.distances (.num e.to_) = some (.fin y) ∧
          y ≤ x + e.weight := by
        rcases bfRelaxEdge_cases st e with ⟨hc, h2⟩ | ⟨x2, hx2, _, up, h2, _⟩
        · rw [h2]
          have hlt := canRelax_false hc hx
          rw [hexact] at hlt
          obtain ⟨d, hd⟩ := h.defined e.to_ (hwf e hge).2
          rw [hd] at hlt
          obtain ⟨t, ht, hle⟩ := jsLt_fin_false hlt
          subst ht
          exact ⟨t, hd, hle⟩
        · rw [h2]
          rw [hx] at hx2
          simp only [Option.some.injEq, Dist.fin.injEq] at hx2
          subst hx2
          rw [hexact]
          exact ⟨x + e.weight, by simp only; rw [Obj.get_set_num]; simp, le_refl _⟩
      obtain ⟨y1, hy1, hle1⟩ := hfin
      have hle := htr2.1 e.to_ (hwf e hge).2
      rw [hy1] at hle
      obtain ⟨y, hy, hley⟩ := distLe_fin hle
      exact ⟨y, hy, by omega⟩

theorem bound_round {g : Graph} {s : Int} (hwf : WellFormed g) (st : RState)
    (h : MapsOk g s st.distances st.previous) {m : Nat} (hb : AbsLe m st.distances)
    (hm : m + totalWeight g ≤ 2 ^ 53) (k : Nat) (hbd : Bound g s k st.distances) :
    Bound g s (k + 1) (bfRelaxAll g.edges st).2.distances := by
  obtain ⟨hok, _, _⟩ := bfRelaxAll_spec (g := g) (s := s) g.edges (fun e he => he) st h
  intro v c vs hp hlen
  cases hp with
  | nil =>
    obtain ⟨x0, hx0, hle⟩ := hok.start
    exact ⟨x0, hx0, hle⟩
  | @snoc u c0 vs0 e hp0 he hf hn =>
    simp only [List.length_cons] at hlen
    obtain ⟨y, hy, hle⟩ := hbd u c0 vs0 hp0 (by omega)
    subst hf
    obtain ⟨y2, hy2, hle2⟩ := bfRelaxAll_edge hwf g.edges (fun e he => he) st h hb
      (by unfold totalWeight at hm; exact hm) e he y hy
    exact ⟨y2, hy2, by omega⟩

/-- The relaxation loop ends either at distances no edge can improve or with
the distances bounded by all simple paths of as many edges as rounds ran. -/
theorem bfRounds_bound {g : Graph} {s : Int} (hwf : WellFormed g) (k j i : Nat) (st : RState)
    (h : MapsOk g s st.distances st.previous) (hex : Exact g s st.distances) {m : Nat}
    (hb : AbsLe m st.distances) (hm : m + k * totalWeight g ≤ 2 ^ 53)
    (hbd : Bound g s j st.distances) :
    (∀ e ∈ g.edges, canRelax (bfRounds g k i st).2.distances e = false) ∨
      Bound g s (j + k) (bfRounds g k i st).2.distances := by
  induction k generalizing j i st m with
  | zero => exact Or.inr hbd
  | succ k ih =>
    have hk : (k + 1) * totalWeight g = totalWeight g + k * totalWeight g := by
      rw [Nat.succ_mul]; omega
    rw [hk] at hm
    have h0 : MapsOk g s (RState.mk st.distances st.previous false).distances
        (RState.mk st.distances st.previous false).previous := h
    have h0ex : Exact g s (RState.mk st.distances st.previous false).distances := hex
    have h0b : AbsLe m (RState.mk st.distances st.previous false).distances := hb
    obtain ⟨hok, _, _⟩ := bfRelaxAll_spec (g := g) (s := s) g.edges (fun e he => he)
      (RState.mk st.distances st.previous false) h0
    obtain ⟨hex1, hb1⟩ := bfRelaxAll_safe (g := g) (s := s) g.edges (fun e he => he)
      (RState.mk st.distances st.previous false) h0ex h0b
      (by unfold totalWeight at hm; omega)
    have hbd1 := bound_round hwf (RState.mk st.distances st.previous false) h0 h0b
      (by omega) j hbd
    unfold bfRounds
    by_cases hch : (bfRelaxAll g.edges (RState.mk st.distances st.previous false)).2.changed
        = true
    · simp only [hch, Bool.not_true, Bool.false_eq_true, if_false]
      rcases ih (j + 1) (i + 1) _ hok hex1 hb1 (by unfold totalWeight at hm ⊢; omega) hbd1 with
        h1 | h1
      · exact Or.inl h1
      · right
        have : j + 1 + k = j + (k + 1) := by omega
        rw [← this]
        exact h1
    · have hch2 : (bfRelaxAll g.edges (RState.mk st.distances st.previous false)).2.changed
          = false := by simpa using hch
      simp only [hch2, Bool.not_false, if_true]
      obtain ⟨h1, h2⟩ := bfRelaxAll_unchanged g.edges _ hch2
      left
      rw [h1]
      exact h2

theorem bound_zero {g : Graph} {s : Int} {distances : Obj Dist}
    {previous : Obj (Option NodeId)} (h : MapsOk g s distances previous) :
    Bound g s 0 distances := by
  intro v c vs hp hlen
  cases hp with
  | nil => exact h.start
  | @snoc u c0 vs0 e hp0 he hf hn =>
    simp only [List.length_cons] at hlen
    have : 0 < vs0.length := List.length_pos_of_mem (sPath_end_mem hp0)
    omega

/-- Without a reachable negative cycle, and with sums that stay exact, no
edge passes the relaxation test when the relaxation loop of `bellmanFord` has
ended. -/
theorem bf_final_fixed {g : Graph} {start : NodeId} {s : Int} (hwf : WellFormed g)
    (hkey : start.key = .num s) (hs : s ∈ g.nodes)
    (hsum : g.nodes.length * totalWeight g ≤ 2 ^ 53) (hno : ¬ ReachableNegCycle g s) :
    ∀ e ∈ g.edges, canRelax (bfRounds g (g.nodes.length - 1) 0
      (RState.mk (initDistances g start) (initPrevious g) false)).2.distances e = false := by
  have hinit := MapsOk.init g start s hkey hs
  obtain ⟨hex, hb, hle⟩ := @bf_final_safe g start s hkey hs hsum
  rcases bfRounds_bound hwf (g.nodes.length - 1) 0 0
      (RState.mk (initDistances g start) (initPrevious g) false) hinit
      (exact_init g start s hkey) (absLe_init g start s hkey) (by omega)
      (bound_zero hinit) with
    hfix | hbound
  · exact hfix
  · intro e he
    by_contra hc
    have hc2 : canRelax (bfRounds g (g.nodes.length - 1) 0
        (RState.mk (initDistances g start) (initPrevious g) false)).2.distances e = true := by
      simpa using hc
    obtain ⟨x, hx, hlt⟩ := canRelax_true hc2
    have hwe := weight_le_total he
    rw [canRelax_exact hb e (by omega) x hx] at hlt
    have hw : Walk g s e.to_ (x + e.weight) := Walk.snoc e (hex _ _ hx) he rfl
    obtain ⟨c2, vs, hp, hle⟩ := walk_to_sPath hno hw
    have hlen := sPath_length_le hwf hs hp
    have hpos : 0 < g.nodes.length := List.length_pos_of_mem hs
    obtain ⟨y, hy, hley⟩ := hbound e.to_ c2 vs hp (by omega)
    rw [hy] at hlt
    rcases jsLt_fin_true hlt with h1 | ⟨t, h1, h2⟩
    · simp at h1
    · simp only [Option.some.injEq, Dist.fin.injEq] at h1
      omega

/-! ## The predecessor map of `dijkstra` for non-negative weights -/

/-- A chain stays valid in a state that keeps the visited nodes, their
distances and predecessors, and the two entries of the node itself. -/
theorem chain_frame {g : Graph} {s : Int} {st st2 : DState}
    (hvis : ∀ n, VisitedKey st n → VisitedKey st2 n ∧
      Obj.get st2.distances (.num n) = Obj.get st.distances (.num n) ∧
      Obj.get st2.previous (.num n) = Obj.get st.previous (.num n))
    {v c : Int} (h : Chain g st s v c)
    (hd : Obj.get st2.distances (.num v) = Obj.get st.distances (.num v))
    (hp : Obj.get st2.previous (.num v) = Obj.get st.previous (.num v)) :
    Chain g st2 s v c := by
  induction h with
  | start => exact Chain.start
  | @step a c u e hprev hkey hva he hf hda hdv _ ih =>
    obtain ⟨hva2, hda2, hpa2⟩ := hvis a hva
    exact Chain.step u e (by rw [hp]; exact hprev) hkey hva2 he hf (by rw [hda2]; exact hda)
      (by rw [hd]; exact hdv) (ih hda2 hpa2)

theorem chain_prevPath {g : Graph} {s : Int} {st : DState} {v c : Int}
    (h : Chain g st s v c) : PrevPath g st.distances st.previous s v c := by
  induction h with
  | start => exact PrevPath.start
  | step u e hprev hkey _ he hf hda hdv _ ih => exact PrevPath.step u e hprev hkey he hf hda hdv ih

theorem prev_init (g : Graph) (start : NodeId) (s : Int) (hkey : start.key = .num s)
    (hs : s ∈ g.nodes) :
    PrevInv g s (DState.mk (initDistances g start) (initPrevious g) [QItem.mk start 0] []) := by
  constructor
  · intro v x hx
    simp only at hx
    rw [initDistances_get g start s v hkey] at hx
    by_cases hvs : v = s
    · subst hvs
      simp only [if_true, Option.some.injEq, Dist.fin.injEq] at hx
      subst hx
      exact Chain.start
    · by_cases hv : v ∈ g.nodes <;> simp [hvs, hv] at hx
  · simp only
    rw [initPrevious_get]
    simp [hs]

/-- The state in which the neighbours of a freshly popped node are scanned
satisfies the invariant for the edges scanned before. -/
theorem nn_visit_enter {g : Graph} {s : Int} (hnn : ∀ e ∈ g.edges, 0 ≤ e.weight)
    {st : DState} {item : QItem} {rest : List QItem}
    (h : NNCore g s st (fun e => VisitedKey st e.from_))
    (hs : List.insertionSort (fun a b => a.dist ≤ b.dist) st.pq = item :: rest)
    (hfresh : jsLt (Obj.get st.distances item.id) (some (.fin item.dist)) = false) :
    ∃ a, item.id.key = NodeId.num a ∧
      NNCore g s (DState.mk st.distances st.previous rest (st.visited ++ [item.id]))
        (fun e => VisitedKey st e.from_) := by
  have hmem := sort_cons_mem hs
  have hitem : item ∈ st.pq := (hmem item).mpr (Or.inl rfl)
  obtain ⟨a, x, hkey, hx, hle⟩ := h.pqle item hitem
  have hxd : item.dist ≤ x := by
    rw [get_of_key_eq st.distances hkey.symm, hx] at hfresh
    have : ¬ x < item.dist := by simpa [jsLt] using hfresh
    omega
  have hopt : Optimal g s st.distances a := by
    refine ⟨x, hx, ?_⟩
    intro c hc
    rcases nn_frontier hnn h hc with hv | ⟨y, xy, hy, hxy, hlec⟩
    · obtain ⟨x2, hx2, hopt2⟩ := h.optimal a hv
      rw [hx] at hx2
      simp only [Option.some.injEq, Dist.fin.injEq] at hx2
      subst hx2
      exact hopt2 c hc
    · obtain ⟨it, hi, _, hd⟩ := h.queued y xy hxy hy
      have := sort_cons_min hs it hi
      omega
  refine ⟨a, hkey, h.maps, h.exact, ?_, ?_, ?_, ?_⟩
  · intro n hv
    rcases (visitedKey_append st item.id rest n).mp hv with hv | hv
    · exact h.optimal n hv
    · rw [hkey] at hv
      simp only [NodeId.num.injEq] at hv
      subst hv
      exact hopt
  · intro e he hc
    obtain ⟨hv, hok⟩ := h.scanned e he hc
    exact ⟨(visitedKey_append st item.id rest _).mpr (Or.inl hv), hok⟩
  · intro n xn hxn hnv
    have hnv2 : ¬ VisitedKey st n :=
      fun hv => hnv ((visitedKey_append st item.id rest n).mpr (Or.inl hv))
    obtain ⟨it, hi, hk, hd⟩ := h.queued n xn hxn hnv2
    rcases (hmem it).mp hi with hi | hi
    · subst hi
      exact absurd ((visitedKey_append st it.id rest n).mpr (Or.inr hk)) hnv
    · exact ⟨it, hi, hk, hd⟩
  · intro it hi
    exact h.pqle it ((hmem it).mpr (Or.inr hi))

theorem prev_relaxEdge {g : Graph} {s : Int} (hnn : ∀ e ∈ g.edges, 0 ≤ e.weight)
    (hsum : totalWeight g ≤ 2 ^ 53) (u : NodeId) (a : Int) (st : DState) (C : Edge → Prop)
    (adj : Adj)
    (h : NNCore g s st C) (hp : PrevInv g s st) (hu : u ∈ st.visited)
    (hkey : u.key = .num a)
    (hadj : ∃ e ∈ g.edges, e.from_ = a ∧ e.to_ = adj.to_ ∧ e.weight = adj.weight) :
    PrevInv g s (relaxEdge u st adj).2 := by
  obtain ⟨e, he, hfrom, hto, hw⟩ := hadj
  have hva : VisitedKey st a := ⟨u, hu, hkey⟩
  obtain ⟨xa, hxa, hopta⟩ := h.optimal a hva
  have hgu : Obj.get st.distances u = some (.fin xa) := by
    rw [get_of_key_eq st.distances hkey.symm]; exact hxa
  have hexact : roundDouble (xa + e.weight) = xa + e.weight :=
    nn_sum_exact hnn hsum (h.exact a xa hxa) hopta he hfrom
  rcases relaxEdge_cases u st adj with ⟨h2, _, _⟩ | ⟨x, hx, hlt, h2, _⟩
  · rw [h2]; exact hp
  · rw [hgu] at hx
    simp only [Option.some.injEq, Dist.fin.injEq] at hx
    subst hx
    rw [← hto, ← hw, hexact] at hlt h2
    have hwalk : Walk g s e.to_ (xa + e.weight) :=
      Walk.snoc e (h.exact a xa hxa) he hfrom
    have hF : ∀ n, VisitedKey st n → n ≠ e.to_ := by
      intro n hvn hn
      subst hn
      obtain ⟨xn, hxn, hoptn⟩ := h.optimal _ hvn
      have h1 := hoptn _ hwalk
      rw [hxn] at hlt
      rcases jsLt_fin_true hlt with h3 | ⟨t, h3, h4⟩
      · simp at h3
      · simp only [Option.some.injEq, Dist.fin.injEq] at h3
        omega
    have hsb : s ≠ e.to_ := by
      intro hsb
      obtain ⟨x0, hx0, hle0⟩ := h.maps.start
      have hpos := walk_nonneg hnn hwalk
      rw [← hsb, hx0] at hlt
      rcases jsLt_fin_true hlt with h3 | ⟨t, h3, h4⟩
      · simp at h3
      · simp only [Option.some.injEq, Dist.fin.injEq] at h3
        omega
    have hgetd : ∀ n, n ≠ e.to_ →
        Obj.get (Obj.set st.distances (.num e.to_) (.fin (xa + e.weight))) (.num n) =
          Obj.get st.distances (.num n) := by
      intro n hn
      rw [Obj.get_set_num]
      simp [hn]
    have hgetp : ∀ n, n ≠ e.to_ →
        Obj.get (Obj.set st.previous (.num e.to_) (some u)) (.num n) =
          Obj.get st.previous (.num n) := by
      intro n hn
      rw [Obj.get_set_num]
      simp [hn]
    rw [h2]
    have hvis : ∀ n, VisitedKey st n →
        VisitedKey (DState.mk (Obj.set st.distances (.num e.to_) (.fin (xa + e.weight)))
          (Obj.set st.previous (.num e.to_) (some u))
          (st.pq ++ [QItem.mk (.num e.to_) (xa + e.weight)]) st.visited) n ∧
        Obj.get (Obj.set st.distances (.num e.to_) (.fin (xa + e.weight))) (.num n) =
          Obj.get st.distances (.num n) ∧
        Obj.get (Obj.set st.previous (.num e.to_) (some u)) (.num n) =
          Obj.get st.previous (.num n) :=
      fun n hvn => ⟨hvn, hgetd n (hF n hvn), hgetp n (hF n hvn)⟩
    constructor
    · intro v x hvx
      simp only at hvx
      by_cases hvb : v = e.to_
      · subst hvb
        rw [Obj.get_set_num] at hvx
        simp only [if_true, Option.some.injEq, Dist.fin.injEq] at hvx
        subst hvx
        have hca := chain_frame hvis (hp.chain a xa hxa) (hgetd a (hF a hva))
          (hgetp a (hF a hva))
        refine Chain.step u e ?_ hkey hva he hfrom ?_ ?_ hca
        · simp only; rw [Obj.get_set_num]; simp
        · simp only; rw [hgetd a (hF a hva)]; exact hxa
        · simp only; rw [Obj.get_set_num]; simp
      · rw [hgetd v hvb] at hvx
        exact chain_frame hvis (hp.chain v x hvx) (hgetd v hvb) (hgetp v hvb)
    · simp only
      rw [hgetp s hsb]
      exact hp.startNull

theorem nnprev_relaxEdges {g : Graph} {s : Int} (hwf : WellFormed g)
    (hnn : ∀ e ∈ g.edges, 0 ≤ e.weight) (hsum : totalWeight g ≤ 2 ^ 53) (u : NodeId) (a : Int)
    (adjs : List Adj)
    (hadjs : ∀ adj ∈ adjs, ∃ e ∈ g.edges, e.from_ = a ∧ e.to_ = adj.to_ ∧
      e.weight = adj.weight)
    (hkey : u.key = .num a) (st : DState) (C : Edge → Prop) (h : NNCore g s st C)
    (hp : PrevInv g s st) (hu : u ∈ st.visited) :
    PrevInv g s (relaxEdges u adjs st).2 := by
  induction adjs generalizing st C with
  | nil => exact hp
  | cons adj rest ih =>
    simp only [relaxEdges]
    have hadj := hadjs adj (List.mem_cons_self _ _)
    have h1 := nn_relaxEdge hwf hnn hsum u a st C adj h hu hkey hadj
    have hp1 := prev_relaxEdge hnn hsum u a st C adj h hp hu hkey hadj
    have hu1 : u ∈ (relaxEdge u st adj).2.visited := by
      rw [relaxEdge_visited]; exact hu
    exact ih (fun a2 ha2 => hadjs a2 (List.mem_cons_of_mem _ ha2)) _ _ h1 hp1 hu1

theorem loopRun_prev {g : Graph} {s : Int} (hwf : WellFormed g)
    (hnn : ∀ e ∈ g.edges, 0 ≤ e.weight) (hsum : totalWeight g ≤ 2 ^ 53) {st : DState}
    {steps : List Step} {st2 : DState}
    (hrun : LoopRun (getAdjacencyList g) st steps st2)
    (h : NNCore g s st (fun e => VisitedKey st e.from_)) (hp : PrevInv g s st) :
    PrevInv g s st2 := by
  induction hrun with
  | done st _ => exact hp
  | stale st item rest steps st2 hs hst _ ih =>
    refine ih (nn_skip h hs (Or.inl hst)) ⟨?_, hp.startNull⟩
    intro v x hvx
    exact @chain_frame g s st (DState.mk st.distances st.previous rest st.visited)
      (fun n hvn => ⟨hvn, rfl, rfl⟩) v x (hp.chain v x hvx) rfl rfl
  | seen st item rest steps st2 hs _ hseen _ ih =>
    refine ih (nn_skip h hs (Or.inr hseen)) ⟨?_, hp.startNull⟩
    intro v x hvx
    exact @chain_frame g s st (DState.mk st.distances st.previous rest st.visited)
      (fun n hvn => ⟨hvn, rfl, rfl⟩) v x (hp.chain v x hvx) rfl rfl
  | visit st item rest more st2 hs hfresh _ _ ih =>
    obtain ⟨a, hkey, h0⟩ := nn_visit_enter hnn h hs hfresh
    have hp0 : PrevInv g s
        (DState.mk st.distances st.previous rest (st.visited ++ [item.id])) := by
      refine ⟨?_, hp.startNull⟩
      intro v x hvx
      exact @chain_frame g s st
        (DState.mk st.distances st.previous rest (st.visited ++ [item.id]))
        (fun n hvn => ⟨(visitedKey_append st item.id rest n).mpr (Or.inl hvn), rfl, rfl⟩)
        v x (hp.chain v x hvx) rfl rfl
    have hadjs : ∀ adj ∈ (Obj.get (getAdjacencyList g) item.id).getD [],
        ∃ e ∈ g.edges, e.from_ = a ∧ e.to_ = adj.to_ ∧ e.weight = adj.weight := by
      intro adj hadj
      obtain ⟨e, he, hf, ht, hw⟩ := neighbors_mem g item.id adj hadj
      rw [hkey] at hf
      simp only [NodeId.num.injEq] at hf
      exact ⟨e, he, hf, ht, hw⟩
    have hp1 := nnprev_relaxEdges hwf hnn hsum item.id a _ hadjs hkey _ _ h0 hp0
      (List.mem_append_right _ (List.mem_singleton.mpr rfl))
    exact ih (nn_visit hwf hnn hsum h hs hfresh) hp1

/-! ## Reading objects in the heap -/

theorem Heap.dist_setDist (h : Heap) (a : Addr) (id : NodeId) (x : Dist) :
    (h.setDist a id x).dist a = Obj.set (h.dist a) id x := by
  simp [Heap.setDist]

theorem Heap.prev_setDist (h : Heap) (a : Addr) (id : NodeId) (x : Dist) :
    (h.setDist a id x).prev = h.prev := rfl

theorem Heap.dist_setPrev (h : Heap) (a : Addr) (id : NodeId) (x : Option NodeId) :
    (h.setPrev a id x).dist = h.dist := rfl

theorem Heap.prev_setPrev (h : Heap) (a : Addr) (id : NodeId) (x : Option NodeId) :
    (h.setPrev a id x).prev a = Obj.set (h.prev a) id x := by
  simp [Heap.setPrev]

theorem snapshot_refD (type : Kind) (a : Addr) (msg : String) (hn : List NodeId)
    (he : List String) (h : Heap) :
    (Yield.mk (createStepRef type (refD a) msg hn he) h).snapshot =
      createStep type (dataD (h.dist a)) msg hn he := rfl

theorem snapshot_refDP (type : Kind) (a p : Addr) (msg : String) (hn : List NodeId)
    (he : List String) (h : Heap) :
    (Yield.mk (createStepRef type (refDP a p) msg hn he) h).snapshot =
      createStep type (dataDP (h.dist a) (h.prev p)) msg hn he := rfl

theorem holdsDist_refD (type : Kind) (a : Addr) (msg : String) (hn : List NodeId)
    (he : List String) (h : Heap) :
    HoldsDist a (Yield.mk (createStepRef type (refD a) msg hn he) h) :=
  ⟨_, rfl, rfl⟩

theorem holdsDist_refDP (type : Kind) (a p : Addr) (msg : String) (hn : List NodeId)
    (he : List String) (h : Heap) :
    HoldsDist a (Yield.mk (createStepRef type (refDP a p) msg hn he) h) :=
  ⟨_, rfl, rfl⟩

/-- A step that holds the object at address `a` shows, read in any heap, the
contents the object has in that heap. -/
theorem stepDist_read {a : Addr} {y : Yield} (hy : HoldsDist a y) (h : Heap) (v : Int) :
    stepDist (y.step.read h) v = Obj.get (h.dist a) (.num v) := by
  obtain ⟨d, h1, h2⟩ := hy
  simp [stepDist, RefStep.read, h1, h2]

/-- In a run whose steps all hold the same object, a step read at a later
moment shows what the step pulled last shows. -/
theorem readAt_eq_of_holds {a : Addr} {run : List Yield} (hall : ∀ y ∈ run, HoldsDist a y)
    {i j : Nat} {x y : Yield} (hi : run[i]? = some x) (hj : run[j]? = some y) (v : Int) :
    readAt run i j v = stepDist y.snapshot v := by
  have hx := hall x (List.getElem?_mem hi)
  have hy := hall y (List.getElem?_mem hj)
  unfold readAt Yield.snapshot
  rw [hi, hj]
  simp only
  rw [stepDist_read hx, stepDist_read hy]

/-! ## The run of `dijkstra` by reference -/

theorem relaxEdgeRef_link (u : NodeId) (st : DRef) (edge : Adj) :
    (relaxEdgeRef u st edge).1.map Yield.snapshot = (relaxEdge u st.view edge).1 ∧
    (relaxEdgeRef u st edge).2.view = (relaxEdge u st.view edge).2 ∧
    (relaxEdgeRef u st edge).2.distances = st.distances ∧
    (relaxEdgeRef u st edge).2.previous = st.previous ∧
    ∀ y ∈ (relaxEdgeRef u st edge).1, HoldsDist st.distances y := by
  unfold relaxEdgeRef relaxEdge
  simp only [DRef.view]
  cases hj : jsAdd (Obj.get (st.heap.dist st.distances) u) edge.weight with
  | none =>
    simp only [List.map_cons, List.map_nil, snapshot_refD, List.mem_singleton, true_and]
    intro y hy
    subst hy
    exact holdsDist_refD _ _ _ _ _ _
  | some d =>
    cases d with
    | infinity =>
      simp only [List.map_cons, List.map_nil, snapshot_refD, List.mem_singleton, true_and]
      intro y hy
      subst hy
      exact holdsDist_refD _ _ _ _ _ _
    | fin x =>
      by_cases hlt : jsLt (some (.fin x))
          (Obj.get (st.heap.dist st.distances) (.num edge.to_)) = true
      · simp only [hlt, if_true, List.map_cons, List.map_nil, snapshot_refD,
          Heap.dist_setPrev, Heap.dist_setDist, Heap.prev_setPrev, Heap.prev_setDist,
          true_and]
        intro y hy
        simp only [List.mem_cons, List.mem_singleton, List.not_mem_nil, or_false] at hy
        rcases hy with hy | hy <;> subst hy <;> exact holdsDist_refD _ _ _ _ _ _
      · simp only [hlt, Bool.false_eq_true, if_false, List.map_cons, List.map_nil,
          snapshot_refD, List.mem_singleton, true_and]
        intro y hy
        subst hy
        exact holdsDist_refD _ _ _ _ _ _

theorem relaxEdgesRef_link (u : NodeId) (adjs : List Adj) (st : DRef) :
    (relaxEdgesRef u adjs st).1.map Yield.snapshot = (relaxEdges u adjs st.view).1 ∧
    (relaxEdgesRef u adjs st).2.view = (relaxEdges u adjs st.view).2 ∧
    (relaxEdgesRef u adjs st).2.distances = st.distances ∧
    (relaxEdgesRef u adjs st).2.previous = st.previous ∧
    ∀ y ∈ (relaxEdgesRef u adjs st).1, HoldsDist st.distances y := by
  induction adjs generalizing st with
  | nil => exact ⟨rfl, rfl, rfl, rfl, by simp [relaxEdgesRef]⟩
  | cons edge rest ih =>
    obtain ⟨h1, h2, h3, h4, h5⟩ := relaxEdgeRef_link u st edge
    obtain ⟨i1, i2, i3, i4, i5⟩ := ih (relaxEdgeRef u st edge).2
    simp only [relaxEdgesRef, relaxEdges, List.map_append]
    rw [h2] at i1 i2
    refine ⟨by rw [h1, i1], i2, by rw [i3, h3], by rw [i4, h4], ?_⟩
    intro y hy
    rcases List.mem_append.mp hy with hy | hy
    · exact h5 y hy
    · rw [← h3]; exact i5 y hy

/-- The loop of `dijkstra` by reference yields, step by step, what the loop
on contents yields, every step holding the one `distances` object of the
run. -/
theorem dijkstraLoopRef_link (adj : Obj (List Adj)) (fuel : Nat) (st : DRef) :
    (dijkstraLoopRef adj fuel st).map (fun r => (r.1.map Yield.snapshot, r.2.view)) =
      dijkstraLoop adj fuel st.view ∧
    ∀ r, dijkstraLoopRef adj fuel st = some r →
      r.2.distances = st.distances ∧ r.2.previous = st.previous ∧
      ∀ y ∈ r.1, HoldsDist st.distances y := by
  induction fuel generalizing st with
  | zero => exact ⟨rfl, by intro r hr; simp [dijkstraLoopRef] at hr⟩
  | succ fuel ih =>
    unfold dijkstraLoopRef dijkstraLoop
    have hpq : st.view.pq = st.pq := rfl
    rw [hpq]
    cases hs : List.insertionSort (fun a b => a.dist ≤ b.dist) st.pq with
    | nil =>
      refine ⟨rfl, ?_⟩
      intro r hr
      simp only [Option.some.injEq] at hr
      subst hr
      exact ⟨rfl, rfl, by simp⟩
    | cons item rest =>
      simp only
      have hview : (DRef.mk st.heap st.distances st.previous rest st.visited).view =
          DState.mk st.view.distances st.view.previous rest st.view.visited := rfl
      have hd : st.view.distances = st.heap.dist st.distances := rfl
      have hv : st.view.visited = st.visited := rfl
      rw [hd, hv]
      by_cases hst : jsLt (Obj.get (st.heap.dist st.distances) item.id)
          (some (.fin item.dist)) = true
      · simp only [hst, if_true]
        obtain ⟨i1, i2⟩ := ih (DRef.mk st.heap st.distances st.previous rest st.visited)
        exact ⟨i1, i2⟩
      · simp only [hst, Bool.false_eq_true, if_false]
        by_cases hvis : item.id ∈ st.visited
        · simp only [hvis, if_true]
          obtain ⟨i1, i2⟩ := ih (DRef.mk st.heap st.distances st.previous rest st.visited)
          exact ⟨i1, i2⟩
        · simp only [hvis, if_false]
          obtain ⟨h1, h2, h3, h4, h5⟩ := relaxEdgesRef_link item.id
            ((Obj.get adj item.id).getD [])
            (DRef.mk st.heap st.distances st.previous rest (st.visited ++ [item.id]))
          obtain ⟨i1, i2⟩ := ih (relaxEdgesRef item.id ((Obj.get adj item.id).getD [])
            (DRef.mk st.heap st.distances st.previous rest (st.visited ++ [item.id]))).2
          have hview2 : (DRef.mk st.heap st.distances st.previous rest
              (st.visited ++ [item.id])).view =
              DState.mk (st.heap.dist st.distances) st.view.previous rest
                (st.visited ++ [item.id]) := rfl
          rw [h2, hview2] at i1
          rw [hview2] at h1
          rw [← i1]
          cases hr : dijkstraLoopRef adj fuel
              (relaxEdgesRef item.id ((Obj.get adj item.id).getD [])
                (DRef.mk st.heap st.distances st.previous rest
                  (st.visited ++ [item.id]))).2 with
          | none => exact ⟨rfl, by intro r hr2; simp at hr2⟩
          | some r2 =>
            obtain ⟨j1, j2, j3⟩ := i2 r2 hr
            refine ⟨?_, ?_⟩
            · simp only [Option.map_some', List.map_cons, List.map_append, h1, snapshot_refD]
            · intro r hr2
              simp only [Option.some.injEq] at hr2
              subst hr2
              refine ⟨by rw [j1, h3], by rw [j2, h4], ?_⟩
              intro y hy
              rcases List.mem_cons.mp hy with hy | hy
              · subst hy
                exact holdsDist_refD _ _ _ _ _ _
              · rcases List.mem_append.mp hy with hy | hy
                · exact h5 y hy
                · have := j3 y hy
                  rw [h3] at this
                  exact this

theorem initLoop_heap (nodes : List Int) (da pa : Addr) (h : Heap) :
    (nodes.foldl
        (fun h n => (h.setDist da (.num n) Dist.infinity).setPrev pa (.num n) none) h).dist da =
      nodes.foldl (fun d n => Obj.set d (.num n) Dist.infinity) (h.dist da) ∧
    (nodes.foldl
        (fun h n => (h.setDist da (.num n) Dist.infinity).setPrev pa (.num n) none) h).prev pa =
      nodes.foldl (fun p n => Obj.set p (.num n) none) (h.prev pa) := by
  induction nodes generalizing h with
  | nil => exact ⟨rfl, rfl⟩
  | cons n rest ih =>
    simp only [List.foldl_cons]
    obtain ⟨h1, h2⟩ := ih ((h.setDist da (.num n) Dist.infinity).setPrev pa (.num n) none)
    rw [h1, h2, Heap.dist_setPrev, Heap.dist_setDist, Heap.prev_setPrev, Heap.prev_setDist]
    exact ⟨rfl, rfl⟩

/-- The two objects of a run, as its initialisation leaves them, have the
initial contents. -/
theorem initHeap_view (g : Graph) (start : NodeId) :
    (initHeap g start Heap.empty.newDist.1 Heap.empty.newDist.2.newPrev.1
        Heap.empty.newDist.2.newPrev.2).dist Heap.empty.newDist.1 = initDistances g start ∧
    (initHeap g start Heap.empty.newDist.1 Heap.empty.newDist.2.newPrev.1
        Heap.empty.newDist.2.newPrev.2).prev Heap.empty.newDist.2.newPrev.1 =
      initPrevious g := by
  obtain ⟨h1, h2⟩ := initLoop_heap g.nodes Heap.empty.newDist.1 Heap.empty.newDist.2.newPrev.1
    Heap.empty.newDist.2.newPrev.2
  unfold initHeap initDistances initPrevious
  rw [Heap.dist_setDist, Heap.prev_setDist, h1, h2]
  exact ⟨rfl, rfl⟩

/-- Read at the moment each step is yielded, the run of `dijkstra` by
reference is the run of `dijkstra` on contents. -/
theorem dijkstraRef_link (fuel : Nat) (g : Graph) (start : NodeId) :
    (dijkstraRef fuel g start).map (List.map Yield.snapshot) = dijkstra fuel g start := by
  unfold dijkstraRef dijkstra
  by_cases hfound : startFound g start = true
  · simp only [hfound, Bool.not_true, Bool.false_eq_true, if_false]
    obtain ⟨hd, hp⟩ := initHeap_view g start
    obtain ⟨h1, _⟩ := dijkstraLoopRef_link (getAdjacencyList g) fuel
      (DRef.mk (initHeap g start Heap.empty.newDist.1 Heap.empty.newDist.2.newPrev.1
          Heap.empty.newDist.2.newPrev.2)
        Heap.empty.newDist.1 Heap.empty.newDist.2.newPrev.1 [QItem.mk start 0] [])
    have hview : (DRef.mk (initHeap g start Heap.empty.newDist.1 Heap.empty.newDist.2.newPrev.1
          Heap.empty.newDist.2.newPrev.2)
        Heap.empty.newDist.1 Heap.empty.newDist.2.newPrev.1 [QItem.mk start 0] []).view =
        DState.mk (initDistances g start) (initPrevious g) [QItem.mk start 0] [] := by
      simp only [DRef.view, hd, hp]
    rw [hview] at h1
    rw [← h1]
    cases hr : dijkstraLoopRef (getAdjacencyList g) fuel
        (DRef.mk (initHeap g start Heap.empty.newDist.1 Heap.empty.newDist.2.newPrev.1
            Heap.empty.newDist.2.newPrev.2)
          Heap.empty.newDist.1 Heap.empty.newDist.2.newPrev.1 [QItem.mk start 0] []) with
    | none => rfl
    | some r =>
      simp only [Option.map_some', List.map_cons, List.map_append, List.map_nil,
        snapshot_refD, snapshot_refDP, hd]
      rfl
  · have hf : startFound g start = false := by simpa using hfound
    simp only [hf, Bool.not_false, if_true, Option.map_some', List.map_cons, List.map_nil]
    rfl

/-- Every step of a `dijkstra` run from an accepted start holds the one
`distances` object of the run. -/
theorem dijkstraRef_holds (fuel : Nat) (g : Graph) (start : NodeId)
    (hfound : startFound g start = true) (run : List Yield)
    (hrun : dijkstraRef fuel g start = some run) :
    ∀ y ∈ run, HoldsDist Heap.empty.newDist.1 y := by
  unfold dijkstraRef at hrun
  simp only [hfound, Bool.not_true, Bool.false_eq_true, if_false] at hrun
  cases hr : dijkstraLoopRef (getAdjacencyList g) fuel
      (DRef.mk (initHeap g start Heap.empty.newDist.1 Heap.empty.newDist.2.newPrev.1
          Heap.empty.newDist.2.newPrev.2)
        Heap.empty.newDist.1 Heap.empty.newDist.2.newPrev.1 [QItem.mk start 0] []) with
  | none => simp [hr] at hrun
  | some r =>
    obtain ⟨_, h2⟩ := dijkstraLoopRef_link (getAdjacencyList g) fuel
      (DRef.mk (initHeap g start Heap.empty.newDist.1 Heap.empty.newDist.2.newPrev.1
          Heap.empty.newDist.2.newPrev.2)
        Heap.empty.newDist.1 Heap.empty.newDist.2.newPrev.1 [QItem.mk start 0] [])
    obtain ⟨j1, _, j3⟩ := h2 r hr
    simp only [hr, Option.some.injEq] at hrun
    subst hrun
    intro y hy
    rcases List.mem_cons.mp hy with hy | hy
    · subst hy
      exact holdsDist_refD _ _ _ _ _ _
    · rcases List.mem_append.mp hy with hy | hy
      · exact j3 y hy
      · simp only [List.mem_singleton] at hy
        subst hy
        rw [j1]
        exact holdsDist_refDP _ _ _ _ _ _ _

/-! ## The runs of `bellmanFord` and `distanceVector` by reference -/

theorem bfRelaxEdgeRef_link (st : RRef) (e : Edge) :
    (bfRelaxEdgeRef st e).1.map Yield.snapshot = (bfRelaxEdge st.view e).1 ∧
    (bfRelaxEdgeRef st e).2.view = (bfRelaxEdge st.view e).2 ∧
    (bfRelaxEdgeRef st e).2.distances = st.distances ∧
    (bfRelaxEdgeRef st e).2.previous = st.previous ∧
    ∀ y ∈ (bfRelaxEdgeRef st e).1, HoldsDist st.distances y := by
  unfold bfRelaxEdgeRef bfRelaxEdge
  simp only [RRef.view]
  by_cases hc : canRelax (st.heap.dist st.distances) e = true
  · simp only [hc, if_true]
    cases hj : jsAdd (Obj.get (st.heap.dist st.distances) (.num e.from_)) e.weight with
    | none => simp
    | some nd =>
      simp only [List.map_cons, List.map_nil, snapshot_refD, Heap.dist_setPrev,
        Heap.dist_setDist, Heap.prev_setPrev, Heap.prev_setDist, true_and]
      intro y hy
      simp only [List.mem_singleton] at hy
      subst hy
      exact holdsDist_refD _ _ _ _ _ _
  · simp [hc]

theorem bfRelaxAllRef_link (es : List Edge) (st : RRef) :
    (bfRelaxAllRef es st).1.map Yield.snapshot = (bfRelaxAll es st.view).1 ∧
    (bfRelaxAllRef es st).2.view = (bfRelaxAll es st.view).2 ∧
    (bfRelaxAllRef es st).2.distances = st.distances ∧
    (bfRelaxAllRef es st).2.previous = st.previous ∧
    ∀ y ∈ (bfRelaxAllRef es st).1, HoldsDist st.distances y := by
  induction es generalizing st with
  | nil => exact ⟨rfl, rfl, rfl, rfl, by simp [bfRelaxAllRef]⟩
  | cons e rest ih =>
    obtain ⟨h1, h2, h3, h4, h5⟩ := bfRelaxEdgeRef_link st e
    obtain ⟨i1, i2, i3, i4, i5⟩ := ih (bfRelaxEdgeRef st e).2
    simp only [bfRelaxAllRef, bfRelaxAll, List.map_append]
    rw [h2] at i1 i2
    refine ⟨by rw [h1, i1], i2, by rw [i3, h3], by rw [i4, h4], ?_⟩
    intro y hy
    rcases List.mem_append.mp hy with hy | hy
    · exact h5 y hy
    · rw [← h3]; exact i5 y hy

theorem bfRoundsRef_link (g : Graph) (k i : Nat) (st : RRef) :
    (bfRoundsRef g k i st).1.map Yield.snapshot = (bfRounds g k i st.view).1 ∧
    (bfRoundsRef g k i st).2.view = (bfRounds g k i st.view).2 ∧
    (bfRoundsRef g k i st).2.distances = st.distances ∧
    (bfRoundsRef g k i st).2.previous = st.previous ∧
    ∀ y ∈ (bfRoundsRef g k i st).1, HoldsDist st.distances y := by
  induction k generalizing i st with
  | zero => exact ⟨rfl, rfl, rfl, rfl, by simp [bfRoundsRef]⟩
  | succ k ih =>
    obtain ⟨h1, h2, h3, h4, h5⟩ := bfRelaxAllRef_link g.edges
      (RRef.mk st.heap st.distances st.previous false)
    have hview : (RRef.mk st.heap st.distances st.previous false).view =
        RState.mk st.view.distances st.view.previous false := rfl
    rw [hview] at h1 h2
    have hch : (bfRelaxAllRef g.edges (RRef.mk st.heap st.distances st.previous false)).2.changed =
        (bfRelaxAll g.edges (RState.mk st.view.distances st.view.previous false)).2.changed := by
      rw [← h2]; rfl
    have hdist : (bfRelaxAllRef g.edges
        (RRef.mk st.heap st.distances st.previous false)).2.heap.dist st.distances =
        (bfRelaxAll g.edges (RState.mk st.view.distances st.view.previous false)).2.distances := by
      rw [← h2]
      simp only [RRef.view]
      rw [h3]
    unfold bfRoundsRef bfRounds
    simp only [hch]
    by_cases hc : (bfRelaxAll g.edges
        (RState.mk st.view.distances st.view.previous false)).2.changed = true
    · simp only [hc, Bool.not_true, Bool.false_eq_true, if_false]
      obtain ⟨i1, i2, i3, i4, i5⟩ := ih (i + 1)
        (bfRelaxAllRef g.edges (RRef.mk st.heap st.distances st.previous false)).2
      rw [h2] at i1 i2
      refine ⟨?_, i2, by rw [i3, h3], by rw [i4, h4], ?_⟩
      · simp only [List.map_cons, List.map_append, snapshot_refD, h1, i1]
        rfl
      · intro y hy
        rcases List.mem_cons.mp hy with hy | hy
        · subst hy
          exact holdsDist_refD _ _ _ _ _ _
        · rcases List.mem_append.mp hy with hy | hy
          · exact h5 y hy
          · have := i5 y hy
            rw [h3] at this
            exact this
    · have hc2 : (bfRelaxAll g.edges
          (RState.mk st.view.distances st.view.previous false)).2.changed = false := by
        simpa using hc
      simp only [hc2, Bool.not_false, if_true]
      refine ⟨?_, h2, h3, h4, ?_⟩
      · simp only [List.map_cons, List.map_append, List.map_nil, snapshot_refD, h1, h3, hdist]
        rfl
      · intro y hy
        rcases List.mem_cons.mp hy with hy | hy
        · subst hy
          exact holdsDist_refD _ _ _ _ _ _
        · rcases List.mem_append.mp hy with hy | hy
          · exact h5 y hy
          · simp only [List.mem_singleton] at hy
            subst hy
            rw [h3]
            exact holdsDist_refD _ _ _ _ _ _

theorem bfCheckRef_link (g : Graph) (st : RRef) :
    (bfCheckRef g st).map Yield.snapshot = bfCheck g st.view ∧
    ∀ y ∈ bfCheckRef g st, HoldsDist st.distances y := by
  unfold bfCheckRef bfCheck
  have hd : st.view.distances = st.heap.dist st.distances := rfl
  rw [hd]
  cases hf : g.edges.find? (canRelax (st.heap.dist st.distances)) with
  | none =>
    refine ⟨rfl, ?_⟩
    intro y hy
    simp only [List.mem_singleton] at hy
    subst hy
    exact holdsDist_refDP _ _ _ _ _ _ _
  | some e =>
    refine ⟨rfl, ?_⟩
    intro y hy
    simp only [List.mem_singleton] at hy
    subst hy
    exact holdsDist_refD _ _ _ _ _ _

/-- Read at the moment each step is yielded, the run of `bellmanFord` by
reference is the run of `bellmanFord` on contents; from an accepted start,
every step holds the one `distances` object of the run. -/
theorem bellmanFordRef_link (g : Graph) (start : NodeId) :
    (bellmanFordRef g start).map Yield.snapshot = bellmanFord g start ∧
    (startFound g start = true →
      ∀ y ∈ bellmanFordRef g start, HoldsDist Heap.empty.newDist.1 y) := by
  unfold bellmanFordRef bellmanFord
  by_cases hfound : startFound g start = true
  · simp only [hfound, Bool.not_true, Bool.false_eq_true, if_false]
    obtain ⟨hd, hp⟩ := initHeap_view g start
    obtain ⟨h1, h2, h3, h4, h5⟩ := bfRoundsRef_link g (g.nodes.length - 1) 0
      (RRef.mk (initHeap g start Heap.empty.newDist.1 Heap.empty.newDist.2.newPrev.1
          Heap.empty.newDist.2.newPrev.2)
        Heap.empty.newDist.1 Heap.empty.newDist.2.newPrev.1 false)
    obtain ⟨c1, c2⟩ := bfCheckRef_link g (bfRoundsRef g (g.nodes.length - 1) 0
      (RRef.mk (initHeap g start Heap.empty.newDist.1 Heap.empty.newDist.2.newPrev.1
          Heap.empty.newDist.2.newPrev.2)
        Heap.empty.newDist.1 Heap.empty.newDist.2.newPrev.1 false)).2
    have hview : (RRef.mk (initHeap g start Heap.empty.newDist.1
          Heap.empty.newDist.2.newPrev.1 Heap.empty.newDist.2.newPrev.2)
        Heap.empty.newDist.1 Heap.empty.newDist.2.newPrev.1 false).view =
        RState.mk (initDistances g start) (initPrevious g) false := by
      simp only [RRef.view, hd, hp]
    rw [hview] at h1 h2
    rw [h2] at c1
    refine ⟨?_, ?_⟩
    · simp only [List.map_cons, List.map_append, snapshot_refD, h1, c1, hd]
    · intro _ y hy
      rcases List.mem_cons.mp hy with hy | hy
      · subst hy
        exact holdsDist_refD _ _ _ _ _ _
      · rcases List.mem_append.mp hy with hy | hy
        · exact h5 y hy
        · have := c2 y hy
          rw [h3] at this
          exact this
  · have hf : startFound g start = false := by simpa using hfound
    simp only [hf, Bool.not_false, if_true, List.map_cons, List.map_nil]
    exact ⟨rfl, fun h => absurd h (by simp)⟩

theorem dvRelaxEdgeRef_link (st : RRef) (e : Edge) :
    (dvRelaxEdgeRef st e).1.map Yield.snapshot = (dvRelaxEdge st.view e).1 ∧
    (dvRelaxEdgeRef st e).2.view = (dvRelaxEdge st.view e).2 ∧
    (dvRelaxEdgeRef st e).2.distances = st.distances ∧
    (dvRelaxEdgeRef st e).2.previous = st.previous ∧
    ∀ y ∈ (dvRelaxEdgeRef st e).1, HoldsDist st.distances y := by
  unfold dvRelaxEdgeRef dvRelaxEdge
  simp only [RRef.view]
  by_cases hc : canRelax (st.heap.dist st.distances) e = true
  · simp only [hc, if_true]
    cases hj : jsAdd (Obj.get (st.heap.dist st.distances) (.num e.from_)) e.weight with
    | none => simp
    | some nd =>
      simp only [List.map_cons, List.map_nil, snapshot_refD, Heap.dist_setPrev,
        Heap.dist_setDist, Heap.prev_setPrev, Heap.prev_setDist, true_and]
      intro y hy
      simp only [List.mem_singleton] at hy
      subst hy
      exact holdsDist_refD _ _ _ _ _ _
  · simp [hc]

theorem dvRelaxAllRef_link (es : List Edge) (st : RRef) :
    (dvRelaxAllRef es st).1.map Yield.snapshot = (dvRelaxAll es st.view).1 ∧
    (dvRelaxAllRef es st).2.view = (dvRelaxAll es st.view).2 ∧
    (dvRelaxAllRef es st).2.distances = st.distances ∧
    (dvRelaxAllRef es st).2.previous = st.previous ∧
    ∀ y ∈ (dvRelaxAllRef es st).1, HoldsDist st.distances y := by
  induction es generalizing st with
  | nil => exact ⟨rfl, rfl, rfl, rfl, by simp [dvRelaxAllRef]⟩
  | cons e rest ih =>
    obtain ⟨h1, h2, h3, h4, h5⟩ := dvRelaxEdgeRef_link st e
    obtain ⟨i1, i2, i3, i4, i5⟩ := ih (dvRelaxEdgeRef st e).2
    simp only [dvRelaxAllRef, dvRelaxAll, List.map_append]
    rw [h2] at i1 i2
    refine ⟨by rw [h1, i1], i2, by rw [i3, h3], by rw [i4, h4], ?_⟩
    intro y hy
    rcases List.mem_append.mp hy with hy | hy
    · exact h5 y hy
    · rw [← h3]; exact i5 y hy

theorem dvRoundsRef_link (g : Graph) (k i : Nat) (st : RRef) :
    (dvRoundsRef g k i st).1.map Yield.snapshot = (dvRounds g k i st.view).1 ∧
    (dvRoundsRef g k i st).2.view = (dvRounds g k i st.view).2 ∧
    (dvRoundsRef g k i st).2.distances = st.distances ∧
    (dvRoundsRef g k i st).2.previous = st.previous ∧
    ∀ y ∈ (dvRoundsRef g k i st).1, HoldsDist st.distances y := by
  induction k generalizing i st with
  | zero => exact ⟨rfl, rfl, rfl, rfl, by simp [dvRoundsRef]⟩
  | succ k ih =>
    obtain ⟨h1, h2, h3, h4, h5⟩ := dvRelaxAllRef_link g.edges
      (RRef.mk st.heap st.distances st.previous false)
    have hview : (RRef.mk st.heap st.distances st.previous false).view =
        RState.mk st.view.distances st.view.previous false := rfl
    rw [hview] at h1 h2
    have hch : (dvRelaxAllRef g.edges (RRef.mk st.heap st.distances st.previous false)).2.changed =
        (dvRelaxAll g.edges (RState.mk st.view.distances st.view.previous false)).2.changed := by
      rw [← h2]; rfl
    have hdist : (dvRelaxAllRef g.edges
        (RRef.mk st.heap st.distances st.previous false)).2.heap.dist st.distances =
        (dvRelaxAll g.edges (RState.mk st.view.distances st.view.previous false)).2.distances := by
      rw [← h2]
      simp only [RRef.view]
      rw [h3]
    unfold dvRoundsRef dvRounds
    simp only [hch]
    by_cases hc : (dvRelaxAll g.edges
        (RState.mk st.view.distances st.view.previous false)).2.changed = true
    · simp only [hc, Bool.not_true, Bool.false_eq_true, if_false]
      obtain ⟨i1, i2, i3, i4, i5⟩ := ih (i + 1)
        (dvRelaxAllRef g.edges (RRef.mk st.heap st.distances st.previous false)).2
      rw [h2] at i1 i2
      refine ⟨?_, i2, by rw [i3, h3], by rw [i4, h4], ?_⟩
      · simp only [List.map_cons, List.map_append, snapshot_refD, h1, i1]
        rfl
      · intro y hy
        rcases List.mem_cons.mp hy with hy | hy
        · subst hy
          exact holdsDist_refD _ _ _ _ _ _
        · rcases List.mem_append.mp hy with hy | hy
          · exact h5 y hy
          · have := i5 y hy
            rw [h3] at this
            exact this
    · have hc2 : (dvRelaxAll g.edges
          (RState.mk st.view.distances st.view.previous false)).2.changed = false := by
        simpa using hc
      simp only [hc2, Bool.not_false, if_true]
      refine ⟨?_, h2, h3, h4, ?_⟩
      · simp only [List.map_cons, List.map_append, List.map_nil, snapshot_refD, h1, h3, hdist]
        rfl
      · intro y hy
        rcases List.mem_cons.mp hy with hy | hy
        · subst hy
          exact holdsDist_refD _ _ _ _ _ _
        · rcases List.mem_append.mp hy with hy | hy
          · exact h5 y hy
          · simp only [List.mem_singleton] at hy
            subst hy
            rw [h3]
            exact holdsDist_refD _ _ _ _ _ _

/-- Read at the moment each step is yielded, the run of `distanceVector` by
reference is the run of `distanceVector` on contents; from an accepted start,
every step holds the one `distances` object of the run. -/
theorem distanceVectorRef_link (g : Graph) (start : NodeId) :
    (distanceVectorRef g start).map Yield.snapshot = distanceVector g start ∧
    (startFound g start = true →
      ∀ y ∈ distanceVectorRef g start, HoldsDist Heap.empty.newDist.1 y) := by
  unfold distanceVectorRef distanceVector
  by_cases hfound : startFound g start = true
  · simp only [hfound, Bool.not_true, Bool.false_eq_true, if_false]
    obtain ⟨hd, hp⟩ := initHeap_view g start
    obtain ⟨h1, h2, h3, h4, h5⟩ := dvRoundsRef_link g (g.nodes.length - 1) 0
      (RRef.mk (initHeap g start Heap.empty.newDist.1 Heap.empty.newDist.2.newPrev.1
          Heap.empty.newDist.2.newPrev.2)
        Heap.empty.newDist.1 Heap.empty.newDist.2.newPrev.1 false)
    have hview : (RRef.mk (initHeap g start Heap.empty.newDist.1
          Heap.empty.newDist.2.newPrev.1 Heap.empty.newDist.2.newPrev.2)
        Heap.empty.newDist.1 Heap.empty.newDist.2.newPrev.1 false).view =
        RState.mk (initDistances g start) (initPrevious g) false := by
      simp only [RRef.view, hd, hp]
    rw [hview] at h1 h2
    refine ⟨?_, ?_⟩
    · simp only [List.map_cons, List.map_append, List.map_nil, snapshot_refD, snapshot_refDP,
        h1, hd]
      rw [← h2]
      rfl
    · intro _ y hy
      rcases List.mem_cons.mp hy with hy | hy
      · subst hy
        exact holdsDist_refD _ _ _ _ _ _
      · rcases List.mem_append.mp hy with hy | hy
        · exact h5 y hy
        · simp only [List.mem_singleton] at hy
          subst hy
          rw [h3]
          exact holdsDist_refDP _ _ _ _ _ _ _
  · have hf : startFound g start = false := by simpa using hfound
    simp only [hf, Bool.not_false, if_true, List.map_cons, List.map_nil]
    exact ⟨rfl, fun h => absurd h (by simp)⟩

/-! ## Steps share the live distances object -/

/-- A run whose steps all hold the same `distances` object, and whose steps
show distances that never increase, is live: an earlier step read later shows
the distances of the step pulled last. -/
theorem liveRun_of_holds {g : Graph} {a : Addr} {run : List Yield} {d0 d1 : Obj Dist}
    (hall : ∀ y ∈ run, HoldsDist a y) (htr : TraceMono g d0 (run.map Yield.snapshot) d1) :
    LiveRun g run := by
  obtain ⟨_, hcar, hpair⟩ := htr
  intro i j x y hij hi hj
  have hread := readAt_eq_of_holds hall hi hj
  refine ⟨hread, ?_⟩
  intro v hv
  rw [hread v]
  have hi2 : (run.map Yield.snapshot)[i]? = some x.snapshot := by
    rw [List.getElem?_map, hi]; rfl
  have hj2 : (run.map Yield.snapshot)[j]? = some y.snapshot := by
    rw [List.getElem?_map, hj]; rfl
  rcases Nat.lt_or_eq_of_le hij with hlt | heq
  · obtain ⟨hi3, hia⟩ := List.getElem?_eq_some.mp hi2
    obtain ⟨hj3, hjb⟩ := List.getElem?_eq_some.mp hj2
    have := (List.pairwise_iff_getElem.mp hpair) i j hi3 hj3 hlt
    rw [hia, hjb] at this
    exact this v hv
  · subst heq
    rw [hi] at hj
    simp only [Option.some.injEq] at hj
    subst hj
    obtain ⟨d, hc, hle, _⟩ := hcar x.snapshot (List.getElem?_mem hi2)
    exact stepLe_self_of_carries hc hle v hv

/-! ## Unknown start node (C4) -/

/-- C4, as the code has it by design: for a start id that is not among the
node ids, and from which `parseInt` does not read a node id either,
`dijkstra`, `bellmanFord` and `distanceVector` yield exactly one step, of kind
`error` with message "Start node <id> not found.", and `linkState` yields its
`info` step followed by that one `error` step.  Start ids that are not node
ids but from which `parseInt` reads one are left aside. -/
theorem unknown_start_error_step (g : Graph) (start : NodeId) (fuel : Nat)
    (hnot : ∀ n ∈ g.nodes, start.key ≠ NodeId.num n)
    (hparse : ∀ n, parseInt start = some n → n ∉ g.nodes) :
    (notFoundStep start).type = Kind.error ∧
    (notFoundStep start).message = "Start node " ++ start.toStr ++ " not found." ∧
    dijkstra fuel g start = some [notFoundStep start] ∧
    bellmanFord g start = [notFoundStep start] ∧
    distanceVector g start = [notFoundStep start] ∧
    linkStateInfoStep.type = Kind.info ∧
    linkState fuel g start = some [linkStateInfoStep, notFoundStep start] := by
  have h : startFound g start = false := by
    unfold startFound
    cases start with
    | num n =>
      have hn : n ∉ g.nodes := fun hmem => hnot n hmem rfl
      simp [parseInt, hn]
    | str t =>
      cases hp : parseInt (.str t) with
      | none => simp
      | some n => simp [hparse n hp]
  refine ⟨rfl, rfl, ?_, ?_, ?_, rfl, ?_⟩
  · simp [dijkstra, h]
  · simp [bellmanFord, h]
  · simp [distanceVector, h]
  · simp [linkState, dijkstra, h]

/-- Witness for C4: start id 9 on the sample graph. -/
theorem unknown_start_error_step_witness :
    (∀ n ∈ sampleGraph.nodes, (NodeId.num 9).key ≠ NodeId.num n) ∧
    (∀ n, parseInt (.num 9) = some n → n ∉ sampleGraph.nodes) ∧
    dijkstra 0 sampleGraph (.num 9) = some [notFoundStep (.num 9)] :=
  ⟨by decide, by intro n hn; cases hn; decide,
    (unknown_start_error_step sampleGraph (.num 9) 0 (by decide)
      (by intro n hn; cases hn; decide)).2.2.1⟩

/-- C4 fails as stated, in two ways.  Start id 9 is not a node id of the
sample graph, and `linkState` yields two steps, its `info` step and then the
`error` step.  The start id "1abc" is not a node id of the sample graph
either (no node has its key), yet the start test reads the node id 1 from it
with `parseInt` and lets it pass: `dijkstra` yields no `error` step but runs
from a node "1abc" that the graph does not have, and ends with `finished`. -/
theorem unknown_start_not_single_error :
    ((9 : Int) ∉ sampleGraph.nodes ∧
      (linkState 0 sampleGraph (.num 9)).map (fun steps => steps.map (fun s => s.type)) =
        some [Kind.info, Kind.error]) ∧
    ((∀ n ∈ sampleGraph.nodes, (NodeId.str "1abc").key ≠ NodeId.num n) ∧
      parseInt (.str "1abc") = some 1 ∧
      (dijkstra 16 sampleGraph (.str "1abc")).map
          (fun steps => steps.map (fun s => (s.type, s.highlightNodes))) =
        some [(Kind.init, [.str "1abc"]), (Kind.visit, [.str "1abc"]), (Kind.finished, [])]) := by
  refine ⟨⟨by decide, by decide⟩, ⟨by decide, by decide, by decide⟩⟩

/-! ## Link state delegates to Dijkstra (C5) -/

/-- C5: for every graph and start id, `linkState` yields exactly one leading
`info` step followed by the whole step sequence of `dijkstra` on the same
input, which exists once the loop bound covers the run. -/
theorem linkState_eq_info_then_dijkstra (g : Graph) (start : NodeId) (fuel : Nat)
    (hf : 2 * g.edges.length + 2 ≤ fuel) :
    linkStateInfoStep.type = Kind.info ∧
    ∃ steps, dijkstra fuel g start = some steps ∧
      linkState fuel g start = some (linkStateInfoStep :: steps) := by
  obtain ⟨steps, hd⟩ := dijkstra_returns g start fuel hf
  refine ⟨rfl, steps, hd, ?_⟩
  simp only [linkState, hd]

/-- Witness for C5: the sample graph from node 1. -/
theorem linkState_eq_info_then_dijkstra_witness :
    2 * sampleGraph.edges.length + 2 ≤ 16 ∧
    linkStateInfoStep.type = Kind.info ∧
    ∃ steps, dijkstra 16 sampleGraph (.num 1) = some steps ∧
      linkState 16 sampleGraph (.num 1) = some (linkStateInfoStep :: steps) :=
  ⟨by decide, linkState_eq_info_then_dijkstra sampleGraph (.num 1) 16 (by decide)⟩

/-! ## The sample graph (C6) -/

/-- C6: on the default sample graph from start node 1, the last step of
`dijkstra` is the `finished` step with distances {1:0, 2:4, 3:2, 4:9, 5:11}
and previous {1:none, 2:1, 3:1, 4:2, 5:4}. -/
theorem dijkstra_sampleGraph_finished :
    (dijkstra 16 sampleGraph (.num 1)).bind List.getLast? =
      some (createStep .finished
        (dataDP
          [(.num 1, .fin 0), (.num 2, .fin 4), (.num 3, .fin 2), (.num 4, .fin 9),
            (.num 5, .fin 11)]
          [(.num 1, none), (.num 2, some (.num 1)), (.num 3, some (.num 1)),
            (.num 4, some (.num 2)), (.num 5, some (.num 4))])
        "Dijkstra completed." [] []) := by
  decide

/-! ## Bellman-Ford distances at `finished` (C2) -/

theorem bf_final_maps (g : Graph) (start : NodeId) (s : Int) (hkey : start.key = .num s)
    (hs : s ∈ g.nodes) :
    MapsOk g s
      (bfRounds g (g.nodes.length - 1) 0
        (RState.mk (initDistances g start) (initPrevious g) false)).2.distances
      (bfRounds g (g.nodes.length - 1) 0
        (RState.mk (initDistances g start) (initPrevious g) false)).2.previous :=
  (bfRounds_spec (g.nodes.length - 1) 0
    (RState.mk (initDistances g start) (initPrevious g) false)
    (MapsOk.init g start s hkey hs)).1

theorem getLast?_cons_append_singleton (a : Step) (l : List Step) (b : Step) :
    (a :: (l ++ [b])).getLast? = some b := by
  have : a :: (l ++ [b]) = (a :: l) ++ [b] := rfl
  rw [this, List.getLast?_append]
  simp

/-- The walks of `largeSumGraph` from node 1. -/
theorem largeSumGraph_walk {a v c : Int} (h : Walk largeSumGraph a v c) (ha : a = 1) :
    (v = 1 ∧ c = 0) ∨ (v = 2 ∧ c = 9007199254740992) ∨ (v = 3 ∧ c = 9007199254740993) := by
  induction h with
  | nil => exact Or.inl ⟨ha, rfl⟩
  | @snoc b c e _ he hf ih =>
    simp only [largeSumGraph, List.mem_cons, List.mem_singleton, List.not_mem_nil,
      or_false] at he
    rcases he with he | he
    · subst he
      have hb : (1 : Int) = b := hf
      rcases ih with ⟨h1, h2⟩ | ⟨h1, h2⟩ | ⟨h1, h2⟩
      · refine Or.inr (Or.inl ⟨rfl, ?_⟩)
        show c + 9007199254740992 = 9007199254740992
        omega
      · omega
      · omega
    · subst he
      have hb : (2 : Int) = b := hf
      rcases ih with ⟨h1, h2⟩ | ⟨h1, h2⟩ | ⟨h1, h2⟩
      · omega
      · refine Or.inr (Or.inr ⟨rfl, ?_⟩)
        show c + 1 = 9007199254740993
        omega
      · omega

/-- In `largeSumGraph` the shortest-path cost from node 1 to node 3 is
2^53 + 1, and not 2^53. -/
theorem largeSumGraph_cost :
    ShortestCost largeSumGraph 1 3 (.fin 9007199254740993) ∧
    ¬ ShortestCost largeSumGraph 1 3 (.fin 9007199254740992) := by
  have hw : Walk largeSumGraph 1 3 9007199254740993 :=
    Walk.step (Edge.mk "2-3" 2 3 1)
      (Walk.step (Edge.mk "1-2" 1 2 9007199254740992) (Walk.nil 1) (by decide) rfl rfl rfl)
      (by decide) rfl rfl (by decide)
  constructor
  · refine ⟨hw, ?_⟩
    intro c hc
    rcases largeSumGraph_walk hc rfl with ⟨h1, h2⟩ | ⟨h1, h2⟩ | ⟨h1, h2⟩ <;> omega
  · rintro ⟨h, _⟩
    rcases largeSumGraph_walk h rfl with ⟨h1, h2⟩ | ⟨h1, h2⟩ | ⟨h1, h2⟩ <;> omega

/-- C2, as the code has it: for a well-formed graph with integer weights of
any sign such that the number of nodes times the sum of the absolute values of
the weights is at most 2^53 (no sum of the run is rounded then), and a start
id denoting one of its nodes, whenever the last step of `bellmanFord` is a
`finished` step, the distances it carries are, for every node, the true
shortest-path cost from the start (`Infinity` for an unreachable node). -/
theorem bellmanFord_finished_shortest (g : Graph) (start : NodeId) (s : Int)
    (hwf : WellFormed g) (hsum : g.nodes.length * totalWeight g ≤ 2 ^ 53)
    (hkey : start.key = .num s) (hs : s ∈ g.nodes) (last : Step)
    (hlast : (bellmanFord g start).getLast? = some last) (hfin : last.type = .finished) :
    ∃ distances previous, last.data = dataDP distances previous ∧
      ∀ v ∈ g.nodes, ∃ d, Obj.get distances (.num v) = some d ∧ ShortestCost g s v d := by
  have hmaps := bf_final_maps g start s hkey hs
  obtain ⟨hex, hb, hle⟩ := @bf_final_safe g start s hkey hs hsum
  rw [bellmanFord_found g start (startFound_of_key hkey hs)] at hlast
  rcases bfCheck_cases g (bfRounds g (g.nodes.length - 1) 0
      (RState.mk (initDistances g start) (initPrevious g) false)).2 with
    ⟨hfix, hc⟩ | ⟨e, _, _, hc⟩
  · rw [hc, getLast?_cons_append_singleton] at hlast
    simp only [Option.some.injEq] at hlast
    subst hlast
    exact ⟨_, _, rfl, fun v hv => fixpoint_shortest hwf hmaps hex hb hle hfix v hv⟩
  · rw [hc, getLast?_cons_append_singleton] at hlast
    simp only [Option.some.injEq] at hlast
    subst hlast
    simp [createStep] at hfin

/-- Witness for C2: the sample graph from node 1. -/
theorem bellmanFord_finished_shortest_witness :
    WellFormed sampleGraph ∧ sampleGraph.nodes.length * totalWeight sampleGraph ≤ 2 ^ 53 ∧
    (bellmanFord sampleGraph (.num 1)).getLast? =
      some (createStep .finished
        (dataDP
          [(.num 1, .fin 0), (.num 2, .fin 4), (.num 3, .fin 2), (.num 4, .fin 9),
            (.num 5, .fin 11)]
          [(.num 1, none), (.num 2, some (.num 1)), (.num 3, some (.num 1)),
            (.num 4, some (.num 2)), (.num 5, some (.num 4))])
        "Bellman-Ford completed." [] []) ∧
    ∃ distances previous,
      (createStep .finished
        (dataDP
          [(.num 1, .fin 0), (.num 2, .fin 4), (.num 3, .fin 2), (.num 4, .fin 9),
            (.num 5, .fin 11)]
          [(.num 1, none), (.num 2, some (.num 1)), (.num 3, some (.num 1)),
            (.num 4, some (.num 2)), (.num 5, some (.num 4))])
        "Bellman-Ford completed." [] []).data = dataDP distances previous ∧
      ∀ v ∈ sampleGraph.nodes, ∃ d, Obj.get distances (.num v) = some d ∧
        ShortestCost sampleGraph 1 v d :=
  ⟨by unfold WellFormed; decide, by decide, by decide,
    bellmanFord_finished_shortest sampleGraph (.num 1) 1 (by unfold WellFormed; decide)
      (by decide) rfl (by decide) _ (by decide) rfl⟩

/-- C2 fails as stated: on the path 1 -> 2 -> 3 with the weights 2^53 and 1,
`bellmanFord` from node 1 ends with a `finished` step that carries the
distance 2^53 for node 3 (the sum 2^53 + 1 is rounded to the nearest double),
while the shortest-path cost from node 1 to node 3 is 2^53 + 1. -/
theorem bellmanFord_rounds_large_sum :
    WellFormed largeSumGraph ∧ (1 : Int) ∈ largeSumGraph.nodes ∧
    ((bellmanFord largeSumGraph (.num 1)).getLast?).map (fun a => (a.type, stepDist a 3)) =
      some (Kind.finished, some (Dist.fin 9007199254740992)) ∧
    ShortestCost largeSumGraph 1 3 (.fin 9007199254740993) ∧
    ¬ ShortestCost largeSumGraph 1 3 (.fin 9007199254740992) :=
  ⟨by unfold WellFormed; decide, by decide, by decide, largeSumGraph_cost.1,
    largeSumGraph_cost.2⟩

/-! ## Negative cycles (C3) -/

/-- C3, as the code has it: for a well-formed graph with a negative-weight
directed cycle that is reachable from the start node, and such that the number
of nodes times the sum of the absolute values of the weights is at most 2^53
(no sum of the run is rounded then), `bellmanFord` ends with an `error` step
with message "Negative weight cycle detected!", that step is the only `error`
step, and no `finished` step is yielded. -/
theorem bellmanFord_reachable_negative_cycle (g : Graph) (start : NodeId) (s : Int)
    (hwf : WellFormed g) (hsum : g.nodes.length * totalWeight g ≤ 2 ^ 53)
    (hkey : start.key = .num s) (hs : s ∈ g.nodes)
    (v a c : Int) (hreach : Walk g s v a) (hcycle : Walk g v v c) (hneg : c < 0) :
    ∃ pre err, bellmanFord g start = pre ++ [err] ∧ err.type = .error ∧
      err.message = "Negative weight cycle detected!" ∧
      ∀ b ∈ pre, b.type ≠ .error ∧ b.type ≠ .finished := by
  have hmaps := bf_final_maps g start s hkey hs
  obtain ⟨_, hb, hle⟩ := @bf_final_safe g start s hkey hs hsum
  have hrounds := (bfRounds_spec (g.nodes.length - 1) 0
    (RState.mk (initDistances g start) (initPrevious g) false)
    (MapsOk.init g start s hkey hs)).2.2.1
  rw [bellmanFord_found g start (startFound_of_key hkey hs)]
  rcases bfCheck_cases g (bfRounds g (g.nodes.length - 1) 0
      (RState.mk (initDistances g start) (initPrevious g) false)).2 with
    ⟨hfix, _⟩ | ⟨e, _, _, hc⟩
  · have := fixpoint_no_negative_cycle hwf hmaps hb hle hfix hreach hcycle
    omega
  · rw [hc]
    refine ⟨_ :: _, _, rfl, rfl, rfl, ?_⟩
    intro b hb
    rcases List.mem_cons.mp hb with hb | hb
    · subst hb
      exact ⟨by simp [createStep], by simp [createStep]⟩
    · rcases hrounds b hb with h | h | h <;> rw [h] <;> exact ⟨by decide, by decide⟩

/-- Witness for C3: the cycle 1 -> 2 -> 1 of weight -4, from node 1. -/
theorem bellmanFord_reachable_negative_cycle_witness :
    WellFormed negativeCycleGraph ∧
    negativeCycleGraph.nodes.length * totalWeight negativeCycleGraph ≤ 2 ^ 53 ∧
    Walk negativeCycleGraph 1 1 0 ∧ Walk negativeCycleGraph 1 1 (-4) ∧
    ∃ pre err, bellmanFord negativeCycleGraph (.num 1) = pre ++ [err] ∧ err.type = .error ∧
      err.message = "Negative weight cycle detected!" ∧
      ∀ b ∈ pre, b.type ≠ .error ∧ b.type ≠ .finished :=
  have hcyc : Walk negativeCycleGraph 1 1 (-4) :=
    Walk.step (Edge.mk "2-1" 2 1 (-5))
      (Walk.step (Edge.mk "1-2" 1 2 1) (Walk.nil 1) (by decide) rfl rfl rfl)
      (by decide) rfl rfl (by decide)
  ⟨by unfold WellFormed; decide, by decide, Walk.nil 1, hcyc,
    bellmanFord_reachable_negative_cycle negativeCycleGraph (.num 1) 1
      (by unfold WellFormed; decide) (by decide) rfl (by decide) 1 0 (-4) (Walk.nil 1) hcyc
      (by decide)⟩

/-- The cycle of `roundedCycleGraph` through node 1 weighs -1. -/
theorem roundedCycleGraph_cycle : Walk roundedCycleGraph 1 1 (-1) :=
  Walk.step (Edge.mk "2-1" 2 1 9007199254740991)
    (Walk.step (Edge.mk "1-2" 1 2 (-9007199254740992)) (Walk.nil 1) (by decide) rfl rfl rfl)
    (by decide) rfl rfl (by decide)

/-- C3 fails as stated, in two ways.  The first graph has the negative cycle
2 -> 3 -> 2, which node 1 does not reach, and `bellmanFord` from node 1 yields
no `error` step but ends with `finished`.  The second graph has the cycle
1 -> 2 -> 1 of weight -1 with the weights -2^53 and 2^53 - 1: the sum
-1 + -2^53 of the closing pass is rounded to -2^53, no edge passes the test,
and `bellmanFord` from node 1 ends with `finished` as well. -/
theorem bellmanFord_negative_cycle_finishes :
    (WellFormed unreachableCycleGraph ∧ (1 : Int) ∈ unreachableCycleGraph.nodes ∧
      (∃ v c, Walk unreachableCycleGraph v v c ∧ c < 0) ∧
      (bellmanFord unreachableCycleGraph (.num 1)).map (fun a => a.type) =
        [Kind.init, Kind.iteration, Kind.info, Kind.finished]) ∧
    (WellFormed roundedCycleGraph ∧ (1 : Int) ∈ roundedCycleGraph.nodes ∧
      (∃ c, Walk roundedCycleGraph 1 1 c ∧ c < 0) ∧
      (bellmanFord roundedCycleGraph (.num 1)).map (fun a => a.type) =
        [Kind.init, Kind.iteration, Kind.update, Kind.update, Kind.finished]) := by
  have hcyc : Walk unreachableCycleGraph 2 2 (-2) :=
    Walk.step (Edge.mk "3-2" 3 2 (-1))
      (Walk.step (Edge.mk "2-3" 2 3 (-1)) (Walk.nil 2) (by decide) rfl rfl rfl)
      (by decide) rfl rfl (by decide)
  exact ⟨⟨by unfold WellFormed; decide, by decide, ⟨2, -2, hcyc, by decide⟩, by decide⟩,
    ⟨by unfold WellFormed; decide, by decide, ⟨-1, roundedCycleGraph_cycle, by decide⟩,
      by decide⟩⟩

/-! ## Early stop (C8) -/

/-- C8: when the graph has at least two nodes and no edge passes the
relaxation test on the initial distances, `bellmanFord` and `distanceVector`
each yield exactly init, iteration, info, finished: one round only, fewer than
N-1 rounds when N is at least 3. -/
theorem early_stop_after_first_round (g : Graph) (start : NodeId) (s : Int)
    (hkey : start.key = .num s) (hs : s ∈ g.nodes) (hn : 2 ≤ g.nodes.length)
    (hno : ∀ e ∈ g.edges, canRelax (initDistances g start) e = false) :
    (bellmanFord g start).map (fun a => a.type) =
      [Kind.init, Kind.iteration, Kind.info, Kind.finished] ∧
    (distanceVector g start).map (fun a => a.type) =
      [Kind.init, Kind.iteration, Kind.info, Kind.finished] ∧
    (3 ≤ g.nodes.length → countKind .iteration (bellmanFord g start) < g.nodes.length - 1 ∧
      countKind .iteration (distanceVector g start) < g.nodes.length - 1) := by
  have hfound := startFound_of_key hkey hs
  obtain ⟨k, hk⟩ : ∃ k, g.nodes.length - 1 = k + 1 := ⟨g.nodes.length - 2, by omega⟩
  have hall := bfRelaxAll_of_fixed g.edges
    (RState.mk (initDistances g start) (initPrevious g) false) hno
  have hr : bfRounds g (k + 1) 0 (RState.mk (initDistances g start) (initPrevious g) false) =
      ([createStep .iteration (dataD (initDistances g start))
          ("Iteration " ++ toString (0 + 1) ++ "/" ++ toString (g.nodes.length - 1)) [] [],
        createStep .info (dataD (initDistances g start))
          "No changes in this iteration, stopping early." [] []],
        RState.mk (initDistances g start) (initPrevious g) false) := by
    unfold bfRounds
    simp [hall]
  have hbf : (bellmanFord g start).map (fun a => a.type) =
      [Kind.init, Kind.iteration, Kind.info, Kind.finished] := by
    rw [bellmanFord_found g start hfound, hk, hr]
    rcases bfCheck_cases g (RState.mk (initDistances g start) (initPrevious g) false) with
      ⟨_, hc⟩ | ⟨e, he, hc, _⟩
    · rw [hc]; rfl
    · rw [hno e he] at hc
      simp at hc
  have hdv : (distanceVector g start).map (fun a => a.type) =
      [Kind.init, Kind.iteration, Kind.info, Kind.finished] := by
    rw [distanceVector_found g start hfound]
    have h2 := map_type_of_erase (dvRounds_eq g (g.nodes.length - 1) 0
      (RState.mk (initDistances g start) (initPrevious g) false)).2
    rw [List.map_cons, List.map_append, h2, hk, hr]
    rfl
  refine ⟨hbf, hdv, ?_⟩
  intro h3
  have hcount : ∀ l : List Step, l.map (fun a => a.type) =
      [Kind.init, Kind.iteration, Kind.info, Kind.finished] →
      countKind .iteration l = 1 := by
    intro l hl
    unfold countKind
    have : (l.filter (fun a => decide (a.type = Kind.iteration))).length =
        ((l.map (fun a => a.type)).filter (fun t => decide (t = Kind.iteration))).length := by
      rw [List.filter_map, List.length_map]
      rfl
    rw [this, hl]
    rfl
  rw [hcount _ hbf, hcount _ hdv]
  omega

/-- Witness for C8: the graph whose only edges lie on a cycle away from the
start node 1. -/
theorem early_stop_after_first_round_witness :
    (2 ≤ unreachableCycleGraph.nodes.length) ∧
    (∀ e ∈ unreachableCycleGraph.edges,
      canRelax (initDistances unreachableCycleGraph (.num 1)) e = false) ∧
    (bellmanFord unreachableCycleGraph (.num 1)).map (fun a => a.type) =
      [Kind.init, Kind.iteration, Kind.info, Kind.finished] :=
  ⟨by decide, by decide,
    (early_stop_after_first_round unreachableCycleGraph (.num 1) 1 rfl (by decide) (by decide)
      (by decide)).1⟩

/-! ## Unreachable nodes (C7) -/

/-- C7: for integer weights of any sign and a start id denoting a node, in the
`finished` step of `dijkstra`, of `bellmanFord` (when it ends with one) and of
`distanceVector`, every node not reachable from the start has distance
`Infinity` and predecessor `null`. -/
theorem unreachable_nodes_infinity_null (g : Graph) (start : NodeId) (s : Int)
    (hkey : start.key = .num s) (hs : s ∈ g.nodes) (fuel : Nat)
    (hf : 2 * g.edges.length + 2 ≤ fuel) :
    (∃ steps distances previous, dijkstra fuel g start = some steps ∧
      steps.getLast? = some (createStep .finished (dataDP distances previous)
        "Dijkstra completed." [] []) ∧
      ∀ v ∈ g.nodes, ¬ Reachable g s v →
        Obj.get distances (.num v) = some .infinity ∧
        Obj.get previous (.num v) = some none) ∧
    (∀ last, (bellmanFord g start).getLast? = some last → last.type = .finished →
      ∃ distances previous, last.data = dataDP distances previous ∧
        ∀ v ∈ g.nodes, ¬ Reachable g s v →
          Obj.get distances (.num v) = some .infinity ∧
          Obj.get previous (.num v) = some none) ∧
    (∃ distances previous,
      (distanceVector g start).getLast? = some (createStep .finished
        (dataDP distances previous) "Distance Vector Protocol Converged (Simulated)." [] []) ∧
      ∀ v ∈ g.nodes, ¬ Reachable g s v →
        Obj.get distances (.num v) = some .infinity ∧
        Obj.get previous (.num v) = some none) := by
  have hfound := startFound_of_key hkey hs
  have hmaps := bf_final_maps g start s hkey hs
  refine ⟨?_, ?_, ?_⟩
  · obtain ⟨steps, st, _, hd, hok, _, _⟩ := dijkstra_valid g start s hkey hs fuel hf
    exact ⟨_, st.distances, st.previous, hd, getLast?_cons_append_singleton _ _ _,
      fun v hv hnr => hok.unreachable v hv hnr⟩
  · intro last hlast hfin
    rw [bellmanFord_found g start hfound] at hlast
    rcases bfCheck_cases g (bfRounds g (g.nodes.length - 1) 0
        (RState.mk (initDistances g start) (initPrevious g) false)).2 with
      ⟨_, hc⟩ | ⟨e, _, _, hc⟩
    · rw [hc, getLast?_cons_append_singleton] at hlast
      simp only [Option.some.injEq] at hlast
      subst hlast
      exact ⟨_, _, rfl, fun v hv hnr => hmaps.unreachable v hv hnr⟩
    · rw [hc, getLast?_cons_append_singleton] at hlast
      simp only [Option.some.injEq] at hlast
      subst hlast
      simp [createStep] at hfin
  · rw [distanceVector_found g start hfound]
    exact ⟨_, _, getLast?_cons_append_singleton _ _ _,
      fun v hv hnr => hmaps.unreachable v hv hnr⟩

/-- Witness for C7: the graph with a cycle away from the start node 1. -/
theorem unreachable_nodes_infinity_null_witness :
    2 * unreachableCycleGraph.edges.length + 2 ≤ 6 ∧
    ∃ steps distances previous, dijkstra 6 unreachableCycleGraph (.num 1) = some steps ∧
      steps.getLast? = some (createStep .finished (dataDP distances previous)
        "Dijkstra completed." [] []) ∧
      ∀ v ∈ unreachableCycleGraph.nodes, ¬ Reachable unreachableCycleGraph 1 v →
        Obj.get distances (.num v) = some .infinity ∧
        Obj.get previous (.num v) = some none :=
  ⟨by decide,
    (unreachable_nodes_infinity_null unreachableCycleGraph (.num 1) 1 rfl (by decide) 6
      (by decide)).1⟩

/-! ## Distances never increase (C9) -/

/-- C9: for integer weights and a start id denoting a node, along the step
sequences of `dijkstra` and `bellmanFord` the distance of every node never
increases: of any two steps, the later one shows for every node a distance at
most the one the earlier step shows. -/
theorem distances_never_increase (g : Graph) (start : NodeId) (s : Int)
    (hkey : start.key = .num s) (hs : s ∈ g.nodes) (fuel : Nat)
    (hf : 2 * g.edges.length + 2 ≤ fuel) :
    (∃ steps, dijkstra fuel g start = some steps ∧
      steps.Pairwise (fun a b => StepLe g b a)) ∧
    (bellmanFord g start).Pairwise (fun a b => StepLe g b a) := by
  have hinit := MapsOk.init g start s hkey hs
  constructor
  · obtain ⟨steps, st, _, hd, hok, htr, _⟩ := dijkstra_valid g start s hkey hs fuel hf
    refine ⟨_, hd, ?_⟩
    exact (TraceMono.cons hinit.defined (carries_dataD _ _ _ _ _)
      (TraceMono.snoc hok.defined (carries_dataDP _ _ _ _ _ _) htr)).2.2
  · rw [bellmanFord_found g start (startFound_of_key hkey hs)]
    obtain ⟨hok, htr, _, _⟩ := bfRounds_spec (g.nodes.length - 1) 0
      (RState.mk (initDistances g start) (initPrevious g) false) hinit
    rcases bfCheck_cases g (bfRounds g (g.nodes.length - 1) 0
        (RState.mk (initDistances g start) (initPrevious g) false)).2 with
      ⟨_, hc⟩ | ⟨e, _, _, hc⟩
    · rw [hc]
      exact (TraceMono.cons hinit.defined (carries_dataD _ _ _ _ _)
        (TraceMono.snoc hok.defined (carries_dataDP _ _ _ _ _ _) htr)).2.2
    · rw [hc]
      exact (TraceMono.cons hinit.defined (carries_dataD _ _ _ _ _)
        (TraceMono.snoc hok.defined (carries_dataD _ _ _ _ _) htr)).2.2

/-- Witness for C9: the sample graph from node 1. -/
theorem distances_never_increase_witness :
    2 * sampleGraph.edges.length + 2 ≤ 16 ∧
    (bellmanFord sampleGraph (.num 1)).Pairwise (fun a b => StepLe sampleGraph b a) :=
  ⟨by decide, (distances_never_increase sampleGraph (.num 1) 1 rfl (by decide) 16 (by decide)).2⟩

/-! ## Dijkstra distances at `finished` (C1) -/

/-- C1, as the code has it: for a well-formed graph whose edge weights are
all non-negative and add up to at most 2^53 (no sum of the run is rounded
then), and a start id denoting one of its nodes, `dijkstra` ends with a
`finished` step whose distances are, for every node, the true shortest-path
cost from the start: 0 for the start itself, `Infinity` for an unreachable
node. -/
theorem dijkstra_finished_shortest (g : Graph) (start : NodeId) (s : Int)
    (hwf : WellFormed g) (hnn : ∀ e ∈ g.edges, 0 ≤ e.weight)
    (hsum : totalWeight g ≤ 2 ^ 53) (hkey : start.key = .num s)
    (hs : s ∈ g.nodes) (fuel : Nat) (hf : 2 * g.edges.length + 2 ≤ fuel) :
    ∃ steps distances previous, dijkstra fuel g start = some steps ∧
      steps.getLast? = some (createStep .finished (dataDP distances previous)
        "Dijkstra completed." [] []) ∧
      (∀ v ∈ g.nodes, ∃ d, Obj.get distances (.num v) = some d ∧ ShortestCost g s v d) ∧
      Obj.get distances (.num s) = some (.fin 0) := by
  obtain ⟨steps, st, hrun, hd⟩ := dijkstra_found g start fuel (startFound_of_key hkey hs) hf
  obtain ⟨hinv, hpq⟩ := loopRun_nn hwf hnn hsum hrun (nn_init g start s hkey hs)
  obtain ⟨h1, h2⟩ := nn_final hnn hinv hpq
  exact ⟨_, st.distances, st.previous, hd, getLast?_cons_append_singleton _ _ _, h1, h2⟩

/-- Witness for C1: the sample graph, with the start given as the string "1"
the way the page passes it. -/
theorem dijkstra_finished_shortest_witness :
    WellFormed sampleGraph ∧ (∀ e ∈ sampleGraph.edges, 0 ≤ e.weight) ∧
    totalWeight sampleGraph ≤ 2 ^ 53 ∧ (NodeId.str "1").key = .num 1 ∧
    ∃ steps distances previous, dijkstra 16 sampleGraph (.str "1") = some steps ∧
      steps.getLast? = some (createStep .finished (dataDP distances previous)
        "Dijkstra completed." [] []) ∧
      (∀ v ∈ sampleGraph.nodes, ∃ d, Obj.get distances (.num v) = some d ∧
        ShortestCost sampleGraph 1 v d) ∧
      Obj.get distances (.num 1) = some (.fin 0) :=
  ⟨by unfold WellFormed; decide, by decide, by decide, by decide,
    dijkstra_finished_shortest sampleGraph (.str "1") 1 (by unfold WellFormed; decide)
      (by decide) (by decide) (by decide) (by decide) 16 (by decide)⟩

/-- C1 fails as stated: on the path 1 -> 2 -> 3 with the non-negative weights
2^53 and 1, `dijkstra` from node 1 ends with a `finished` step that carries
the distance 2^53 for node 3 (the sum 2^53 + 1 is rounded to the nearest
double), while the shortest-path cost from node 1 to node 3 is 2^53 + 1. -/
theorem dijkstra_rounds_large_sum :
    WellFormed largeSumGraph ∧ (∀ e ∈ largeSumGraph.edges, 0 ≤ e.weight) ∧
    (1 : Int) ∈ largeSumGraph.nodes ∧
    ((dijkstra 6 largeSumGraph (.num 1)).bind List.getLast?).map
        (fun a => (a.type, stepDist a 3)) =
      some (Kind.finished, some (Dist.fin 9007199254740992)) ∧
    ShortestCost largeSumGraph 1 3 (.fin 9007199254740993) ∧
    ¬ ShortestCost largeSumGraph 1 3 (.fin 9007199254740992) :=
  ⟨by unfold WellFormed; decide, by decide, by decide, by decide, largeSumGraph_cost.1,
    largeSumGraph_cost.2⟩

/-! ## Step counts (C10) -/

/-- C10 at a failing input: on the two-node graph with edges 1 -> 2 (weight 1)
and 2 -> 1 (weight -5), started with the string "1" (which denotes node 1 and
passes the start test), `dijkstra` visits node 1 twice, once under the string
and once under the number, and yields three `check` and three `update` steps
although the graph has two edges. -/
theorem dijkstra_string_start_revisits :
    (NodeId.str "1").key = .num 1 ∧
    startFound negativeCycleGraph (.str "1") = true ∧
    negativeCycleGraph.edges.length = 2 ∧
    (dijkstra 6 negativeCycleGraph (.str "1")).map
        (fun steps => steps.map (fun a => (a.type, a.highlightNodes))) =
      some [(Kind.init, [.str "1"]), (Kind.visit, [.str "1"]),
        (Kind.check, [.str "1", .num 2]), (Kind.update, [.num 2]),
        (Kind.visit, [.num 2]), (Kind.check, [.num 2, .num 1]), (Kind.update, [.num 1]),
        (Kind.visit, [.num 1]), (Kind.check, [.num 1, .num 2]), (Kind.update, [.num 2]),
        (Kind.finished, [])] ∧
    (dijkstra 6 negativeCycleGraph (.str "1")).map (visitsOfNode 1) = some 2 ∧
    (dijkstra 6 negativeCycleGraph (.str "1")).map (countKind .check) = some 3 ∧
    (dijkstra 6 negativeCycleGraph (.str "1")).map (countKind .update) = some 3 := by
  refine ⟨by decide, by decide, by decide, by decide, by decide, by decide, by decide⟩

/-! ## Distance vector against Bellman-Ford (C14) -/

theorem dropLast_cons_append_singleton (a : Step) (l : List Step) (b : Step) :
    (a :: (l ++ [b])).dropLast = a :: l := by
  have : a :: (l ++ [b]) = (a :: l) ++ [b] := rfl
  rw [this, List.dropLast_concat]

/-- C14: for a start id denoting a node, the `distanceVector` sequence without
its final `finished` step and the `bellmanFord` sequence without its final
step agree step by step up to the message text (same kinds, same data, same
highlighted nodes and edges, same order); `distanceVector` then ends with a
`finished` step carrying the distances and previous that `bellmanFord` holds
when its relaxation loop ends, which are the distances the last step of
`bellmanFord` (`finished` or `error`) carries. -/
theorem distanceVector_matches_bellmanFord (g : Graph) (start : NodeId) (s : Int)
    (hkey : start.key = .num s) (hs : s ∈ g.nodes) :
    (distanceVector g start).dropLast.map eraseMessage =
      (bellmanFord g start).dropLast.map eraseMessage ∧
    (distanceVector g start).getLast? = some (createStep .finished
      (dataDP
        (bfRounds g (g.nodes.length - 1) 0
          (RState.mk (initDistances g start) (initPrevious g) false)).2.distances
        (bfRounds g (g.nodes.length - 1) 0
          (RState.mk (initDistances g start) (initPrevious g) false)).2.previous)
      "Distance Vector Protocol Converged (Simulated)." [] []) ∧
    ∃ last, (bellmanFord g start).getLast? = some last ∧
      ((last.type = .finished ∧ last.data = dataDP
          (bfRounds g (g.nodes.length - 1) 0
            (RState.mk (initDistances g start) (initPrevious g) false)).2.distances
          (bfRounds g (g.nodes.length - 1) 0
            (RState.mk (initDistances g start) (initPrevious g) false)).2.previous) ∨
        (last.type = .error ∧ last.data = dataD
          (bfRounds g (g.nodes.length - 1) 0
            (RState.mk (initDistances g start) (initPrevious g) false)).2.distances)) := by
  have hfound := startFound_of_key hkey hs
  have hbf := bellmanFord_found g start hfound
  have hdv := distanceVector_found g start hfound
  have hr := (dvRounds_eq g (g.nodes.length - 1) 0
    (RState.mk (initDistances g start) (initPrevious g) false)).2
  rcases bfCheck_cases g (bfRounds g (g.nodes.length - 1) 0
      (RState.mk (initDistances g start) (initPrevious g) false)).2 with
    ⟨_, hc⟩ | ⟨e, _, _, hc⟩
  · rw [hc] at hbf
    rw [hbf, hdv]
    refine ⟨?_, getLast?_cons_append_singleton _ _ _, _,
      getLast?_cons_append_singleton _ _ _, Or.inl ⟨rfl, rfl⟩⟩
    rw [dropLast_cons_append_singleton, dropLast_cons_append_singleton, List.map_cons,
      List.map_cons, hr]
    rfl
  · rw [hc] at hbf
    rw [hbf, hdv]
    refine ⟨?_, getLast?_cons_append_singleton _ _ _, _,
      getLast?_cons_append_singleton _ _ _, Or.inr ⟨rfl, rfl⟩⟩
    rw [dropLast_cons_append_singleton, dropLast_cons_append_singleton, List.map_cons,
      List.map_cons, hr]
    rfl

/-- Witness for C14: the graph with the negative cycle 1 -> 2 -> 1, on which
`bellmanFord` ends with `error` and `distanceVector` with `finished`. -/
theorem distanceVector_matches_bellmanFord_witness :
    (1 : Int) ∈ negativeCycleGraph.nodes ∧
    (distanceVector negativeCycleGraph (.num 1)).dropLast.map eraseMessage =
      (bellmanFord negativeCycleGraph (.num 1)).dropLast.map eraseMessage ∧
    ((bellmanFord negativeCycleGraph (.num 1)).getLast?).map (fun a => a.type) =
      some Kind.error ∧
    ((distanceVector negativeCycleGraph (.num 1)).getLast?).map (fun a => a.type) =
      some Kind.finished :=
  ⟨by decide,
    (distanceVector_matches_bellmanFord negativeCycleGraph (.num 1) 1 rfl (by decide)).1,
    by decide, by decide⟩

/-! ## Snapshots are live references (C11) -/

theorem dijkstra_traceMono (g : Graph) (start : NodeId) (s : Int) (hkey : start.key = .num s)
    (hs : s ∈ g.nodes) (fuel : Nat) (hf : 2 * g.edges.length + 2 ≤ fuel) :
    ∃ steps d1, dijkstra fuel g start = some steps ∧
      TraceMono g (initDistances g start) steps d1 := by
  have hinit := MapsOk.init g start s hkey hs
  obtain ⟨steps, st, _, hd, hok, htr, _⟩ := dijkstra_valid g start s hkey hs fuel hf
  exact ⟨_, st.distances, hd, TraceMono.cons hinit.defined (carries_dataD _ _ _ _ _)
    (TraceMono.snoc hok.defined (carries_dataDP _ _ _ _ _ _) htr)⟩

theorem bellmanFord_traceMono (g : Graph) (start : NodeId) (s : Int)
    (hkey : start.key = .num s) (hs : s ∈ g.nodes) :
    ∃ d1, TraceMono g (initDistances g start) (bellmanFord g start) d1 := by
  have hinit := MapsOk.init g start s hkey hs
  rw [bellmanFord_found g start (startFound_of_key hkey hs)]
  obtain ⟨hok, htr, _, _⟩ := bfRounds_spec (g.nodes.length - 1) 0
    (RState.mk (initDistances g start) (initPrevious g) false) hinit
  rcases bfCheck_cases g (bfRounds g (g.nodes.length - 1) 0
      (RState.mk (initDistances g start) (initPrevious g) false)).2 with
    ⟨_, hc⟩ | ⟨e, _, _, hc⟩
  · rw [hc]
    exact ⟨_, TraceMono.cons hinit.defined (carries_dataD _ _ _ _ _)
      (TraceMono.snoc hok.defined (carries_dataDP _ _ _ _ _ _) htr)⟩
  · rw [hc]
    exact ⟨_, TraceMono.cons hinit.defined (carries_dataD _ _ _ _ _)
      (TraceMono.snoc hok.defined (carries_dataD _ _ _ _ _) htr)⟩

theorem distanceVector_traceMono (g : Graph) (start : NodeId) (s : Int)
    (hkey : start.key = .num s) (hs : s ∈ g.nodes) :
    ∃ d1, TraceMono g (initDistances g start) (distanceVector g start) d1 := by
  have hinit := MapsOk.init g start s hkey hs
  rw [distanceVector_found g start (startFound_of_key hkey hs)]
  obtain ⟨hok, htr, _, _⟩ := bfRounds_spec (g.nodes.length - 1) 0
    (RState.mk (initDistances g start) (initPrevious g) false) hinit
  have htr2 := traceMono_of_erase (dvRounds_eq g (g.nodes.length - 1) 0
    (RState.mk (initDistances g start) (initPrevious g) false)).2 htr
  exact ⟨_, TraceMono.cons hinit.defined (carries_dataD _ _ _ _ _)
    (TraceMono.snoc hok.defined (carries_dataDP _ _ _ _ _ _) htr2)⟩

/-- C11, as the code has it: in a run from a start id denoting a node, every
step of `dijkstra`, `bellmanFord` and `distanceVector` (and every step of
`linkState` after its leading `info` step, whose data has no distances) holds
the run's one `distances` object, not a copy.  Read at the moment it is
yielded, each step shows the contents the by-contents definitions give it;
read after the caller has pulled a later step, it shows the distances that
later step is yielded with, node by node at most the distances it showed
itself when it was yielded. -/
theorem steps_show_live_distances (g : Graph) (start : NodeId) (s : Int)
    (hkey : start.key = .num s) (hs : s ∈ g.nodes) (fuel : Nat)
    (hf : 2 * g.edges.length + 2 ≤ fuel) :
    (∃ run, dijkstraRef fuel g start = some run ∧
      dijkstra fuel g start = some (run.map Yield.snapshot) ∧ LiveRun g run ∧
      linkStateRef fuel g start = some (Yield.mk linkStateInfoStepRef Heap.empty :: run) ∧
      linkState fuel g start =
        some ((Yield.mk linkStateInfoStepRef Heap.empty :: run).map Yield.snapshot) ∧
      (∀ j v, readAt (Yield.mk linkStateInfoStepRef Heap.empty :: run) 0 j v = none) ∧
      (∀ i j v, readAt (Yield.mk linkStateInfoStepRef Heap.empty :: run) (i + 1) (j + 1) v =
        readAt run i j v)) ∧
    ((bellmanFordRef g start).map Yield.snapshot = bellmanFord g start ∧
      LiveRun g (bellmanFordRef g start)) ∧
    ((distanceVectorRef g start).map Yield.snapshot = distanceVector g start ∧
      LiveRun g (distanceVectorRef g start)) := by
  have hfound := startFound_of_key hkey hs
  refine ⟨?_, ?_, ?_⟩
  · obtain ⟨steps, d1, hd, htr⟩ := dijkstra_traceMono g start s hkey hs fuel hf
    have hlink := dijkstraRef_link fuel g start
    rw [hd] at hlink
    cases hr : dijkstraRef fuel g start with
    | none => simp [hr] at hlink
    | some run =>
      simp only [hr, Option.map_some', Option.some.injEq] at hlink
      have hall := dijkstraRef_holds fuel g start hfound run hr
      rw [← hlink] at htr hd
      refine ⟨run, rfl, hd, liveRun_of_holds hall htr, by simp only [linkStateRef, hr], ?_,
        ?_, ?_⟩
      · simp only [linkState, hd]
        rfl
      · intro j v
        unfold readAt
        cases (Yield.mk linkStateInfoStepRef Heap.empty :: run)[j]? <;>
          simp [stepDist, RefStep.read, linkStateInfoStepRef, createStepRef]
      · intro i j v
        simp [readAt]
  · obtain ⟨d1, htr⟩ := bellmanFord_traceMono g start s hkey hs
    obtain ⟨hlink, hall⟩ := bellmanFordRef_link g start
    rw [← hlink] at htr
    exact ⟨hlink, liveRun_of_holds (hall hfound) htr⟩
  · obtain ⟨d1, htr⟩ := distanceVector_traceMono g start s hkey hs
    obtain ⟨hlink, hall⟩ := distanceVectorRef_link g start
    rw [← hlink] at htr
    exact ⟨hlink, liveRun_of_holds (hall hfound) htr⟩

/-- Witness for C11 as amended: the sample graph from node 1. -/
theorem steps_show_live_distances_witness :
    2 * sampleGraph.edges.length + 2 ≤ 16 ∧ (1 : Int) ∈ sampleGraph.nodes ∧
    LiveRun sampleGraph (bellmanFordRef sampleGraph (.num 1)) :=
  ⟨by decide, by decide,
    (steps_show_live_distances sampleGraph (.num 1) 1 rfl (by decide) 16 (by decide)).2.1.2⟩

/-- C11 fails as stated: on the sample graph from node 1 the `init` step of
`dijkstra` shows distance `Infinity` for node 2 when it is yielded, and once
the caller has pulled the step with index 3 (the first `update`) the same
step shows distance 4 for node 2: the step and the run share one object. -/
theorem init_step_reads_later_distance :
    (dijkstraRef 16 sampleGraph (.num 1)).map
        (fun run => (run[0]?.map (fun y => (y.step.type, y.step.data)),
          run[3]?.map (fun y => (y.step.type, y.step.data)),
          readAt run 0 0 2, readAt run 0 3 2)) =
      some (some (Kind.init, refD 0), some (Kind.update, refD 0),
        some Dist.infinity, some (Dist.fin 4)) ∧
    (some (Dist.fin 4) : Option Dist) ≠ some Dist.infinity := by
  constructor
  · decide
  · decide

/-! ## Negative-cycle detection is exact (C12) -/

/-- C12, as the code has it: for a well-formed graph with integer weights such
that the number of nodes times the sum of the absolute values of the weights
is at most 2^53 (no sum of the run is rounded then), and a start id denoting
one of its nodes, `bellmanFord` ends with the `error` step "Negative weight
cycle detected!" exactly when the graph has a negative-weight directed cycle
reachable from the start, and with a `finished` step exactly when it has
none. -/
theorem bellmanFord_error_iff_negative_cycle (g : Graph) (start : NodeId) (s : Int)
    (hwf : WellFormed g) (hsum : g.nodes.length * totalWeight g ≤ 2 ^ 53)
    (hkey : start.key = .num s) (hs : s ∈ g.nodes) :
    ∃ pre last, bellmanFord g start = pre ++ [last] ∧
      ((last.type = .error ∧ last.message = "Negative weight cycle detected!") ↔
        ReachableNegCycle g s) ∧
      (last.type = .finished ↔ ¬ ReachableNegCycle g s) := by
  have hinit := MapsOk.init g start s hkey hs
  have hmaps := (bfRounds_spec (g.nodes.length - 1) 0
    (RState.mk (initDistances g start) (initPrevious g) false) hinit).1
  obtain ⟨_, hb, hle⟩ := @bf_final_safe g start s hkey hs hsum
  rw [bellmanFord_found g start (startFound_of_key hkey hs)]
  by_cases hcyc : ReachableNegCycle g s
  · rcases bfCheck_cases g (bfRounds g (g.nodes.length - 1) 0
        (RState.mk (initDistances g start) (initPrevious g) false)).2 with
      ⟨hfix, _⟩ | ⟨e, _, _, hc⟩
    · obtain ⟨v, a, c, hreach, hloop, hneg⟩ := hcyc
      have := fixpoint_no_negative_cycle hwf hmaps hb hle hfix hreach hloop
      omega
    · rw [hc]
      refine ⟨_ :: _, _, rfl, ?_, ?_⟩
      · exact ⟨fun _ => hcyc, fun _ => ⟨rfl, rfl⟩⟩
      · constructor
        · intro h
          exact absurd h (by simp [createStep])
        · intro h
          exact absurd hcyc h
  · have hfixed := bf_final_fixed hwf hkey hs hsum hcyc
    rcases bfCheck_cases g (bfRounds g (g.nodes.length - 1) 0
        (RState.mk (initDistances g start) (initPrevious g) false)).2 with
      ⟨_, hc⟩ | ⟨e, he, hrel, _⟩
    · rw [hc]
      refine ⟨_ :: _, _, rfl, ?_, ?_⟩
      · constructor
        · rintro ⟨h, _⟩
          exact absurd h (by simp [createStep])
        · intro h
          exact absurd h hcyc
      · exact ⟨fun _ => hcyc, fun _ => rfl⟩
    · rw [hfixed e he] at hrel
      exact absurd hrel (by simp)

/-- Witness for C12: the sample graph from node 1. -/
theorem bellmanFord_error_iff_negative_cycle_witness :
    WellFormed sampleGraph ∧ sampleGraph.nodes.length * totalWeight sampleGraph ≤ 2 ^ 53 ∧
    (1 : Int) ∈ sampleGraph.nodes ∧
    ∃ pre last, bellmanFord sampleGraph (.num 1) = pre ++ [last] ∧
      ((last.type = .error ∧ last.message = "Negative weight cycle detected!") ↔
        ReachableNegCycle sampleGraph 1) ∧
      (last.type = .finished ↔ ¬ ReachableNegCycle sampleGraph 1) :=
  ⟨by unfold WellFormed; decide, by decide, by decide,
    bellmanFord_error_iff_negative_cycle sampleGraph (.num 1) 1
      (by unfold WellFormed; decide) (by decide) rfl (by decide)⟩

/-- C12 fails as stated: on the cycle 1 -> 2 -> 1 with the weights -2^53 and
2^53 - 1, of total weight -1 and reachable from node 1, the last step of
`bellmanFord` from node 1 is `finished`, not `error`: the closing pass rounds
-1 + -2^53 to -2^53 and finds no edge that passes the test. -/
theorem bellmanFord_rounded_cycle_finishes :
    WellFormed roundedCycleGraph ∧ (1 : Int) ∈ roundedCycleGraph.nodes ∧
    ReachableNegCycle roundedCycleGraph 1 ∧
    ((bellmanFord roundedCycleGraph (.num 1)).getLast?).map
        (fun a => (a.type, stepDist a 1, stepDist a 2)) =
      some (Kind.finished, some (Dist.fin (-1)), some (Dist.fin (-9007199254740992))) :=
  ⟨by unfold WellFormed; decide, by decide,
    ⟨1, 0, -1, Walk.nil 1, roundedCycleGraph_cycle, by decide⟩, by decide⟩

/-- The bound on the weights has to grow with the number of rounds: on
`deepCycleGraph`, whose weights are at most 2^52 in magnitude and add up to
2^53 in absolute value, the cycle 3 -> 4 -> 3 of weight -1 is reachable from
node 1, and `bellmanFord` from node 1 still ends with `finished`, with both
nodes of the cycle at -2^53. -/
theorem bellmanFord_deep_cycle_finishes :
    WellFormed deepCycleGraph ∧ totalWeight deepCycleGraph = 2 ^ 53 ∧
    ReachableNegCycle deepCycleGraph 1 ∧
    ((bellmanFord deepCycleGraph (.num 1)).getLast?).map
        (fun a => (a.type, stepDist a 3, stepDist a 4)) =
      some (Kind.finished, some (Dist.fin (-9007199254740992)),
        some (Dist.fin (-9007199254740992))) := by
  have hreach : Walk deepCycleGraph 1 3 (-9007199254740991) :=
    Walk.step (Edge.mk "2-3" 2 3 (-4503599627370495))
      (Walk.step (Edge.mk "1-2" 1 2 (-4503599627370496)) (Walk.nil 1) (by decide) rfl rfl rfl)
      (by decide) rfl rfl (by decide)
  have hcyc : Walk deepCycleGraph 3 3 (-1) :=
    Walk.step (Edge.mk "4-3" 4 3 (-1))
      (Walk.step (Edge.mk "3-4" 3 4 0) (Walk.nil 3) (by decide) rfl rfl rfl)
      (by decide) rfl rfl (by decide)
  exact ⟨by unfold WellFormed; decide, by decide, ⟨3, _, -1, hreach, hcyc, by decide⟩,
    by decide⟩

/-! ## The predecessor map at `finished` (C13) -/

/-- The hops of a chain of `previous` entries form a walk of the graph from
the start. -/
theorem prevPath_walk {g : Graph} {distances : Obj Dist} {previous : Obj (Option NodeId)}
    {s v c : Int} (h : PrevPath g distances previous s v c) : Walk g s v c := by
  induction h with
  | start => exact Walk.nil s
  | step u e _ _ he hf _ _ _ ih => exact Walk.snoc e ih he hf

/-- C13, as the code has it: for a well-formed graph with non-negative weights
that add up to at most 2^53 (no sum of the run is rounded then), and a start
id denoting one of its nodes, in the `finished` step of `dijkstra` the
predecessor of the start is `null`, and every other node `v` with a finite
distance has as predecessor an identifier of a node `a` with an edge from `a`
to `v` whose weight is exactly `distances[v] - distances[a]`; following
`previous` from `v` leads to the start along a path whose weight is
`distances[v]`, the shortest-path cost. -/
theorem dijkstra_previous_consistent (g : Graph) (start : NodeId) (s : Int)
    (hwf : WellFormed g) (hnn : ∀ e ∈ g.edges, 0 ≤ e.weight)
    (hsum : totalWeight g ≤ 2 ^ 53) (hkey : start.key = .num s)
    (hs : s ∈ g.nodes) (fuel : Nat) (hf : 2 * g.edges.length + 2 ≤ fuel) :
    ∃ steps distances previous, dijkstra fuel g start = some steps ∧
      steps.getLast? = some (createStep .finished (dataDP distances previous)
        "Dijkstra completed." [] []) ∧
      Obj.get previous start = some none ∧
      ∀ v ∈ g.nodes, ∀ d, Obj.get distances (.num v) = some (.fin d) →
        PrevPath g distances previous s v d ∧ ShortestCost g s v (.fin d) ∧
        (v ≠ s → ∃ u a e x, Obj.get previous (.num v) = some (some u) ∧
          u.key = NodeId.num a ∧ a ∈ g.nodes ∧ e ∈ g.edges ∧ e.from_ = a ∧ e.to_ = v ∧
          Obj.get distances (.num a) = some (.fin x) ∧ d = x + e.weight) := by
  obtain ⟨steps, st, hrun, hd⟩ := dijkstra_found g start fuel (startFound_of_key hkey hs) hf
  have hnn0 := nn_init g start s hkey hs
  obtain ⟨hinv, hpq⟩ := loopRun_nn hwf hnn hsum hrun hnn0
  have hprev := loopRun_prev hwf hnn hsum hrun hnn0 (prev_init g start s hkey hs)
  obtain ⟨hshort, _⟩ := nn_final hnn hinv hpq
  refine ⟨_, st.distances, st.previous, hd, getLast?_cons_append_singleton _ _ _, ?_, ?_⟩
  · rw [get_of_key_eq st.previous hkey.symm]
    exact hprev.startNull
  · intro v hv d hvd
    have hch := hprev.chain v d hvd
    refine ⟨chain_prevPath hch, ?_, ?_⟩
    · obtain ⟨d2, hd2, hsc⟩ := hshort v hv
      rw [hvd] at hd2
      simp only [Option.some.injEq] at hd2
      rw [← hd2] at hsc
      exact hsc
    · intro hvs
      cases hch with
      | start => exact absurd rfl hvs
      | @step a c u e hp hk _ he hfr hda _ _ =>
        exact ⟨u, a, e, c, hp, hk, by rw [← hfr]; exact (hwf e he).1, he, hfr, rfl, hda, rfl⟩

/-- Witness for C13: the sample graph, with the start given as the string "1"
the way the page passes it. -/
theorem dijkstra_previous_consistent_witness :
    WellFormed sampleGraph ∧ (∀ e ∈ sampleGraph.edges, 0 ≤ e.weight) ∧
    totalWeight sampleGraph ≤ 2 ^ 53 ∧ (NodeId.str "1").key = .num 1 ∧
    ∃ steps distances previous, dijkstra 16 sampleGraph (.str "1") = some steps ∧
      steps.getLast? = some (createStep .finished (dataDP distances previous)
        "Dijkstra completed." [] []) ∧
      Obj.get previous (.str "1") = some none ∧
      ∀ v ∈ sampleGraph.nodes, ∀ d, Obj.get distances (.num v) = some (.fin d) →
        PrevPath sampleGraph distances previous 1 v d ∧ ShortestCost sampleGraph 1 v (.fin d) ∧
        (v ≠ 1 → ∃ u a e x, Obj.get previous (.num v) = some (some u) ∧
          u.key = NodeId.num a ∧ a ∈ sampleGraph.nodes ∧ e ∈ sampleGraph.edges ∧
          e.from_ = a ∧ e.to_ = v ∧
          Obj.get distances (.num a) = some (.fin x) ∧ d = x + e.weight) :=
  ⟨by unfold WellFormed; decide, by decide, by decide, by decide,
    dijkstra_previous_consistent sampleGraph (.str "1") 1 (by unfold WellFormed; decide)
      (by decide) (by decide) (by decide) (by decide) 16 (by decide)⟩

/-- C13 fails as stated: on the path 1 -> 2 -> 3 with the non-negative weights
2^53 and 1, the `finished` step of `dijkstra` from node 1 has node 2 as the
predecessor of node 3 and the distance 2^53 for both, although the only edge
from node 2 to node 3 has weight 1: `distances[3]` is not
`distances[2] + 1`, and not the shortest-path cost 2^53 + 1 from node 1. -/
theorem dijkstra_previous_rounded :
    WellFormed largeSumGraph ∧ (∀ e ∈ largeSumGraph.edges, 0 ≤ e.weight) ∧
    (1 : Int) ∈ largeSumGraph.nodes ∧
    (dijkstra 6 largeSumGraph (.num 1)).bind List.getLast? =
      some (createStep .finished
        (dataDP
          [(.num 1, .fin 0), (.num 2, .fin 9007199254740992),
            (.num 3, .fin 9007199254740992)]
          [(.num 1, none), (.num 2, some (.num 1)), (.num 3, some (.num 2))])
        "Dijkstra completed." [] []) ∧
    (∀ e ∈ largeSumGraph.edges, e.from_ = 2 → e.to_ = 3 →
      (9007199254740992 : Int) ≠ 9007199254740992 + e.weight) ∧
    ¬ ShortestCost largeSumGraph 1 3 (.fin 9007199254740992) :=
  ⟨by unfold WellFormed; decide, by decide, by decide, by decide, by decide,
    largeSumGraph_cost.2⟩

end Algorithms
